import Mathlib

/-!
# An LRU cache with per-entry TTL: model of `internal/list.go` and `lru_cache.go`

The Go program keeps its entries in a circular doubly linked list with a sentinel
(`internal.LruList`), a map from 64-bit fingerprints to entry pointers (`Cache.items`)
and a slice of entry pointers meant to be sorted by descending expiry
(`Cache.entriesWithTTL`).

The model is a shallow embedding with an explicit heap:

* a pointer is a natural number, `0` being the address of the sentinel `l.root`;
  a nil pointer is `none`;
* the heap is a function from addresses to `Entry` records, written field by field
  exactly where the Go code writes a field;
* a nil dereference or a slice-bounds violation is the result `none` (a Go panic);
* `time.Time` and `time.Duration` are integers (nanoseconds), the clock reading
  `time.Now()` is an explicit argument `now` of every operation that reads it;
* the external `hashstructure.Hash` is a parameter `hasher : K → Option Nat`
  (`none` is a hashing error);
* the callback `onEvict` is modelled by whether it is non-nil and by the log of the
  argument pairs it has been invoked with;
* the mutex, the ticker and the `done` channel are not modelled: every operation
  runs under the lock, so operations are steps of a sequential state machine.
-/

namespace LRU

/-- Address of an `internal.Entry`. Address `0` is `&l.root`. -/
abbrev Ptr := Nat

/-- The struct `internal.Entry`. The field `List` holds whether `entry.List == l`
for the single list `l` a cache owns (`false` is the nil pointer). -/
structure Entry (K V : Type) where
  next : Option Ptr
  prev : Option Ptr
  List : Bool
  Key : K
  Value : V
  ExpiresAt : Int

/-- The heap of entries. -/
abbrev Mem (K V : Type) := Ptr → Entry K V

/-- The struct `internal.LruList` together with the heap its entries live in:
`mem 0` is `l.root`, `fresh` is the address the next allocation returns. -/
structure LruList (K V : Type) where
  mem : Mem K V
  len : Int
  fresh : Ptr

section Heap
variable {K V : Type}

/-- Heap write `p.next = x`. -/
def setNext (m : Mem K V) (p : Ptr) (x : Option Ptr) : Mem K V :=
  fun q => if q = p then { m q with next := x } else m q

/-- Heap write `p.prev = x`. -/
def setPrev (m : Mem K V) (p : Ptr) (x : Option Ptr) : Mem K V :=
  fun q => if q = p then { m q with prev := x } else m q

/-- Heap write `p.List = b`. -/
def setList (m : Mem K V) (p : Ptr) (b : Bool) : Mem K V :=
  fun q => if q = p then { m q with List := b } else m q

/-- Heap write `p.Value = v`. -/
def setValue (m : Mem K V) (p : Ptr) (v : V) : Mem K V :=
  fun q => if q = p then { m q with Value := v } else m q

/-- Heap write `p.ExpiresAt = t`. -/
def setExpiresAt (m : Mem K V) (p : Ptr) (t : Int) : Mem K V :=
  fun q => if q = p then { m q with ExpiresAt := t } else m q

/-- Allocation `&Entry{Value: v, Key: k, ExpiresAt: expiresAt}` at address `p`. -/
def allocEntry (m : Mem K V) (p : Ptr) (k : K) (v : V) (expiresAt : Int) : Mem K V :=
  fun q => if q = p then
      { next := none, prev := none, List := false, Key := k, Value := v, ExpiresAt := expiresAt }
    else m q

end Heap

namespace LruList
variable {K V : Type}

/-- Method `func (l *LruList) Init() *LruList`. -/
def Init (l : LruList K V) : LruList K V :=
  { l with mem := setPrev (setNext l.mem 0 (some 0)) 0 (some 0), len := 0 }

/-- Method `func (l *LruList) Len() int`. -/
def Len (l : LruList K V) : Int := l.len

/-- Method `func (l *LruList) lazyInit()`. -/
def lazyInit (l : LruList K V) : LruList K V :=
  if (l.mem 0).next = none then l.Init else l

/-- Method `func (l *LruList) insert(entry, at *Entry) *Entry`: the six statements in order,
each reading the heap left by the previous one. -/
def insert (l : LruList K V) (entry pos : Ptr) : Option (LruList K V) := do
  let m1 := setPrev l.mem entry (some pos)
  let m2 := setNext m1 entry (m1 pos).next
  let p ← (m2 entry).prev
  let m3 := setNext m2 p (some entry)
  let n ← (m3 entry).next
  let m4 := setPrev m3 n (some entry)
  let m5 := setList m4 entry true
  some { l with mem := m5, len := l.len + 1 }

/-- Method `func (l *LruList) insertValue(k, v any, expiresAt time.Time, at *Entry) *Entry`:
allocates the entry at the fresh address and links it after `pos`. -/
def insertValue (l : LruList K V) (k : K) (v : V) (expiresAt : Int) (pos : Ptr) :
    Option (LruList K V × Ptr) :=
  let e := l.fresh
  let l1 : LruList K V := { l with mem := allocEntry l.mem e k v expiresAt, fresh := e + 1 }
  (l1.insert e pos).map (fun l2 => (l2, e))

/-- Method `func (l *LruList) PushFront(k, v any, expiresAt time.Time) *Entry`. -/
def PushFront (l : LruList K V) (k : K) (v : V) (expiresAt : Int) : Option (LruList K V × Ptr) :=
  l.lazyInit.insertValue k v expiresAt 0

/-- Method `func (l *LruList) Last() *Entry`. -/
def Last (l : LruList K V) : Option Ptr :=
  if l.len = 0 then none else (l.mem 0).prev

/-- Method `func (l *LruList) move(entry, at *Entry)`. -/
def move (l : LruList K V) (entry pos : Ptr) : Option (LruList K V) :=
  if entry = pos then some l else do
    let p ← (l.mem entry).prev
    let m1 := setNext l.mem p (l.mem entry).next
    let n ← (m1 entry).next
    let m2 := setPrev m1 n (m1 entry).prev
    let m3 := setPrev m2 entry (some pos)
    let m4 := setNext m3 entry (m3 pos).next
    let p2 ← (m4 entry).prev
    let m5 := setNext m4 p2 (some entry)
    let n2 ← (m5 entry).next
    let m6 := setPrev m5 n2 (some entry)
    some { l with mem := m6 }

/-- Method `func (l *LruList) MoveToFront(entry *Entry)`. -/
def MoveToFront (l : LruList K V) (entry : Ptr) : Option (LruList K V) :=
  if (l.mem entry).List = false ∨ (l.mem 0).next = some entry then some l
  else l.move entry 0

/-- Method `func (l *LruList) Remove(entry *Entry) any`. -/
def Remove (l : LruList K V) (entry : Ptr) : Option (LruList K V × V) := do
  let n ← (l.mem entry).next
  let m1 := setPrev l.mem n (l.mem entry).prev
  let p ← (m1 entry).prev
  let m2 := setNext m1 p (m1 entry).next
  let m3 := setNext m2 entry none
  let m4 := setPrev m3 entry none
  let m5 := setList m4 entry false
  some ({ l with mem := m5, len := l.len - 1 }, (m5 entry).Value)

/-- Traversal of the list from `p` following `next` until the sentinel is met,
giving up after `fuel` entries. -/
def walk (m : Mem K V) : Nat → Option Ptr → List Ptr
  | 0, _ => []
  | _, none => []
  | fuel + 1, some p => if p = 0 then [] else p :: walk m fuel (m p).next

/-- The entries reachable by traversing the list front to back. No list ever holds
more entries than addresses have been allocated, so `fresh` steps suffice. -/
def toList (l : LruList K V) : List Ptr := walk l.mem l.fresh (l.mem 0).next

end LruList

/-- Function `func NewList() *LruList`: `new(LruList).Init()`; every field of the zero value
is nil, the `any` fields being `default`. -/
def NewList (K V : Type) [Inhabited K] [Inhabited V] : LruList K V :=
  LruList.Init
    { mem := fun _ =>
        { next := none, prev := none, List := false, Key := default, Value := default,
          ExpiresAt := 0 },
      len := 0, fresh := 1 }

/-- The constant `noEvictionTTL = time.Hour * 24 * 365 * 10`, in nanoseconds. -/
def noEvictionTTL : Int := 3600000000000 * 24 * 365 * 10

/-- A value of type `any` handed to the callback `onEvict`: a key or the hashing
error (from the operations), a fingerprint or an entry pointer (from `Clear`). -/
inductive Arg (K : Type) where
  | key (k : K)
  | err
  | hash (h : Nat)
  | entry (p : Ptr)
  deriving DecidableEq, Repr

/-- The struct `Cache`. `items` is the map `map[uint64]*internal.Entry` kept as an
association list with at most one pair for a fingerprint; `onEvict` says whether
the callback is non-nil and `calls` logs the argument pairs it was invoked with. -/
structure Cache (K V : Type) where
  size : Int
  list : LruList K V
  items : List (Nat × Ptr)
  onEvict : Bool
  entriesWithTTL : List Ptr
  calls : List (Arg K × Arg K)

/-- Map lookup `ent, ok := items[hash]`. -/
def mapGet (items : List (Nat × Ptr)) (hash : Nat) : Option Ptr :=
  (items.find? (fun e => e.1 == hash)).map (fun e => e.2)

/-- Map deletion `delete(items, hash)`. -/
def mapDelete (items : List (Nat × Ptr)) (hash : Nat) : List (Nat × Ptr) :=
  items.filter (fun e => e.1 != hash)

/-- Map assignment `items[hash] = ent`. -/
def mapSet (items : List (Nat × Ptr)) (hash : Nat) (ent : Ptr) : List (Nat × Ptr) :=
  mapDelete items hash ++ [(hash, ent)]

/-- The loop
`for idx, ent := range s { if ent == entry { s = append(s[:idx], s[idx+1:]...) } }`
of `removeOldest` and `removeFromEntries`. The range clause evaluates `s` once, so
the loop visits the indices of the original length and reads the backing array
`arr`, which `append` shifts in place; `cur` is the current length of `s`, a prefix
of `arr`. The first argument counts the iterations left, `idx` is the loop index.
Slicing `s[idx+1:]` with `idx+1 > len(s)` panics. -/
def rangeDelete (entry : Ptr) : Nat → Nat → List Ptr → Nat → Option (List Ptr)
  | 0, _, arr, cur => some (arr.take cur)
  | k + 1, idx, arr, cur =>
    if arr[idx]? = some entry then
      if idx + 1 ≤ cur then
        rangeDelete entry k (idx + 1)
          (arr.take idx ++ (arr.drop (idx + 1)).take (cur - (idx + 1)) ++ arr.drop (cur - 1))
          (cur - 1)
      else none
    else rangeDelete entry k (idx + 1) arr cur

/-- The loop `for low < high { mid := (low + high) / 2; ... }` of `insertSorted`,
run for at most the given number of iterations; `exp` reads `ExpiresAt` through a
pointer. Running out of iterations or indexing out of range is `none`. -/
def searchLoop (exp : Ptr → Int) (arr : List Ptr) (newExp : Int) : Nat → Nat → Nat → Option Nat
  | 0, low, high => if low < high then none else some low
  | fuel + 1, low, high =>
    if low < high then
      match arr[(low + high) / 2]? with
      | none => none
      | some e =>
        if exp e > newExp then searchLoop exp arr newExp fuel ((low + high) / 2 + 1) high
        else searchLoop exp arr newExp fuel low ((low + high) / 2)
    else some low

namespace Cache
variable {K V : Type} (hasher : K → Option Nat)

/-- Function `func NewCache(size int, onEvict EvictCallback) (*Cache, error)`; the error is
`none`. The background goroutine it starts is the step `deleteExpired`. -/
def NewCache [Inhabited K] [Inhabited V] (size : Int) (onEvict : Bool) : Option (Cache K V) :=
  if size ≤ 0 then none
  else some
    { size := size, list := NewList K V, items := [], onEvict := onEvict,
      entriesWithTTL := [], calls := [] }

/-- Method `func (c *Cache) Len() int`. -/
def Len (c : Cache K V) : Int := c.items.length

/-- Method `func (c *Cache) Cap() int`. -/
def Cap (c : Cache K V) : Int := c.size

/-- The call `c.onEvict(a, b)`: calling a nil function value panics. -/
def callOnEvict (c : Cache K V) (a b : Arg K) : Option (Cache K V) :=
  if c.onEvict then some { c with calls := c.calls ++ [(a, b)] } else none

/-- Method `func (c *Cache) removeFromEntries(entry *internal.Entry)`. -/
def removeFromEntries (c : Cache K V) (entry : Ptr) : Option (Cache K V) :=
  (rangeDelete entry c.entriesWithTTL.length 0 c.entriesWithTTL c.entriesWithTTL.length).map
    (fun s => { c with entriesWithTTL := s })

/-- Method `func (c *Cache) insertSorted(newEntry *internal.Entry)`. The search runs at
most `len(c.entriesWithTTL)` iterations. -/
def insertSorted (c : Cache K V) (newEntry : Ptr) : Option (Cache K V) :=
  (searchLoop (fun p => (c.list.mem p).ExpiresAt) c.entriesWithTTL
      (c.list.mem newEntry).ExpiresAt c.entriesWithTTL.length 0 c.entriesWithTTL.length).map
    (fun low =>
      { c with entriesWithTTL := c.entriesWithTTL.take low ++ newEntry :: c.entriesWithTTL.drop low })

/-- Method `func (c *Cache) removeOldest() (key any, ok bool)`; the result `(0, false)` is
`none`, the result `(lastEntry.Key, true)` is `some lastEntry.Key`. -/
def removeOldest (c : Cache K V) : Option (Cache K V × Option K) :=
  match c.list.Last with
  | none => some (c, none)
  | some lastEntry => do
    let (l1, _) ← c.list.Remove lastEntry
    let c1 := { c with list := l1 }
    match hasher (c1.list.mem lastEntry).Key with
    | none => some (c1, none)
    | some hash =>
      let c2 := { c1 with items := mapDelete c1.items hash }
      let c3 ← c2.removeFromEntries lastEntry
      some (c3, some (c3.list.mem lastEntry).Key)

/-- The statements `ent := c.list.PushFront(key, value, expiresAt); c.items[hash] = ent`
shared by `Add` and `AddWithTTL`, giving the cache before any eviction. -/
def pushNew (c : Cache K V) (hash : Nat) (key : K) (value : V) (expiresAt : Int) :
    Option (Cache K V × Ptr) :=
  (c.list.PushFront key value expiresAt).map
    (fun r => ({ c with list := r.1, items := mapSet c.items hash r.2 }, r.2))

/-- The statements `evict := c.size < c.list.Len(); if evict { c.removeOldest() }`
shared by `Add` and `AddWithTTL`. -/
def evictIfOver (c : Cache K V) : Option (Cache K V) :=
  if c.size < c.list.Len then (c.removeOldest hasher).map (fun r => r.1) else some c

/-- Method `func (c *Cache) Add(key, value any)`. -/
def Add (c : Cache K V) (key : K) (value : V) (now : Int) : Option (Cache K V) :=
  match hasher key with
  | none => c.callOnEvict (Arg.key key) Arg.err
  | some hash =>
    match mapGet c.items hash with
    | some ent => do
      let l1 ← c.list.MoveToFront ent
      some { c with list := { l1 with mem := setValue l1.mem ent value } }
    | none => do
      let (c1, _) ← c.pushNew hash key value (now + noEvictionTTL)
      c1.evictIfOver hasher

/-- Method `func (c *Cache) Get(key any) (val any, ok bool)`; `nil` is `default`. -/
def Get [Inhabited V] (c : Cache K V) (key : K) (now : Int) : Option (Cache K V × V × Bool) :=
  match hasher key with
  | none => (c.callOnEvict (Arg.key key) Arg.err).map (fun c1 => (c1, default, false))
  | some hash =>
    match mapGet c.items hash with
    | some ent =>
      if now > (c.list.mem ent).ExpiresAt then do
        let (l1, _) ← c.list.Remove ent
        let c1 := { c with list := l1, items := mapDelete c.items hash }
        let c2 ← c1.removeFromEntries ent
        some (c2, default, false)
      else do
        let l1 ← c.list.MoveToFront ent
        some ({ c with list := l1 }, (l1.mem ent).Value, true)
    | none => some (c, default, false)

/-- Method `func (c *Cache) AddWithTTL(key, value any, ttl time.Duration)`. -/
def AddWithTTL (c : Cache K V) (key : K) (value : V) (ttl : Int) (now : Int) :
    Option (Cache K V) :=
  if ttl = 0 then some c
  else
    match hasher key with
    | none => c.callOnEvict (Arg.key key) Arg.err
    | some hash =>
      match mapGet c.items hash with
      | some ent => do
        let l1 ← c.list.MoveToFront ent
        some { c with
          list := { l1 with mem := setExpiresAt (setValue l1.mem ent value) ent (now + ttl) } }
      | none => do
        let (c1, ent) ← c.pushNew hash key value (now + ttl)
        let c2 ← c1.insertSorted ent
        c2.evictIfOver hasher

/-- Method `func (c *Cache) Remove(key any)`. -/
def Remove (c : Cache K V) (key : K) : Option (Cache K V) :=
  match hasher key with
  | none => c.callOnEvict (Arg.key key) Arg.err
  | some hash =>
    match mapGet c.items hash with
    | some ent => do
      let (l1, _) ← c.list.Remove ent
      let c1 := { c with list := l1, items := mapDelete c.items hash }
      c1.removeFromEntries ent
    | none => some c

/-- Method `func (c *Cache) Contains(key any) (ok bool)`. -/
def Contains (c : Cache K V) (key : K) : Option (Cache K V × Bool) :=
  match hasher key with
  | none => (c.callOnEvict (Arg.key key) Arg.err).map (fun c1 => (c1, false))
  | some hash => some (c, (mapGet c.items hash).isSome)

/-- Method `func (c *Cache) Peek(key any) (val any, ok bool)`. -/
def Peek [Inhabited V] (c : Cache K V) (key : K) : Option (Cache K V × V × Bool) :=
  match hasher key with
  | none => (c.callOnEvict (Arg.key key) Arg.err).map (fun c1 => (c1, default, false))
  | some hash =>
    match mapGet c.items hash with
    | some ent => some (c, (c.list.mem ent).Value, true)
    | none => some (c, default, false)

/-- The loop `for k, v := range c.items { ... }` of `Clear`, visiting the pairs in
the order of the association list (Go leaves the order unspecified). -/
def clearLoop (c : Cache K V) : List (Nat × Ptr) → Option (Cache K V)
  | [] => some c
  | (k, v) :: rest =>
    if c.onEvict then
      clearLoop { c with calls := c.calls ++ [(Arg.hash k, Arg.entry v)],
                         items := mapDelete c.items k } rest
    else clearLoop { c with items := mapDelete c.items k } rest

/-- Method `func (c *Cache) Clear()`. -/
def Clear (c : Cache K V) : Option (Cache K V) :=
  (c.clearLoop c.items).map
    (fun c1 => { c1 with entriesWithTTL := [], list := c1.list.Init })

/-- The duration `timeToExpire := time.Until(c.entriesWithTTL[0].ExpiresAt)` that
`deleteExpired` sleeps for when it is positive. -/
def timeToExpire (c : Cache K V) (now : Int) : Option Int :=
  c.entriesWithTTL.head?.map (fun e => (c.list.mem e).ExpiresAt - now)

/-- The loop `for len(c.entriesWithTTL) > 0 { ... }` of `deleteExpired`, run for at
most the given number of iterations (each one shortens the slice by one). -/
def expireLoop (now : Int) : Nat → Cache K V → Option (Cache K V)
  | 0, c => if c.entriesWithTTL = [] then some c else none
  | fuel + 1, c =>
    match c.entriesWithTTL.getLast? with
    | none => some c
    | some lastEntry =>
      if (c.list.mem lastEntry).ExpiresAt > now then some c
      else do
        let hash := (hasher (c.list.mem lastEntry).Key).getD 0
        let c1 := { c with items := mapDelete c.items hash }
        let (l1, _) ← c1.list.Remove lastEntry
        expireLoop now fuel { c1 with list := l1, entriesWithTTL := c1.entriesWithTTL.dropLast }

/-- Method `func (c *Cache) deleteExpired()`, one sweep of the background goroutine. The
sleep between unlocking and locking again changes no state of the cache; the
purge after it compares with the clock reading `now` taken before it. Operations
that run during the sleep are steps that come before this one, whose purge then
still uses the earlier reading; the purge of an empty TTL Index does nothing. -/
def deleteExpired (c : Cache K V) (now : Int) : Option (Cache K V) :=
  if c.entriesWithTTL.length > 0 then expireLoop hasher now c.entriesWithTTL.length c
  else some c

end Cache

/-- A call of a public operation of the cache, or one sweep of the background
goroutine. -/
inductive Op (K V : Type) where
  | Add (key : K) (value : V)
  | AddWithTTL (key : K) (value : V) (ttl : Int)
  | Get (key : K)
  | Peek (key : K)
  | Contains (key : K)
  | Remove (key : K)
  | Clear
  | deleteExpired

section Machine
variable {K V : Type} [Inhabited V] (hasher : K → Option Nat)

/-- The state after the operation `op` called at clock reading `now`; `none` when
the operation panics. -/
def step (c : Cache K V) (op : Op K V) (now : Int) : Option (Cache K V) :=
  match op with
  | Op.Add key value => c.Add hasher key value now
  | Op.AddWithTTL key value ttl => c.AddWithTTL hasher key value ttl now
  | Op.Get key => (c.Get hasher key now).map (fun r => r.1)
  | Op.Peek key => (c.Peek hasher key).map (fun r => r.1)
  | Op.Contains key => (c.Contains hasher key).map (fun r => r.1)
  | Op.Remove key => c.Remove hasher key
  | Op.Clear => c.Clear
  | Op.deleteExpired => c.deleteExpired hasher now

/-- The state after a sequence of operations, each with its clock reading. -/
def run (c : Cache K V) : List (Op K V × Int) → Option (Cache K V)
  | [] => some c
  | (op, now) :: rest => (step hasher c op now).bind (fun c1 => run c1 rest)

/-- The states a cache can be in: those a successful `NewCache` returns and those an
operation or a sweep leaves, at any clock readings. -/
inductive Reachable [Inhabited K] : Cache K V → Prop
  | init (size : Int) (onEvict : Bool) (c : Cache K V) :
      Cache.NewCache size onEvict = some c → Reachable c
  | step (c : Cache K V) (op : Op K V) (now : Int) (c1 : Cache K V) :
      Reachable c → step hasher c op now = some c1 → Reachable c1

end Machine

section LinksDef
variable {K V : Type}

/-- The entries `ps` are linked in a row between `a` and `b`: following `next` from
`a` visits `ps` and then `b`, and every `prev` points one step back. -/
def Seg (m : Mem K V) : Ptr → List Ptr → Ptr → Prop
  | a, [], b => (m a).next = some b ∧ (m b).prev = some a
  | a, x :: xs, b => (m a).next = some x ∧ (m x).prev = some a ∧ Seg m x xs b

/-- The list `l` is well formed and holds the entries `ps`, front to back: the
sentinel and `ps` are linked in a circle, `ps` are distinct allocated entries owned
by `l`, and `l.len` counts them. -/
structure Rep (l : LruList K V) (ps : List Ptr) : Prop where
  seg : Seg l.mem 0 ps 0
  nodup : ps.Nodup
  nz : 0 ∉ ps
  len : l.len = ps.length
  own : ∀ p, p ∈ ps → (l.mem p).List = true
  lt : ∀ p, p ∈ ps → p < l.fresh
  fresh_pos : 0 < l.fresh

/-- The heaps `m` and `m1` hold the same key, value and expiry at address `q`. -/
def SameData (m m1 : Mem K V) (q : Ptr) : Prop :=
  (m1 q).Key = (m q).Key ∧ (m1 q).Value = (m q).Value ∧ (m1 q).ExpiresAt = (m q).ExpiresAt

end LinksDef

section InvDef
variable {K V : Type} (hasher : K → Option Nat)

/-- The three structures of the cache agree, `ps` being the Recency List front to
back: the list is well formed, the Fingerprint Index holds one pair for each entry
of the list, filed under the fingerprint of the entry's key, and the TTL Index holds
entries of the list, each at most once. -/
structure Wf (c : Cache K V) (ps : List Ptr) : Prop where
  rep : Rep c.list ps
  size_pos : 0 < c.size
  keys_nodup : (c.items.map Prod.fst).Nodup
  vals_perm : (c.items.map Prod.snd).Perm ps
  hash_ok : ∀ e, e ∈ c.items → hasher (c.list.mem e.2).Key = some e.1
  ttl_nodup : c.entriesWithTTL.Nodup
  ttl_mem : ∀ p, p ∈ c.entriesWithTTL → p ∈ ps

/-- The structures agree and the list is within the capacity. -/
structure Inv (c : Cache K V) (ps : List Ptr) : Prop where
  wf : Wf hasher c ps
  le_size : (ps.length : Int) ≤ c.size

end InvDef

section OverflowDef
variable {K V : Type} (hasher : K → Option Nat)

/-- What an insertion of a new key (fingerprint `hash`) into the full cache `c`
leaves in `c1`, apart from the TTL Index: exactly the entry `last` at the back of
the list is gone, from the list and from the Fingerprint Index, every other entry
is kept with its data and its place, the new entry is at the front and indexed,
and the cache holds `Cap()` entries again. -/
structure Evicts (c c1 : Cache K V) (last : Ptr) (lastHash hash : Nat) (key : K) (value : V)
    (expiresAt : Int) : Prop where
  order : c1.list.toList = c.list.fresh :: c.list.toList.dropLast
  gone_list : last ∉ c1.list.toList
  gone_items : mapGet c1.items lastHash = none
  gone_ttl : last ∉ c1.entriesWithTTL
  stored : mapGet c1.items hash = some c.list.fresh
  stored_key : (c1.list.mem c.list.fresh).Key = key
  stored_value : (c1.list.mem c.list.fresh).Value = value
  stored_expiry : (c1.list.mem c.list.fresh).ExpiresAt = expiresAt
  others_items : ∀ h, h ≠ hash → h ≠ lastHash → mapGet c1.items h = mapGet c.items h
  others_data : ∀ q, q ≠ c.list.fresh → SameData c.list.mem c1.list.mem q
  len : c1.Len = c1.Cap
  cap : c1.Cap = c.Cap

/-- The operations that `Add` the given keys with the given values at the given
clock readings, in order. -/
def addOps {K V : Type} (adds : List (K × V × Int)) : List (Op K V × Int) :=
  adds.map (fun a => (Op.Add a.1 a.2.1, a.2.2))

end OverflowDef

section TouchDef
variable {K V : Type} [Inhabited V] (hasher : K → Option Nat)

/-- The fingerprint an operation touches, if any: `Add` touches its key, `AddWithTTL`
with a non-zero ttl touches its key, a `Get` that returns `ok == true` touches its
key; `Peek`, `Contains` and everything else touch nothing. -/
def touched (c : Cache K V) (op : Op K V) (now : Int) : Option Nat :=
  match op with
  | Op.Add key _ => hasher key
  | Op.AddWithTTL key _ ttl => if ttl = 0 then none else hasher key
  | Op.Get key =>
    match c.Get hasher key now with
    | some (_, _, true) => hasher key
    | _ => none
  | _ => none

/-- The touches of a run from `c`, one item for each operation, oldest first. -/
def touchLog (c : Cache K V) : List (Op K V × Int) → List (Option Nat)
  | [] => []
  | (op, now) :: rest =>
    touched hasher c op now ::
      match step hasher c op now with
      | some c1 => touchLog c1 rest
      | none => []

end TouchDef

section TouchDef2
variable {K V : Type} (hasher : K → Option Nat)

/-- The number of operations of the log since the most recent touch of the
fingerprint of `key` (the length of the log if it was never touched). -/
def sinceTouch (key : K) (log : List (Option Nat)) : Nat :=
  log.reverse.findIdx (fun t => t.isSome && t == hasher key)

/-- The keys of the entries of the Recency List, front to back. -/
def Cache.keys (c : Cache K V) : List K :=
  c.list.toList.map (fun p => (c.list.mem p).Key)

end TouchDef2

section StepShapeDef
variable {K V : Type} (hasher : K → Option Nat)

/-- How one step changes the Recency List `ps` into `ps1`, depending on the
fingerprint `t` it touches: a step that touches nothing only removes entries; a
step that touches `h` leaves at the front the entry of fingerprint `h`, followed by
entries of the old list, none of which has fingerprint `h`. Keys of entries that
stay never change. -/
def StepShape (c c1 : Cache K V) (ps ps1 : List Ptr) (t : Option Nat) : Prop :=
  (t = none ∧ ps1.Sublist ps ∧ ∀ q, q ∈ ps1 → (c1.list.mem q).Key = (c.list.mem q).Key) ∨
  (∃ e h rest1, t = some h ∧ ps1 = e :: rest1 ∧ rest1.Sublist ps ∧
    hasher (c1.list.mem e).Key = some h ∧
    ∀ q, q ∈ rest1 → (c1.list.mem q).Key = (c.list.mem q).Key ∧
      hasher (c.list.mem q).Key ≠ some h)

/-- The entries `ps` of the cache `c` are in the order of their last touch in `log`,
the most recently touched first. -/
def Ordered (hasher : K → Option Nat) (c : Cache K V) (ps : List Ptr) (log : List (Option Nat)) :
    Prop :=
  ps.Pairwise (fun p q =>
    sinceTouch hasher (c.list.mem p).Key log < sinceTouch hasher (c.list.mem q).Key log)

/-- The expiry the entry of fingerprint `hash` has once `Add` has run at `now`: the
one it had, or the far-future sentinel for a new entry. -/
def expiryAfterAdd {K V : Type} (c : Cache K V) (hash : Nat) (now : Int) : Int :=
  match mapGet c.items hash with
  | some p => (c.list.mem p).ExpiresAt
  | none => now + noEvictionTTL

end StepShapeDef

/-- The key an operation is called with, if it takes one. -/
def Op.key? {K V : Type} : Op K V → Option K
  | Op.Add key _ => some key
  | Op.AddWithTTL key _ _ => some key
  | Op.Get key => some key
  | Op.Peek key => some key
  | Op.Contains key => some key
  | Op.Remove key => some key
  | Op.Clear => none
  | Op.deleteExpired => none

/-- The TTL Index is sorted by descending `ExpiresAt`: every element expires no
earlier than every later one. -/
def TTLSorted {K V : Type} (c : Cache K V) : Prop :=
  c.entriesWithTTL.Pairwise (fun a b => (c.list.mem a).ExpiresAt ≥ (c.list.mem b).ExpiresAt)

/-- The operations that read one key or purge expired entries: a call of `Get` and
a sweep. -/
def Op.getOrSweep {K V : Type} : Op K V → Bool
  | Op.Get _ => true
  | Op.deleteExpired => true
  | _ => false

/-- The calls `AddWithTTL(key, value, ttl)` of the given keys with their values and
ttls, each at its clock reading, in order. -/
def ttlOps {K V : Type} (adds : List (K × V × Int × Int)) : List (Op K V × Int) :=
  adds.map (fun a => (Op.AddWithTTL a.1 a.2.1 a.2.2.1, a.2.2.2))

/-- Whether the operation is a sweep of the background goroutine. -/
def Op.isSweep {K V : Type} : Op K V → Bool
  | Op.deleteExpired => true
  | _ => false

/-- The hasher of the examples: a natural number is its own fingerprint. -/
def natHasher : Nat → Option Nat := fun k => some k

/-- The empty cache of capacity 2 without callback, as `NewCache(2, nil)` returns it. -/
def cache2 : Cache Nat Nat :=
  { size := 2, list := NewList Nat Nat, items := [], onEvict := false, entriesWithTTL := [],
    calls := [] }

/-- The cache of capacity 2 after `Add(1, 1)` and `Add(2, 2)`: it is full. -/
def cacheFull : Cache Nat Nat :=
  (run natHasher cache2 [(Op.Add 1 1, 0), (Op.Add 2 2, 1)]).getD cache2

/-- The hasher of the examples with string keys: the fingerprint is the length. -/
def lengthHasher : String → Option Nat := fun s => some s.length

/-- The empty cache of capacity 2 with string keys and values that may be nil. -/
def cacheStr : Cache String (Option Nat) :=
  { size := 2, list := NewList String (Option Nat), items := [], onEvict := false,
    entriesWithTTL := [], calls := [] }

/-- The cache of capacity 2 after `AddWithTTL(1, 1, 5)` at clock reading 0: the entry
of key 1 expires at 5. -/
def cacheTTL : Cache Nat Nat :=
  (run natHasher cache2 [(Op.AddWithTTL 1 1 5, 0)]).getD cache2

/-- The calls `AddWithTTL(1, 1, 10)` and `AddWithTTL(2, 2, 5)` at clock reading 0
followed by `AddWithTTL(2, 2, 100)` at clock reading 1, which renews key 2. -/
def renewOps : List (Op Nat Nat × Int) :=
  [(Op.AddWithTTL 1 1 10, 0), (Op.AddWithTTL 2 2 5, 0), (Op.AddWithTTL 2 2 100, 1)]

/-- The cache of capacity 2 after `renewOps`. -/
def cacheRenewed : Cache Nat Nat := (run natHasher cache2 renewOps).getD cache2

/-- The empty cache of capacity 5 without callback. -/
def cache5 : Cache Nat Nat :=
  { size := 5, list := NewList Nat Nat, items := [], onEvict := false, entriesWithTTL := [],
    calls := [] }

/-- The cache of capacity 5 after `AddWithTTL(1, 1, 100)` and `Add(2, 2)`: it holds an
entry with a TTL and one without. -/
def cacheMixed : Cache Nat Nat :=
  (run natHasher cache5 [(Op.AddWithTTL 1 1 100, 0), (Op.Add 2 2, 0)]).getD cache5

/-- The empty cache of capacity 2 with an eviction callback. -/
def cacheCb : Cache Nat Nat :=
  { size := 2, list := NewList Nat Nat, items := [], onEvict := true, entriesWithTTL := [],
    calls := [] }

/-- A hasher whose fingerprint differs from the key: the key plus 100. -/
def shiftHasher : Nat → Option Nat := fun k => some (k + 100)

/-- A hasher that cannot compute a fingerprint for the key 0. -/
def failHasher : Nat → Option Nat := fun k => if k = 0 then none else some k

/-- The cache of capacity 5 after `AddWithTTL(1, 1, 10)` and `AddWithTTL(2, 2, 5)` at
clock reading 0: the TTL Index holds the entry of key 1 (expiry 10) before the
entry of key 2 (expiry 5). -/
def cacheTwoTTL : Cache Nat Nat :=
  (run natHasher cache5 [(Op.AddWithTTL 1 1 10, 0), (Op.AddWithTTL 2 2 5, 0)]).getD cache5

/-- The state inside `AddWithTTL(3, 3, 7)` at clock reading 0 on `cacheTwoTTL`, after
`PushFront` and the store into the Fingerprint Index and before `insertSorted`:
the new entry at address 3 expires at 7. -/
def cachePushed : Cache Nat Nat :=
  ((cacheTwoTTL.pushNew 3 3 3 7).map (fun r => r.1)).getD cacheTwoTTL

section HeapLemmas
variable {K V : Type} (m : Mem K V) (p q : Ptr)

@[simp] theorem setNext_next (x : Option Ptr) :
    (setNext m p x q).next = if q = p then x else (m q).next := by
  unfold setNext; split <;> rfl
@[simp] theorem setNext_prev (x : Option Ptr) : (setNext m p x q).prev = (m q).prev := by
  unfold setNext; split <;> rfl
@[simp] theorem setNext_List (x : Option Ptr) : (setNext m p x q).List = (m q).List := by
  unfold setNext; split <;> rfl
@[simp] theorem setNext_Key (x : Option Ptr) : (setNext m p x q).Key = (m q).Key := by
  unfold setNext; split <;> rfl
@[simp] theorem setNext_Value (x : Option Ptr) : (setNext m p x q).Value = (m q).Value := by
  unfold setNext; split <;> rfl
@[simp] theorem setNext_ExpiresAt (x : Option Ptr) :
    (setNext m p x q).ExpiresAt = (m q).ExpiresAt := by
  unfold setNext; split <;> rfl

@[simp] theorem setPrev_next (x : Option Ptr) : (setPrev m p x q).next = (m q).next := by
  unfold setPrev; split <;> rfl
@[simp] theorem setPrev_prev (x : Option Ptr) :
    (setPrev m p x q).prev = if q = p then x else (m q).prev := by
  unfold setPrev; split <;> rfl
@[simp] theorem setPrev_List (x : Option Ptr) : (setPrev m p x q).List = (m q).List := by
  unfold setPrev; split <;> rfl
@[simp] theorem setPrev_Key (x : Option Ptr) : (setPrev m p x q).Key = (m q).Key := by
  unfold setPrev; split <;> rfl
@[simp] theorem setPrev_Value (x : Option Ptr) : (setPrev m p x q).Value = (m q).Value := by
  unfold setPrev; split <;> rfl
@[simp] theorem setPrev_ExpiresAt (x : Option Ptr) :
    (setPrev m p x q).ExpiresAt = (m q).ExpiresAt := by
  unfold setPrev; split <;> rfl

@[simp] theorem setList_next (b : Bool) : (setList m p b q).next = (m q).next := by
  unfold setList; split <;> rfl
@[simp] theorem setList_prev (b : Bool) : (setList m p b q).prev = (m q).prev := by
  unfold setList; split <;> rfl
@[simp] theorem setList_List (b : Bool) :
    (setList m p b q).List = if q = p then b else (m q).List := by
  unfold setList; split <;> rfl
@[simp] theorem setList_Key (b : Bool) : (setList m p b q).Key = (m q).Key := by
  unfold setList; split <;> rfl
@[simp] theorem setList_Value (b : Bool) : (setList m p b q).Value = (m q).Value := by
  unfold setList; split <;> rfl
@[simp] theorem setList_ExpiresAt (b : Bool) :
    (setList m p b q).ExpiresAt = (m q).ExpiresAt := by
  unfold setList; split <;> rfl

@[simp] theorem setValue_next (v : V) : (setValue m p v q).next = (m q).next := by
  unfold setValue; split <;> rfl
@[simp] theorem setValue_prev (v : V) : (setValue m p v q).prev = (m q).prev := by
  unfold setValue; split <;> rfl
@[simp] theorem setValue_List (v : V) : (setValue m p v q).List = (m q).List := by
  unfold setValue; split <;> rfl
@[simp] theorem setValue_Key (v : V) : (setValue m p v q).Key = (m q).Key := by
  unfold setValue; split <;> rfl
@[simp] theorem setValue_Value (v : V) :
    (setValue m p v q).Value = if q = p then v else (m q).Value := by
  unfold setValue; split <;> rfl
@[simp] theorem setValue_ExpiresAt (v : V) :
    (setValue m p v q).ExpiresAt = (m q).ExpiresAt := by
  unfold setValue; split <;> rfl

@[simp] theorem setExpiresAt_next (t : Int) : (setExpiresAt m p t q).next = (m q).next := by
  unfold setExpiresAt; split <;> rfl
@[simp] theorem setExpiresAt_prev (t : Int) : (setExpiresAt m p t q).prev = (m q).prev := by
  unfold setExpiresAt; split <;> rfl
@[simp] theorem setExpiresAt_List (t : Int) : (setExpiresAt m p t q).List = (m q).List := by
  unfold setExpiresAt; split <;> rfl
@[simp] theorem setExpiresAt_Key (t : Int) : (setExpiresAt m p t q).Key = (m q).Key := by
  unfold setExpiresAt; split <;> rfl
@[simp] theorem setExpiresAt_Value (t : Int) : (setExpiresAt m p t q).Value = (m q).Value := by
  unfold setExpiresAt; split <;> rfl
@[simp] theorem setExpiresAt_ExpiresAt (t : Int) :
    (setExpiresAt m p t q).ExpiresAt = if q = p then t else (m q).ExpiresAt := by
  unfold setExpiresAt; split <;> rfl

@[simp] theorem allocEntry_next (k : K) (v : V) (t : Int) :
    (allocEntry m p k v t q).next = if q = p then none else (m q).next := by
  unfold allocEntry; split <;> rfl
@[simp] theorem allocEntry_prev (k : K) (v : V) (t : Int) :
    (allocEntry m p k v t q).prev = if q = p then none else (m q).prev := by
  unfold allocEntry; split <;> rfl
@[simp] theorem allocEntry_List (k : K) (v : V) (t : Int) :
    (allocEntry m p k v t q).List = if q = p then false else (m q).List := by
  unfold allocEntry; split <;> rfl
@[simp] theorem allocEntry_Key (k : K) (v : V) (t : Int) :
    (allocEntry m p k v t q).Key = if q = p then k else (m q).Key := by
  unfold allocEntry; split <;> rfl
@[simp] theorem allocEntry_Value (k : K) (v : V) (t : Int) :
    (allocEntry m p k v t q).Value = if q = p then v else (m q).Value := by
  unfold allocEntry; split <;> rfl
@[simp] theorem allocEntry_ExpiresAt (k : K) (v : V) (t : Int) :
    (allocEntry m p k v t q).ExpiresAt = if q = p then t else (m q).ExpiresAt := by
  unfold allocEntry; split <;> rfl

end HeapLemmas

section Links
variable {K V : Type}

theorem Seg.frame {m m1 : Mem K V} : ∀ {ps : List Ptr} {a b : Ptr}, Seg m a ps b →
    (∀ q, q ∈ a :: ps → (m1 q).next = (m q).next) →
    (∀ q, q ∈ ps ++ [b] → (m1 q).prev = (m q).prev) → Seg m1 a ps b
  | [], a, b, h, hn, hp => by
    simp only [Seg] at h ⊢
    exact ⟨by rw [hn a (by simp)]; exact h.1, by rw [hp b (by simp)]; exact h.2⟩
  | x :: xs, a, b, h, hn, hp => by
    simp only [Seg] at h ⊢
    refine ⟨by rw [hn a (by simp)]; exact h.1, by rw [hp x (by simp)]; exact h.2.1, ?_⟩
    exact Seg.frame h.2.2 (fun q hq => hn q (List.mem_cons_of_mem _ hq))
      (fun q hq => hp q (by simp at hq ⊢; tauto))

/-- In a row, the predecessor of a middle entry is the start or an earlier entry. -/
theorem Seg.prev_mid {m : Mem K V} {p : Ptr} {l2 : List Ptr} {b : Ptr} :
    ∀ {l1 : List Ptr} {a : Ptr}, Seg m a (l1 ++ p :: l2) b →
      ∃ x, x ∈ a :: l1 ∧ (m p).prev = some x
  | [], a, h => by
    simp only [List.nil_append, Seg] at h
    exact ⟨a, by simp, h.2.1⟩
  | y :: l1, a, h => by
    simp only [List.cons_append, Seg] at h
    obtain ⟨x, hx, hpx⟩ := Seg.prev_mid h.2.2
    exact ⟨x, List.mem_cons_of_mem _ hx, hpx⟩

/-- In a row, the successor of a middle entry is the end or a later entry. -/
theorem Seg.next_mid {m : Mem K V} {p : Ptr} {l2 : List Ptr} {b : Ptr} :
    ∀ {l1 : List Ptr} {a : Ptr}, Seg m a (l1 ++ p :: l2) b →
      ∃ x, x ∈ l2 ++ [b] ∧ (m p).next = some x
  | [], a, h => by
    simp only [List.nil_append, Seg] at h
    cases l2 with
    | nil => exact ⟨b, by simp, h.2.2.1⟩
    | cons y l2 => exact ⟨y, by simp, h.2.2.1⟩
  | y :: l1, a, h => by
    simp only [List.cons_append, Seg] at h
    exact Seg.next_mid h.2.2

/-- Unlinking a middle entry `p` by `p.prev.next = p.next; p.next.prev = p.prev`
leaves the others linked in a row. -/
theorem Seg.unlink {m m1 : Mem K V} {p a n : Ptr} {l2 : List Ptr} {b : Ptr}
    (hpa : (m p).prev = some a) (hpn : (m p).next = some n)
    (h1 : (m1 a).next = some n) (h2 : (m1 n).prev = some a)
    (hnext : ∀ q, q ≠ a → q ≠ p → (m1 q).next = (m q).next)
    (hprev : ∀ q, q ≠ n → q ≠ p → (m1 q).prev = (m q).prev) :
    ∀ {l1 : List Ptr} {a0 : Ptr}, Seg m a0 (l1 ++ p :: l2) b →
      (a0 :: (l1 ++ p :: l2)).Nodup → b ∉ l1 ++ p :: l2 → Seg m1 a0 (l1 ++ l2) b
  | [], a0, h, hnd, hb => by
    simp only [List.nil_append, Seg] at h
    simp only [List.nil_append, List.nodup_cons, List.mem_cons, not_or] at hnd hb ⊢
    have ha : a = a0 := by
      have := h.2.1; rw [hpa] at this; exact Option.some.inj this
    subst ha
    cases l2 with
    | nil =>
      simp only [Seg] at h ⊢
      have hn : n = b := by
        have := h.2.2.1; rw [hpn] at this; exact Option.some.inj this
      subst hn
      exact ⟨h1, h2⟩
    | cons y l2 =>
      simp only [Seg] at h ⊢
      have hn : n = y := by
        have := h.2.2.1; rw [hpn] at this; exact Option.some.inj this
      subst hn
      refine ⟨h1, h2, Seg.frame h.2.2.2.2 ?_ ?_⟩
      · intro q hq
        apply hnext
        · rintro rfl; simp_all
        · rintro rfl; simp_all
      · intro q hq
        apply hprev
        · rintro rfl; simp_all
        · rintro rfl; simp_all
  | x :: l1, a0, h, hnd, hb => by
    simp only [List.cons_append, Seg] at h
    obtain ⟨a1, ha1, hpa1⟩ := Seg.prev_mid h.2.2
    obtain ⟨n1, hn1, hpn1⟩ := Seg.next_mid h.2.2
    have ea : a1 = a := by rw [hpa] at hpa1; exact (Option.some.inj hpa1).symm
    have en : n1 = n := by rw [hpn] at hpn1; exact (Option.some.inj hpn1).symm
    subst ea en
    have hnd1 : (x :: (l1 ++ p :: l2)).Nodup := (List.nodup_cons.1 hnd).2
    have hb1 : b ∉ l1 ++ p :: l2 := fun hh => hb (List.mem_cons_of_mem _ hh)
    have ih := Seg.unlink hpa hpn h1 h2 hnext hprev h.2.2 hnd1 hb1
    simp only [List.cons_append, Seg]
    refine ⟨?_, ?_, ih⟩
    · rw [hnext a0 ?_ ?_]; exact h.1
      · rintro rfl
        have := (List.nodup_cons.1 hnd).1
        simp at ha1 this
        rcases ha1 with rfl | ha1
        · simp at this
        · exact this.2.1 ha1
      · rintro rfl
        have := (List.nodup_cons.1 hnd).1
        simp at this
    · rw [hprev x ?_ ?_]; exact h.2.1
      · rintro rfl
        simp at hn1 hb hnd1
        rcases hn1 with hn1 | rfl
        · exact hnd1.1.2.2 hn1
        · exact hb.1 rfl
      · rintro rfl
        simp at hnd1

/-- Linking a new entry `e` right after the start `a`. -/
theorem Seg.link {m m1 : Mem K V} {e a n : Ptr} {ps : List Ptr} {b : Ptr}
    (h : Seg m a ps b) (hn : (m a).next = some n)
    (h1 : (m1 a).next = some e) (h2 : (m1 e).prev = some a)
    (h3 : (m1 e).next = some n) (h4 : (m1 n).prev = some e)
    (hnext : ∀ q, q ≠ a → q ≠ e → (m1 q).next = (m q).next)
    (hprev : ∀ q, q ≠ n → q ≠ e → (m1 q).prev = (m q).prev)
    (hnd : (a :: ps).Nodup) (he : e ∉ a :: ps) (hb : b ∉ ps) (heb : e ≠ b) :
    Seg m1 a (e :: ps) b := by
  cases ps with
  | nil =>
    simp only [Seg] at h ⊢
    have : n = b := by have := h.1; rw [hn] at this; exact Option.some.inj this
    subst this
    exact ⟨h1, h2, h3, h4⟩
  | cons x xs =>
    simp only [Seg] at h ⊢
    have : n = x := by have := h.1; rw [hn] at this; exact Option.some.inj this
    subst this
    refine ⟨h1, h2, h3, h4, Seg.frame h.2.2 ?_ ?_⟩
    · intro q hq
      apply hnext
      · rintro rfl; simp_all
      · rintro rfl; simp_all
    · intro q hq
      apply hprev
      · rintro rfl; simp_all
      · rintro rfl; simp_all

end Links

section ListOps
variable {K V : Type}

theorem Seg.next_start {m : Mem K V} {a b : Ptr} {ps : List Ptr} (h : Seg m a ps b) :
    (m a).next = some ((ps ++ [b]).headD 0) ∧ (ps ++ [b]).headD 0 ∈ ps ++ [b] := by
  cases ps with
  | nil => simp only [Seg] at h; simpa using h.1
  | cons x xs => simp only [Seg] at h; simpa using h.1

theorem Seg.prev_end {m : Mem K V} {b : Ptr} : ∀ {ps : List Ptr} {a : Ptr}, Seg m a ps b →
    (m b).prev = some ((a :: ps).getLastD 0)
  | [], a, h => by simp only [Seg] at h; simpa using h.2
  | x :: xs, a, h => by
    simp only [Seg] at h
    have := Seg.prev_end h.2.2
    simpa using this

theorem Rep.init (l : LruList K V) (hf : 0 < l.fresh) : Rep l.Init [] := by
  refine ⟨?_, List.nodup_nil, by simp, by simp [LruList.Init], by simp, by simp, hf⟩
  simp [Seg, LruList.Init]

theorem Rep.lazyInit {l : LruList K V} {ps : List Ptr} (h : Rep l ps) : l.lazyInit = l := by
  have := (Seg.next_start h.seg).1
  simp [LruList.lazyInit, this]

theorem Rep.pushFront {l : LruList K V} {ps : List Ptr} (h : Rep l ps) (k : K) (v : V) (t : Int) :
    ∃ l1, l.PushFront k v t = some (l1, l.fresh) ∧ Rep l1 (l.fresh :: ps) ∧
      l1.fresh = l.fresh + 1 ∧
      (l1.mem l.fresh).Key = k ∧ (l1.mem l.fresh).Value = v ∧ (l1.mem l.fresh).ExpiresAt = t ∧
      ∀ q, q ≠ l.fresh → SameData l.mem l1.mem q := by
  obtain ⟨hn, hnmem⟩ := Seg.next_start h.seg
  generalize hnd : (ps ++ [0]).headD 0 = n at hn hnmem
  have hf : l.fresh ≠ 0 := Nat.pos_iff_ne_zero.1 h.fresh_pos
  have hf2 : ¬ (0 = l.fresh) := fun e => hf e.symm
  have hfps : l.fresh ∉ ps := fun hh => lt_irrefl _ (h.lt _ hh)
  have hnf : n ≠ l.fresh := by
    rintro rfl
    simp at hnmem
    rcases hnmem with hh | hh
    · exact hfps hh
    · exact hf hh
  have hnf2 : ¬ (l.fresh = n) := fun e => hnf e.symm
  refine ⟨⟨setList (setPrev (setNext (setNext (setPrev (allocEntry l.mem l.fresh k v t)
      l.fresh (some 0)) l.fresh (some n)) 0 (some l.fresh)) n (some l.fresh)) l.fresh true,
      l.len + 1, l.fresh + 1⟩, ?_, ?_⟩
  · simp only [LruList.PushFront, h.lazyInit, LruList.insertValue, LruList.insert]
    simp [hn, hf2, hf, Option.bind]
  · refine ⟨⟨?_, ?_, ?_, ?_, ?_, ?_, ?_⟩, ?_, ?_, ?_, ?_, ?_⟩
    · refine Seg.link h.seg hn ?_ ?_ ?_ ?_ ?_ ?_ ?_ ?_ h.nz hf
      · simp [hf2]
      · simp [hnf2]
      · simp [hf, hf2]
      · simp
      · intro q h1 h2; simp [h1, h2]
      · intro q h1 h2; simp [h1, h2]
      · exact List.nodup_cons.2 ⟨h.nz, h.nodup⟩
      · simp [hf, hfps]
    · exact List.nodup_cons.2 ⟨hfps, h.nodup⟩
    · simp [hf2, h.nz]
    · simp [h.len]
    · intro p hp
      simp at hp
      rcases hp with rfl | hp
      · simp
      · have : p ≠ l.fresh := fun e => hfps (e ▸ hp)
        simp [this, h.own p hp]
    · intro p hp
      simp only [List.mem_cons] at hp
      rcases hp with rfl | hp
      · exact Nat.lt_succ_self _
      · exact Nat.lt_succ_of_lt (h.lt p hp)
    · simp
    · simp
    · simp
    · simp
    · simp
    · intro q hq; simp [SameData, hq]

theorem Rep.split {l : LruList K V} {ps : List Ptr} (h : Rep l ps) {p : Ptr} (hp : p ∈ ps) :
    ∃ l1 l2 a n, ps = l1 ++ p :: l2 ∧ ps.erase p = l1 ++ l2 ∧
      (l.mem p).prev = some a ∧ (l.mem p).next = some n ∧ a ∈ 0 :: l1 ∧ n ∈ l2 ++ [0] ∧
      p ≠ a ∧ p ≠ n ∧ p ≠ 0 ∧ p ∉ l1 ∧ p ∉ l2 := by
  obtain ⟨l1, l2, rfl⟩ := List.append_of_mem hp
  have hseg := h.seg
  obtain ⟨a, ha, hpa⟩ := Seg.prev_mid hseg
  obtain ⟨n, hn, hpn⟩ := Seg.next_mid hseg
  have hnd := h.nodup
  have hnz := h.nz
  have hp1 : p ∉ l1 := by
    intro hh
    have := (List.nodup_append.1 hnd).2.2
    exact this hh (List.mem_cons_self _ _) 
  have hp2 : p ∉ l2 := by
    have := (List.nodup_append.1 hnd).2.1
    exact (List.nodup_cons.1 this).1
  have hp0 : p ≠ 0 := by
    rintro rfl
    exact hnz (by simp)
  refine ⟨l1, l2, a, n, rfl, ?_, hpa, hpn, ha, hn, ?_, ?_, hp0, hp1, hp2⟩
  · rw [List.erase_append_right _ hp1, List.erase_cons_head]
  · rintro rfl
    simp only [List.mem_cons] at ha
    rcases ha with rfl | ha
    · exact hp0 rfl
    · exact hp1 ha
  · rintro rfl
    simp only [List.mem_append, List.mem_singleton] at hn
    rcases hn with hn | rfl
    · exact hp2 hn
    · exact hp0 rfl

theorem Rep.remove {l : LruList K V} {ps : List Ptr} (h : Rep l ps) {p : Ptr} (hp : p ∈ ps) :
    ∃ l1, l.Remove p = some (l1, (l.mem p).Value) ∧ Rep l1 (ps.erase p) ∧
      l1.fresh = l.fresh ∧ ∀ q, SameData l.mem l1.mem q := by
  obtain ⟨l1, l2, a, n, hps, hers, hpa, hpn, ha, hn, hpa1, hpn1, hp0, hp1, hp2⟩ := h.split hp
  have hpa2 : ¬ (a = p) := fun e => hpa1 e.symm
  have hpn2 : ¬ (n = p) := fun e => hpn1 e.symm
  refine ⟨⟨setList (setPrev (setNext (setNext (setPrev l.mem n (some a)) a (some n)) p none)
      p none) p false, l.len - 1, l.fresh⟩, ?_, ?_, rfl, ?_⟩
  · simp [LruList.Remove, hpa, hpn, hpn1, Option.bind]
  · have hnd : (0 :: (l1 ++ p :: l2)).Nodup := by
      rw [← hps]; exact List.nodup_cons.2 ⟨h.nz, h.nodup⟩
    have hsub : ∀ q, q ∈ ps.erase p → q ∈ ps ∧ q ≠ p := by
      intro q hq
      exact ⟨List.mem_of_mem_erase hq, fun e => by
        subst e; exact (List.Nodup.not_mem_erase h.nodup) hq⟩
    refine ⟨?_, h.nodup.erase p, fun hh => h.nz (hsub 0 hh).1, ?_, ?_, ?_, h.fresh_pos⟩
    · rw [hers]
      refine Seg.unlink hpa hpn ?_ ?_ ?_ ?_ (hps ▸ h.seg) hnd (hps ▸ h.nz)
      · simp [hpa2]
      · simp [hpn2]
      · intro q h1 h2; simp [h1, h2]
      · intro q h1 h2; simp [h1, h2]
    · have := List.length_erase_of_mem hp
      have hpos : 0 < ps.length := List.length_pos_of_mem hp
      simp only [this, h.len]
      omega
    · intro q hq
      have := hsub q hq
      simp [this.2, h.own q this.1]
    · intro q hq
      exact h.lt q (hsub q hq).1
  · intro q; simp [SameData]

theorem Rep.last {l : LruList K V} {ps : List Ptr} (h : Rep l ps) : l.Last = ps.getLast? := by
  cases hps : ps with
  | nil => simp [LruList.Last, h.len, hps]
  | cons x xs =>
    have := Seg.prev_end h.seg
    have hl : l.len ≠ 0 := by rw [h.len, hps]; simp; omega
    simp only [LruList.Last, hl, if_false, this, hps]
    simp [List.getLast?_eq_getLast, List.getLastD]

theorem Rep.moveToFront {l : LruList K V} {ps : List Ptr} (h : Rep l ps) {p : Ptr}
    (hp : p ∈ ps) :
    ∃ l1, l.MoveToFront p = some l1 ∧ Rep l1 (p :: ps.erase p) ∧
      l1.fresh = l.fresh ∧ ∀ q, SameData l.mem l1.mem q := by
  obtain ⟨l1, l2, a, n, hps, hers, hpa, hpn, ha, hn, hpa1, hpn1, hp0, hp1, hp2⟩ := h.split hp
  by_cases hfront : (l.mem 0).next = some p
  · refine ⟨l, by simp [LruList.MoveToFront, hfront], ?_, rfl, fun q => ⟨rfl, rfl, rfl⟩⟩
    have : ps = p :: ps.erase p := by
      cases hps2 : ps with
      | nil => rw [hps2] at hp; simp at hp
      | cons x xs =>
        have h1 := h.seg
        rw [hps2] at h1
        simp only [Seg] at h1
        have : x = p := by
          have := h1.1; rw [hfront] at this; exact (Option.some.inj this).symm
        subst this
        simp
    rw [← this]; exact h
  · have hpa2 : ¬ (a = p) := fun e => hpa1 e.symm
    have hpn2 : ¬ (n = p) := fun e => hpn1 e.symm
    have hp02 : ¬ (0 = p) := fun e => hp0 e.symm
    have hnd : (0 :: (l1 ++ p :: l2)).Nodup := by
      rw [← hps]; exact List.nodup_cons.2 ⟨h.nz, h.nodup⟩
    have hsub : ∀ q, q ∈ ps.erase p → q ∈ ps ∧ q ≠ p := by
      intro q hq
      exact ⟨List.mem_of_mem_erase hq, fun e => by
        subst e; exact (List.Nodup.not_mem_erase h.nodup) hq⟩
    -- the heap after unlinking
    have hseg2 : Seg (setPrev (setNext l.mem a (some n)) n (some a)) 0 (ps.erase p) 0 := by
      rw [hers]
      refine Seg.unlink hpa hpn ?_ ?_ ?_ ?_ (hps ▸ h.seg) hnd (hps ▸ h.nz)
      · simp
      · simp
      · intro q h1 h2; simp [h1]
      · intro q h1 h2; simp [h1]
    obtain ⟨hn0, hn0mem⟩ := Seg.next_start hseg2
    generalize hnd0 : ((ps.erase p) ++ [0]).headD 0 = n0 at hn0 hn0mem
    have hpn0 : ¬ (p = n0) := by
      rintro rfl
      simp only [List.mem_append, List.mem_singleton] at hn0mem
      rcases hn0mem with hh | hh
      · exact (hsub _ hh).2 rfl
      · exact hp0 hh
    simp only [setPrev_next, setNext_next] at hn0
    refine ⟨⟨setPrev (setNext (setNext (setPrev (setPrev (setNext l.mem a (some n)) n (some a))
        p (some 0)) p (some n0)) 0 (some p)) n0 (some p), l.len, l.fresh⟩, ?_, ?_, rfl, ?_⟩
    · have hl : (l.mem p).List = true := h.own p hp
      simp only [LruList.MoveToFront, hl, hfront, LruList.move]
      simp [hp0, hp02, hpa, hpn, hpa1, hpn1, hn0, Option.bind]
    · refine ⟨?_, ?_, ?_, ?_, ?_, ?_, h.fresh_pos⟩
      · refine Seg.link hseg2 (by simpa using hn0) ?_ ?_ ?_ ?_ ?_ ?_ ?_ ?_ ?_ hp0
        · simp
        · simp [hpn0]
        · simp [hp0]
        · simp
        · intro q h1 h2; simp [h1, h2]
        · intro q h1 h2; simp [h1, h2]
        · exact List.nodup_cons.2 ⟨fun hh => h.nz (hsub 0 hh).1, h.nodup.erase p⟩
        · simp only [List.mem_cons, not_or]
          exact ⟨hp0, fun hh => (hsub p hh).2 rfl⟩
        · exact fun hh => h.nz (hsub 0 hh).1
      · exact List.nodup_cons.2 ⟨fun hh => (hsub p hh).2 rfl, h.nodup.erase p⟩
      · simp only [List.mem_cons, not_or]
        exact ⟨hp02, fun hh => h.nz (hsub 0 hh).1⟩
      · have := List.length_erase_of_mem hp
        have hpos : 0 < ps.length := List.length_pos_of_mem hp
        simp only [List.length_cons, this, h.len]
        omega
      · intro q hq
        simp only [List.mem_cons] at hq
        rcases hq with rfl | hq
        · simpa using h.own q hp
        · simpa using h.own q (hsub q hq).1
      · intro q hq
        simp only [List.mem_cons] at hq
        rcases hq with rfl | hq
        · exact h.lt q hp
        · exact h.lt q (hsub q hq).1
    · intro q; simp [SameData]

theorem length_le_of_nodup_lt {ps : List Nat} {n : Nat} (hnd : ps.Nodup)
    (hlt : ∀ p, p ∈ ps → p < n) : ps.length ≤ n := by
  have h1 : ps.toFinset ⊆ Finset.range n := by
    intro x hx
    exact Finset.mem_range.2 (hlt x (List.mem_toFinset.1 hx))
  have h2 := Finset.card_le_card h1
  rw [List.toFinset_card_of_nodup hnd, Finset.card_range] at h2
  exact h2

theorem walk_eq {m : Mem K V} : ∀ {ps : List Ptr} {a : Ptr} {fuel : Nat},
    Seg m a ps 0 → 0 ∉ ps → ps.length ≤ fuel → LruList.walk m fuel (m a).next = ps
  | [], a, fuel, h, _, _ => by
    simp only [Seg] at h
    rw [h.1]
    cases fuel <;> simp [LruList.walk]
  | x :: xs, a, fuel, h, hz, hf => by
    simp only [Seg] at h
    rw [h.1]
    cases fuel with
    | zero => simp at hf
    | succ f =>
      have hx : x ≠ 0 := fun e => hz (by simp [e])
      simp only [LruList.walk, hx, if_false]
      rw [walk_eq h.2.2 (fun hh => hz (List.mem_cons_of_mem _ hh))
        (by simpa using hf)]

theorem Rep.walk_toList {l : LruList K V} {ps : List Ptr} (h : Rep l ps) : l.toList = ps :=
  walk_eq h.seg h.nz (length_le_of_nodup_lt h.nodup h.lt)

end ListOps

section Slices

theorem rangeDelete_skip (e : Ptr) : ∀ (k idx : Nat) (arr : List Ptr) (cur : Nat),
    e ∉ arr.drop idx → rangeDelete e k idx arr cur = some (arr.take cur)
  | 0, _, _, _, _ => rfl
  | k + 1, idx, arr, cur, h => by
    have h1 : ¬ (arr[idx]? = some e) := by
      intro hh
      apply h
      have : (arr.drop idx)[0]? = some e := by
        rw [List.getElem?_drop]; simpa using hh
      exact List.getElem?_mem this
    have h2 : e ∉ arr.drop (idx + 1) := by
      intro hh
      apply h
      rw [← List.drop_drop] at hh
      exact List.mem_of_mem_drop hh
    simp only [rangeDelete, h1, if_false]
    exact rangeDelete_skip e k (idx + 1) arr cur h2

theorem rangeDelete_nodup (e : Ptr) : ∀ (k idx : Nat) (arr : List Ptr),
    arr.Nodup → arr.length = idx + k → e ∉ arr.take idx →
    rangeDelete e k idx arr arr.length = some (arr.erase e)
  | 0, idx, arr, _, hl, he => by
    have : arr.take idx = arr := List.take_of_length_le (by omega)
    rw [this] at he
    simp [rangeDelete, List.erase_of_not_mem he]
  | k + 1, idx, arr, hnd, hl, he => by
    by_cases hm : arr[idx]? = some e
    · have hlt : idx < arr.length := by omega
      have hge : arr[idx] = e := by
        rw [List.getElem?_eq_getElem hlt] at hm; exact Option.some.inj hm
      have hsplit : arr = arr.take idx ++ e :: arr.drop (idx + 1) := by
        conv_lhs => rw [← List.take_append_drop idx arr]
        rw [List.drop_eq_getElem_cons hlt, hge]
      have hidx : idx = (arr.take idx).length := by
        rw [List.length_take]; omega
      generalize arr.take idx = l1 at hsplit he hidx
      generalize arr.drop (idx + 1) = l2 at hsplit
      subst hsplit hidx
      have he2 : e ∉ l2 := by
        have := (List.nodup_append.1 hnd).2.1
        exact (List.nodup_cons.1 this).1
      have hlen : (l1 ++ e :: l2).length = l1.length + l2.length + 1 := by
        simp only [List.length_append, List.length_cons]; omega
      have hc : l1.length + 1 ≤ (l1 ++ e :: l2).length := by omega
      have h1 : List.take l1.length (l1 ++ e :: l2) = l1 := List.take_left _ _
      have h2 : List.drop (l1.length + 1) (l1 ++ e :: l2) = l2 := by
        rw [List.drop_append]; rfl
      have hcur : (l1 ++ e :: l2).length - 1 = l1.length + l2.length := by omega
      have h3 : List.take ((l1 ++ e :: l2).length - (l1.length + 1)) l2 = l2 :=
        List.take_of_length_le (by omega)
      have h4 : List.drop (l1.length + l2.length) (l1 ++ e :: l2) = List.drop l2.length (e :: l2) := by
        rw [List.drop_append]
      simp only [rangeDelete, hm, if_true, hc, h1, h2, h3, hcur, h4]
      rw [rangeDelete_skip]
      · rw [List.erase_append_right _ he, List.erase_cons_head]
        rw [List.take_left' (by simp)]
      · rw [List.append_assoc, List.drop_append]
        cases l2 with
        | nil => simp
        | cons y l2 =>
          intro hh
          have h5 := List.mem_of_mem_drop hh
          rcases List.mem_append.1 h5 with h6 | h6
          · exact he2 h6
          · simp only [List.length_cons, List.drop_succ_cons] at h6
            exact he2 (List.mem_of_mem_drop h6)
    · have he3 : e ∉ arr.take (idx + 1) := by
        intro hh
        rw [List.take_succ] at hh
        rcases List.mem_append.1 hh with h1 | h1
        · exact he h1
        · apply hm
          cases h2 : arr[idx]? with
          | none => rw [h2] at h1; simp at h1
          | some y => rw [h2] at h1; simp at h1; rw [h1]
      simp only [rangeDelete, hm, if_false]
      exact rangeDelete_nodup e k (idx + 1) arr hnd (by omega) he3

theorem rangeDelete_erase (e : Ptr) {xs : List Ptr} (h : xs.Nodup) :
    rangeDelete e xs.length 0 xs xs.length = some (xs.erase e) :=
  rangeDelete_nodup e xs.length 0 xs h (by simp) (by simp)

theorem searchLoop_total (exp : Ptr → Int) (arr : List Ptr) (t : Int) :
    ∀ (fuel low high : Nat), high ≤ arr.length → high - low ≤ fuel → low ≤ high →
      ∃ r, searchLoop exp arr t fuel low high = some r ∧ low ≤ r ∧ r ≤ high
  | 0, low, high, _, hf, hlh => by
    have : ¬ (low < high) := by omega
    exact ⟨low, by simp [searchLoop, this], le_refl _, hlh⟩
  | fuel + 1, low, high, hh, hf, hlh => by
    by_cases hlt : low < high
    · have hmid : (low + high) / 2 < arr.length := by omega
      simp only [searchLoop, hlt, if_true, List.getElem?_eq_getElem hmid]
      by_cases hc : exp arr[(low + high) / 2] > t
      · simp only [hc, if_true]
        obtain ⟨r, hr, h1, h2⟩ := searchLoop_total exp arr t fuel ((low + high) / 2 + 1) high hh
          (by omega) (by omega)
        exact ⟨r, hr, by omega, h2⟩
      · simp only [hc, if_false]
        obtain ⟨r, hr, h1, h2⟩ := searchLoop_total exp arr t fuel low ((low + high) / 2)
          (by omega) (by omega) (by omega)
        exact ⟨r, hr, h1, by omega⟩
    · exact ⟨low, by simp [searchLoop, hlt], le_refl _, hlh⟩

end Slices

section Maps

theorem mapGet_cons (e : Nat × Ptr) (rest : List (Nat × Ptr)) (h : Nat) :
    mapGet (e :: rest) h = if e.1 = h then some e.2 else mapGet rest h := by
  unfold mapGet
  by_cases e1 : e.1 = h
  · simp [List.find?_cons, e1]
  · have : (e.1 == h) = false := by simpa using e1
    simp [List.find?_cons, e1, this]

theorem mapDelete_cons (e : Nat × Ptr) (rest : List (Nat × Ptr)) (h : Nat) :
    mapDelete (e :: rest) h = if e.1 = h then mapDelete rest h else e :: mapDelete rest h := by
  unfold mapDelete
  by_cases e1 : e.1 = h
  · simp [List.filter_cons, e1]
  · simp [List.filter_cons, e1]

theorem mapGet_mem {items : List (Nat × Ptr)} {h : Nat} {p : Ptr}
    (hg : mapGet items h = some p) : (h, p) ∈ items := by
  unfold mapGet at hg
  cases hf : items.find? (fun e => e.1 == h) with
  | none => rw [hf] at hg; simp at hg
  | some e =>
    rw [hf] at hg
    simp only [Option.map_some', Option.some.injEq] at hg
    have h1 := List.find?_some hf
    have h2 := List.mem_of_find?_eq_some hf
    simp only [beq_iff_eq] at h1
    obtain ⟨a, b⟩ := e
    simp only at h1 hg
    subst h1 hg
    exact h2

theorem mapGet_none {items : List (Nat × Ptr)} {h : Nat}
    (hg : mapGet items h = none) : h ∉ items.map Prod.fst := by
  unfold mapGet at hg
  simp only [Option.map_eq_none', List.find?_eq_none, beq_iff_eq] at hg
  intro hh
  obtain ⟨e, he, rfl⟩ := List.mem_map.1 hh
  exact hg e he rfl

theorem mapGet_of_mem : ∀ {items : List (Nat × Ptr)} {h : Nat} {p : Ptr},
    (items.map Prod.fst).Nodup → (h, p) ∈ items → mapGet items h = some p
  | [], _, _, _, hm => by simp at hm
  | (h1, p1) :: rest, h, p, hnd, hm => by
    simp only [List.map_cons, List.nodup_cons] at hnd
    by_cases e : h1 = h
    · subst e
      have : p1 = p := by
        rcases List.mem_cons.1 hm with h2 | h2
        · exact (Prod.mk.inj h2).2.symm
        · exact absurd (List.mem_map.2 ⟨(h1, p), h2, rfl⟩) hnd.1
      subst this
      simp [mapGet]
    · have hm2 : (h, p) ∈ rest := by
        rcases List.mem_cons.1 hm with h2 | h2
        · exact absurd (Prod.mk.inj h2).1.symm e
        · exact h2
      rw [mapGet_cons]
      simp only [e, if_false]
      exact mapGet_of_mem hnd.2 hm2

theorem mapDelete_of_not_mem {items : List (Nat × Ptr)} {h : Nat}
    (hn : h ∉ items.map Prod.fst) : mapDelete items h = items := by
  unfold mapDelete
  rw [List.filter_eq_self]
  intro e he
  simp only [bne_iff_ne, ne_eq]
  intro e1
  exact hn (List.mem_map.2 ⟨e, he, e1⟩)

theorem mem_mapDelete {items : List (Nat × Ptr)} {h : Nat} {e : Nat × Ptr} :
    e ∈ mapDelete items h ↔ e ∈ items ∧ e.1 ≠ h := by
  simp [mapDelete]

theorem mapDelete_keys_nodup {items : List (Nat × Ptr)} (h : Nat)
    (hnd : (items.map Prod.fst).Nodup) : ((mapDelete items h).map Prod.fst).Nodup :=
  hnd.sublist (List.Sublist.map _ (List.filter_sublist _))

theorem mapDelete_vals : ∀ {items : List (Nat × Ptr)} {h : Nat} {p : Ptr},
    (items.map Prod.fst).Nodup → (items.map Prod.snd).Nodup → (h, p) ∈ items →
    (mapDelete items h).map Prod.snd = (items.map Prod.snd).erase p
  | [], _, _, _, _, hm => by simp at hm
  | (h1, p1) :: rest, h, p, hk, hv, hm => by
    simp only [List.map_cons, List.nodup_cons] at hk hv
    by_cases e : h1 = h
    · subst e
      have : p1 = p := by
        rcases List.mem_cons.1 hm with h2 | h2
        · exact (Prod.mk.inj h2).2.symm
        · exact absurd (List.mem_map.2 ⟨(h1, p), h2, rfl⟩) hk.1
      subst this
      have hr : mapDelete rest h1 = rest := mapDelete_of_not_mem hk.1
      have : mapDelete ((h1, p1) :: rest) h1 = rest := by
        unfold mapDelete at hr ⊢
        simp [List.filter_cons, hr]
      rw [this]
      simp
    · have hm2 : (h, p) ∈ rest := by
        rcases List.mem_cons.1 hm with h2 | h2
        · exact absurd (Prod.mk.inj h2).1.symm e
        · exact h2
      have hpp : p1 ≠ p := by
        rintro rfl
        exact hv.1 (List.mem_map.2 ⟨(h, p1), hm2, rfl⟩)
      have ih := mapDelete_vals hk.2 hv.2 hm2
      have : mapDelete ((h1, p1) :: rest) h = (h1, p1) :: mapDelete rest h := by
        unfold mapDelete
        simp [List.filter_cons, e]
      rw [this]
      simp only [List.map_cons, ih]
      rw [List.erase_cons_tail (by simpa using hpp)]

theorem mapGet_mapDelete (items : List (Nat × Ptr)) (h h1 : Nat) :
    mapGet (mapDelete items h) h1 = if h1 = h then none else mapGet items h1 := by
  induction items with
  | nil => simp [mapGet, mapDelete]
  | cons e rest ih =>
    rw [mapDelete_cons, mapGet_cons]
    by_cases e1 : e.1 = h
    · simp only [e1, if_true, ih]
      by_cases e2 : h1 = h
      · simp [e2]
      · have : ¬ (h = h1) := fun hh => e2 hh.symm
        simp [e2, this]
    · simp only [e1, if_false, mapGet_cons, ih]
      by_cases e3 : e.1 = h1
      · have : ¬ (h1 = h) := fun hh => e1 (e3.trans hh)
        simp [e3, this]
      · simp [e3]

theorem mapGet_append_singleton (items : List (Nat × Ptr)) (h h1 : Nat) (p : Ptr) :
    mapGet (items ++ [(h, p)]) h1 =
      match mapGet items h1 with
      | some q => some q
      | none => if h1 = h then some p else none := by
  induction items with
  | nil =>
    by_cases e : h = h1
    · subst e; simp [mapGet]
    · have : ¬ (h1 = h) := fun hh => e hh.symm
      simp [mapGet, e, this]
  | cons e rest ih =>
    rw [List.cons_append, mapGet_cons, mapGet_cons]
    by_cases e3 : e.1 = h1
    · simp [e3]
    · simp only [e3, if_false]
      exact ih

theorem mapGet_mapSet (items : List (Nat × Ptr)) (h h1 : Nat) (p : Ptr) :
    mapGet (mapSet items h p) h1 = if h1 = h then some p else mapGet items h1 := by
  unfold mapSet
  rw [mapGet_append_singleton, mapGet_mapDelete]
  by_cases e : h1 = h
  · simp [e]
  · simp only [e, if_false]
    cases mapGet items h1 <;> rfl

end Maps

section WfLemmas
variable {K V : Type} {hasher : K → Option Nat} {c : Cache K V} {ps : List Ptr}

theorem Wf.items_length (h : Wf hasher c ps) : c.items.length = ps.length := by
  have := h.vals_perm.length_eq
  simpa using this

theorem Wf.vals_nodup (h : Wf hasher c ps) : (c.items.map Prod.snd).Nodup :=
  h.vals_perm.nodup_iff.2 h.rep.nodup

theorem Wf.mem_of_get (h : Wf hasher c ps) {hash : Nat} {p : Ptr}
    (hg : mapGet c.items hash = some p) :
    (hash, p) ∈ c.items ∧ p ∈ ps ∧ hasher (c.list.mem p).Key = some hash := by
  have hm := mapGet_mem hg
  exact ⟨hm, h.vals_perm.mem_iff.1 (List.mem_map.2 ⟨_, hm, rfl⟩), h.hash_ok _ hm⟩

theorem Wf.get_of_mem (h : Wf hasher c ps) {p : Ptr} (hp : p ∈ ps) :
    ∃ hash, (hash, p) ∈ c.items ∧ hasher (c.list.mem p).Key = some hash ∧
      mapGet c.items hash = some p := by
  obtain ⟨e, he, rfl⟩ := List.mem_map.1 (h.vals_perm.mem_iff.2 hp)
  exact ⟨e.1, he, h.hash_ok e he, mapGet_of_mem h.keys_nodup he⟩

theorem Wf.relist (h : Wf hasher c ps) {l1 : LruList K V} {ps1 : List Ptr} (hr : Rep l1 ps1)
    (hperm : ps1.Perm ps) (hd : ∀ q, (l1.mem q).Key = (c.list.mem q).Key) :
    Wf hasher { c with list := l1 } ps1 :=
  { rep := hr
    size_pos := h.size_pos
    keys_nodup := h.keys_nodup
    vals_perm := h.vals_perm.trans hperm.symm
    hash_ok := fun e he => by
      show hasher (l1.mem e.2).Key = some e.1
      rw [hd e.2]; exact h.hash_ok e he
    ttl_nodup := h.ttl_nodup
    ttl_mem := fun p hp => hperm.mem_iff.2 (h.ttl_mem p hp) }

theorem Wf.erase (h : Wf hasher c ps) {l1 : LruList K V} {p : Ptr} {hash : Nat}
    (hm : (hash, p) ∈ c.items) (hr : Rep l1 (ps.erase p))
    (hd : ∀ q, (l1.mem q).Key = (c.list.mem q).Key) :
    Wf hasher { c with list := l1, items := mapDelete c.items hash,
                       entriesWithTTL := c.entriesWithTTL.erase p } (ps.erase p) :=
  { rep := hr
    size_pos := h.size_pos
    keys_nodup := mapDelete_keys_nodup hash h.keys_nodup
    vals_perm := by
      show ((mapDelete c.items hash).map Prod.snd).Perm (ps.erase p)
      rw [mapDelete_vals h.keys_nodup h.vals_nodup hm]
      exact h.vals_perm.erase p
    hash_ok := fun e he => by
      show hasher (l1.mem e.2).Key = some e.1
      rw [hd e.2]; exact h.hash_ok e (mem_mapDelete.1 he).1
    ttl_nodup := h.ttl_nodup.erase p
    ttl_mem := fun q hq => by
      have h1 := (List.Nodup.mem_erase_iff h.ttl_nodup).1 hq
      exact (List.mem_erase_of_ne h1.1).2 (h.ttl_mem q h1.2) }

theorem Wf.push (h : Wf hasher c ps) {l1 : LruList K V} {e : Ptr} {hash : Nat}
    (hg : mapGet c.items hash = none) (hr : Rep l1 (e :: ps))
    (hke : hasher (l1.mem e).Key = some hash)
    (hd : ∀ q, q ≠ e → (l1.mem q).Key = (c.list.mem q).Key) :
    Wf hasher { c with list := l1, items := mapSet c.items hash e } (e :: ps) := by
  have heps : e ∉ ps := (List.nodup_cons.1 hr.nodup).1
  have hitems : mapSet c.items hash e = c.items ++ [(hash, e)] := by
    unfold mapSet; rw [mapDelete_of_not_mem (mapGet_none hg)]
  exact
  { rep := hr
    size_pos := h.size_pos
    keys_nodup := by
      show ((mapSet c.items hash e).map Prod.fst).Nodup
      rw [hitems, List.map_append]
      refine List.Nodup.append h.keys_nodup (by simp) ?_
      intro x hx1 hx2
      simp only [List.map_cons, List.map_nil, List.mem_singleton] at hx2
      subst hx2
      exact mapGet_none hg hx1
    vals_perm := by
      show ((mapSet c.items hash e).map Prod.snd).Perm (e :: ps)
      rw [hitems, List.map_append]
      exact (List.perm_append_comm).trans (List.Perm.cons e h.vals_perm)
    hash_ok := fun x hx => by
      show hasher (l1.mem x.2).Key = some x.1
      have hx : x ∈ c.items ++ [(hash, e)] := hitems ▸ hx
      rcases List.mem_append.1 hx with h1 | h1
      · have hne : x.2 ≠ e := by
          intro e1
          exact heps (e1 ▸ h.vals_perm.mem_iff.1 (List.mem_map.2 ⟨x, h1, rfl⟩))
        rw [hd x.2 hne]; exact h.hash_ok x h1
      · simp only [List.mem_singleton] at h1
        subst h1; exact hke
    ttl_nodup := h.ttl_nodup
    ttl_mem := fun p hp => List.mem_cons_of_mem _ (h.ttl_mem p hp) }

theorem Wf.ttl_insert (h : Wf hasher c ps) {e : Ptr} (low : Nat) (he : e ∈ ps)
    (hne : e ∉ c.entriesWithTTL) :
    Wf hasher { c with entriesWithTTL :=
      c.entriesWithTTL.take low ++ e :: c.entriesWithTTL.drop low } ps :=
  { rep := h.rep
    size_pos := h.size_pos
    keys_nodup := h.keys_nodup
    vals_perm := h.vals_perm
    hash_ok := h.hash_ok
    ttl_nodup := by
      show (c.entriesWithTTL.take low ++ e :: c.entriesWithTTL.drop low).Nodup
      have hp : (c.entriesWithTTL.take low ++ e :: c.entriesWithTTL.drop low).Perm
          (e :: c.entriesWithTTL) := by
        refine List.perm_middle.trans (List.Perm.cons e ?_)
        rw [List.take_append_drop]
      exact hp.nodup_iff.2 (List.nodup_cons.2 ⟨hne, h.ttl_nodup⟩)
    ttl_mem := fun p hp => by
      have hp : p ∈ c.entriesWithTTL.take low ++ e :: c.entriesWithTTL.drop low := hp
      simp only [List.mem_append, List.mem_cons] at hp
      rcases hp with h1 | rfl | h1
      · exact h.ttl_mem p (List.mem_of_mem_take h1)
      · exact he
      · exact h.ttl_mem p (List.mem_of_mem_drop h1) }

end WfLemmas

section OpSpecs
variable {K V : Type} {hasher : K → Option Nat} {c : Cache K V} {ps : List Ptr}

theorem Rep.congr {l l1 : LruList K V} {ps : List Ptr} (h : Rep l ps)
    (hn : ∀ q, (l1.mem q).next = (l.mem q).next) (hp : ∀ q, (l1.mem q).prev = (l.mem q).prev)
    (hl : ∀ q, (l1.mem q).List = (l.mem q).List) (hlen : l1.len = l.len)
    (hf : l1.fresh = l.fresh) : Rep l1 ps :=
  { seg := Seg.frame h.seg (fun q _ => hn q) (fun q _ => hp q)
    nodup := h.nodup
    nz := h.nz
    len := hlen.trans h.len
    own := fun p hp1 => (hl p).trans (h.own p hp1)
    lt := fun p hp1 => hf ▸ h.lt p hp1
    fresh_pos := hf ▸ h.fresh_pos }

theorem Rep.set_value {l : LruList K V} {ps : List Ptr} (h : Rep l ps) (p : Ptr) (v : V) :
    Rep { l with mem := setValue l.mem p v } ps :=
  h.congr (fun q => by simp) (fun q => by simp) (fun q => by simp) rfl rfl

theorem Rep.set_value_expires {l : LruList K V} {ps : List Ptr} (h : Rep l ps) (p : Ptr) (v : V)
    (t : Int) : Rep { l with mem := setExpiresAt (setValue l.mem p v) p t } ps :=
  h.congr (fun q => by simp) (fun q => by simp) (fun q => by simp) rfl rfl

theorem erase_getLast {xs : List Ptr} {x : Ptr} (hnd : xs.Nodup) (hl : xs.getLast? = some x) :
    xs.erase x = xs.dropLast := by
  have hne : xs ≠ [] := by rintro rfl; simp at hl
  have hx : xs.getLast hne = x := by
    rw [List.getLast?_eq_getLast _ hne] at hl; exact Option.some.inj hl
  have hs := List.dropLast_append_getLast hne
  rw [hx] at hs
  have hnot : x ∉ xs.dropLast := by
    rw [← hs] at hnd
    intro hh
    exact (List.nodup_append.1 hnd).2.2 hh (List.mem_singleton_self x)
  conv_lhs => rw [← hs]
  rw [List.erase_append_right _ hnot]
  simp

theorem removeFromEntries_spec (c : Cache K V) (p : Ptr) (h : c.entriesWithTTL.Nodup) :
    c.removeFromEntries p = some { c with entriesWithTTL := c.entriesWithTTL.erase p } := by
  simp [Cache.removeFromEntries, rangeDelete_erase p h]

theorem insertSorted_spec (c : Cache K V) (e : Ptr) :
    ∃ low, low ≤ c.entriesWithTTL.length ∧ c.insertSorted e =
      some { c with entriesWithTTL :=
        c.entriesWithTTL.take low ++ e :: c.entriesWithTTL.drop low } := by
  obtain ⟨r, hr, _, h2⟩ := searchLoop_total (fun p => (c.list.mem p).ExpiresAt) c.entriesWithTTL
    (c.list.mem e).ExpiresAt c.entriesWithTTL.length 0 c.entriesWithTTL.length (le_refl _)
    (by omega) (Nat.zero_le _)
  exact ⟨r, h2, by simp [Cache.insertSorted, hr]⟩

/-- Unlinking an entry of the list together with its pair of the Fingerprint Index
and its reference in the TTL Index. -/
theorem Wf.remove_entry (h : Wf hasher c ps) {p : Ptr} (hp : p ∈ ps) :
    ∃ l1 hash, c.list.Remove p = some (l1, (c.list.mem p).Value) ∧
      hasher (c.list.mem p).Key = some hash ∧ mapGet c.items hash = some p ∧
      l1.fresh = c.list.fresh ∧ (∀ q, SameData c.list.mem l1.mem q) ∧
      Rep l1 (ps.erase p) ∧
      Wf hasher { c with list := l1, items := mapDelete c.items hash,
                         entriesWithTTL := c.entriesWithTTL.erase p } (ps.erase p) := by
  obtain ⟨l1, hrm, hrep, hf, hd⟩ := h.rep.remove hp
  obtain ⟨hash, hm, hk, hg⟩ := h.get_of_mem hp
  exact ⟨l1, hash, hrm, hk, hg, hf, hd, hrep, h.erase hm hrep (fun q => (hd q).1)⟩

theorem removeOldest_spec (h : Wf hasher c ps) {last : Ptr} (hl : ps.getLast? = some last) :
    ∃ l1 hash, c.list.Last = some last ∧
      hasher (c.list.mem last).Key = some hash ∧ mapGet c.items hash = some last ∧
      l1.fresh = c.list.fresh ∧ (∀ q, SameData c.list.mem l1.mem q) ∧
      Rep l1 ps.dropLast ∧
      c.removeOldest hasher =
        some ({ c with list := l1, items := mapDelete c.items hash,
                       entriesWithTTL := c.entriesWithTTL.erase last },
              some (c.list.mem last).Key) ∧
      Wf hasher { c with list := l1, items := mapDelete c.items hash,
                         entriesWithTTL := c.entriesWithTTL.erase last } ps.dropLast := by
  have hp : last ∈ ps := List.mem_of_getLast?_eq_some hl
  obtain ⟨l1, hash, hrm, hk, hg, hf, hd, hrep, hwf⟩ := h.remove_entry hp
  have he := erase_getLast h.rep.nodup hl
  rw [he] at hrep hwf
  have hlast : c.list.Last = some last := by rw [h.rep.last, hl]
  refine ⟨l1, hash, hlast, hk, hg, hf, hd, hrep, ?_, hwf⟩
  have hk1 : hasher (l1.mem last).Key = some hash := by rw [(hd last).1]; exact hk
  simp only [Cache.removeOldest, hlast, hrm, Option.bind_eq_bind, Option.some_bind, hk1]
  have hrf := removeFromEntries_spec
    ({ c with list := l1, items := mapDelete c.items hash } : Cache K V) last h.ttl_nodup
  rw [hrf]
  simp [(hd last).1]

end OpSpecs

section OpSpecs2
variable {K V : Type} {hasher : K → Option Nat} {c : Cache K V} {ps : List Ptr}

theorem Wf.set_calls (h : Wf hasher c ps) (x : List (Arg K × Arg K)) :
    Wf hasher { c with calls := x } ps :=
  { rep := h.rep, size_pos := h.size_pos, keys_nodup := h.keys_nodup, vals_perm := h.vals_perm,
    hash_ok := h.hash_ok, ttl_nodup := h.ttl_nodup, ttl_mem := h.ttl_mem }

/-- A hit of `Add`: the entry moves to the front and takes the new value. -/
theorem Add_hit_spec (h : Wf hasher c ps) {key : K} {hash : Nat} {p : Ptr} (v : V) (now : Int)
    (hk : hasher key = some hash) (hg : mapGet c.items hash = some p) :
    ∃ l1, c.list.MoveToFront p = some l1 ∧ Rep l1 (p :: ps.erase p) ∧
      l1.fresh = c.list.fresh ∧ (∀ q, SameData c.list.mem l1.mem q) ∧
      c.Add hasher key v now = some { c with list := { l1 with mem := setValue l1.mem p v } } ∧
      Wf hasher { c with list := { l1 with mem := setValue l1.mem p v } } (p :: ps.erase p) := by
  have hp := (h.mem_of_get hg).2.1
  obtain ⟨l1, hmv, hrep, hf, hd⟩ := h.rep.moveToFront hp
  refine ⟨l1, hmv, hrep, hf, hd, ?_, ?_⟩
  · simp [Cache.Add, hk, hg, hmv]
  · exact h.relist (hrep.set_value p v) (List.perm_cons_erase hp).symm
      (fun q => by simp [(hd q).1])

/-- A hit of `AddWithTTL` with a non-zero ttl: the entry moves to the front and
takes the new value and the new expiry; the TTL Index is left as it is. -/
theorem AddWithTTL_hit_spec (h : Wf hasher c ps) {key : K} {hash : Nat} {p : Ptr} (v : V)
    {ttl : Int} (now : Int) (httl : ttl ≠ 0)
    (hk : hasher key = some hash) (hg : mapGet c.items hash = some p) :
    ∃ l1, c.list.MoveToFront p = some l1 ∧ Rep l1 (p :: ps.erase p) ∧
      l1.fresh = c.list.fresh ∧ (∀ q, SameData c.list.mem l1.mem q) ∧
      c.AddWithTTL hasher key v ttl now =
        some { c with list :=
          { l1 with mem := setExpiresAt (setValue l1.mem p v) p (now + ttl) } } ∧
      Wf hasher { c with list :=
          { l1 with mem := setExpiresAt (setValue l1.mem p v) p (now + ttl) } }
        (p :: ps.erase p) := by
  have hp := (h.mem_of_get hg).2.1
  obtain ⟨l1, hmv, hrep, hf, hd⟩ := h.rep.moveToFront hp
  refine ⟨l1, hmv, hrep, hf, hd, ?_, ?_⟩
  · simp [Cache.AddWithTTL, httl, hk, hg, hmv]
  · exact h.relist (hrep.set_value_expires p v _) (List.perm_cons_erase hp).symm
      (fun q => by simp [(hd q).1])

/-- The insertion shared by `Add` and `AddWithTTL` for a fingerprint not yet stored. -/
theorem pushNew_spec (h : Wf hasher c ps) {key : K} {hash : Nat} (v : V) (t : Int)
    (hk : hasher key = some hash) (hg : mapGet c.items hash = none) :
    ∃ l1, Rep l1 (c.list.fresh :: ps) ∧ l1.fresh = c.list.fresh + 1 ∧
      (l1.mem c.list.fresh).Key = key ∧ (l1.mem c.list.fresh).Value = v ∧
      (l1.mem c.list.fresh).ExpiresAt = t ∧
      (∀ q, q ≠ c.list.fresh → SameData c.list.mem l1.mem q) ∧
      c.pushNew hash key v t =
        some ({ c with list := l1, items := mapSet c.items hash c.list.fresh }, c.list.fresh) ∧
      Wf hasher { c with list := l1, items := mapSet c.items hash c.list.fresh }
        (c.list.fresh :: ps) := by
  obtain ⟨l1, hpf, hrep, hf, hkey, hval, hexp, hd⟩ := h.rep.pushFront key v t
  refine ⟨l1, hrep, hf, hkey, hval, hexp, hd, ?_, ?_⟩
  · simp [Cache.pushNew, hpf]
  · exact h.push hg hrep (by rw [hkey]; exact hk) (fun q hq => (hd q hq).1)

/-- The eviction step of `Add` and `AddWithTTL` when the list is within the
capacity: nothing happens. -/
theorem evictIfOver_within (h : Wf hasher c ps) (hle : (ps.length : Int) ≤ c.size) :
    c.evictIfOver hasher = some c := by
  have : ¬ (c.size < c.list.Len) := by
    simp only [LruList.Len, h.rep.len]; omega
  simp [Cache.evictIfOver, this]

/-- The eviction step of `Add` and `AddWithTTL` when the list exceeds the capacity:
the entry at the back is removed from the three structures. -/
theorem evictIfOver_over (h : Wf hasher c ps) (hlt : c.size < (ps.length : Int)) :
    ∃ last l1 hash, ps.getLast? = some last ∧ c.list.Last = some last ∧
      hasher (c.list.mem last).Key = some hash ∧ mapGet c.items hash = some last ∧
      l1.fresh = c.list.fresh ∧ (∀ q, SameData c.list.mem l1.mem q) ∧
      Rep l1 ps.dropLast ∧
      c.evictIfOver hasher =
        some { c with list := l1, items := mapDelete c.items hash,
                      entriesWithTTL := c.entriesWithTTL.erase last } ∧
      Wf hasher { c with list := l1, items := mapDelete c.items hash,
                         entriesWithTTL := c.entriesWithTTL.erase last } ps.dropLast := by
  have hne : ps ≠ [] := by
    rintro rfl
    have := h.size_pos
    simp at hlt; omega
  have hl : ps.getLast? = some (ps.getLast hne) := List.getLast?_eq_getLast _ hne
  obtain ⟨l1, hash, hlast, hk, hg, hf, hd, hrep, hro, hwf⟩ := removeOldest_spec h hl
  refine ⟨_, l1, hash, hl, hlast, hk, hg, hf, hd, hrep, ?_, hwf⟩
  have : c.size < c.list.Len := by
    simp only [LruList.Len, h.rep.len]; exact hlt
  simp [Cache.evictIfOver, this, hro]

/-- A removal by key (`Remove`, or the lazy removal of `Get`): the statements
`c.list.Remove(ent); delete(c.items, hash); c.removeFromEntries(ent)`. -/
theorem remove_steps_spec (h : Wf hasher c ps) {hash : Nat} {p : Ptr}
    (hg : mapGet c.items hash = some p) :
    ∃ l1, c.list.Remove p = some (l1, (c.list.mem p).Value) ∧
      l1.fresh = c.list.fresh ∧ (∀ q, SameData c.list.mem l1.mem q) ∧
      Rep l1 (ps.erase p) ∧
      ({ c with list := l1, items := mapDelete c.items hash } : Cache K V).removeFromEntries p =
        some { c with list := l1, items := mapDelete c.items hash,
                      entriesWithTTL := c.entriesWithTTL.erase p } ∧
      Wf hasher { c with list := l1, items := mapDelete c.items hash,
                         entriesWithTTL := c.entriesWithTTL.erase p } (ps.erase p) := by
  obtain ⟨hm, hp, hk⟩ := h.mem_of_get hg
  obtain ⟨l1, hrm, hrep, hf, hd⟩ := h.rep.remove hp
  refine ⟨l1, hrm, hf, hd, hrep, ?_, h.erase hm hrep (fun q => (hd q).1)⟩
  exact removeFromEntries_spec
    ({ c with list := l1, items := mapDelete c.items hash } : Cache K V) p h.ttl_nodup

theorem Remove_hit_spec (h : Wf hasher c ps) {key : K} {hash : Nat} {p : Ptr}
    (hk : hasher key = some hash) (hg : mapGet c.items hash = some p) :
    ∃ l1, l1.fresh = c.list.fresh ∧ (∀ q, SameData c.list.mem l1.mem q) ∧
      Rep l1 (ps.erase p) ∧
      c.Remove hasher key =
        some { c with list := l1, items := mapDelete c.items hash,
                      entriesWithTTL := c.entriesWithTTL.erase p } ∧
      Wf hasher { c with list := l1, items := mapDelete c.items hash,
                         entriesWithTTL := c.entriesWithTTL.erase p } (ps.erase p) := by
  obtain ⟨l1, hrm, hf, hd, hrep, hrf, hwf⟩ := remove_steps_spec h hg
  refine ⟨l1, hf, hd, hrep, ?_, hwf⟩
  simp only [Cache.Remove, hk, hg, hrm, Option.bind_eq_bind, Option.some_bind]
  exact hrf

/-- A hit of `Get` on an entry whose expiry lies before `now`: lazy removal. -/
theorem Get_expired_spec [Inhabited V] (h : Wf hasher c ps) {key : K} {hash : Nat} {p : Ptr}
    {now : Int} (hk : hasher key = some hash) (hg : mapGet c.items hash = some p)
    (hexp : now > (c.list.mem p).ExpiresAt) :
    ∃ l1, l1.fresh = c.list.fresh ∧ (∀ q, SameData c.list.mem l1.mem q) ∧
      Rep l1 (ps.erase p) ∧
      c.Get hasher key now =
        some ({ c with list := l1, items := mapDelete c.items hash,
                       entriesWithTTL := c.entriesWithTTL.erase p }, default, false) ∧
      Wf hasher { c with list := l1, items := mapDelete c.items hash,
                         entriesWithTTL := c.entriesWithTTL.erase p } (ps.erase p) := by
  obtain ⟨l1, hrm, hf, hd, hrep, hrf, hwf⟩ := remove_steps_spec h hg
  refine ⟨l1, hf, hd, hrep, ?_, hwf⟩
  simp only [Cache.Get, hk, hg, hexp, if_true, hrm, Option.bind_eq_bind, Option.some_bind]
  rw [hrf]; rfl

/-- A hit of `Get` on an entry whose expiry does not lie before `now`. -/
theorem Get_live_spec [Inhabited V] (h : Wf hasher c ps) {key : K} {hash : Nat} {p : Ptr}
    {now : Int} (hk : hasher key = some hash) (hg : mapGet c.items hash = some p)
    (hexp : ¬ now > (c.list.mem p).ExpiresAt) :
    ∃ l1, c.list.MoveToFront p = some l1 ∧ Rep l1 (p :: ps.erase p) ∧
      l1.fresh = c.list.fresh ∧ (∀ q, SameData c.list.mem l1.mem q) ∧
      c.Get hasher key now = some ({ c with list := l1 }, (c.list.mem p).Value, true) ∧
      Wf hasher { c with list := l1 } (p :: ps.erase p) := by
  have hp := (h.mem_of_get hg).2.1
  obtain ⟨l1, hmv, hrep, hf, hd⟩ := h.rep.moveToFront hp
  refine ⟨l1, hmv, hrep, hf, hd, ?_, ?_⟩
  · simp [Cache.Get, hk, hg, hexp, hmv, (hd p).2.1]
  · exact h.relist hrep (List.perm_cons_erase hp).symm (fun q => (hd q).1)

end OpSpecs2

section Preservation
variable {K V : Type} {hasher : K → Option Nat} {c : Cache K V} {ps : List Ptr}

theorem foldl_mapDelete_nil : ∀ (its base : List (Nat × Ptr)), (∀ e, e ∈ base → e ∈ its) →
    its.foldl (fun acc e => mapDelete acc e.1) base = []
  | [], base, h => by
    cases base with
    | nil => rfl
    | cons x xs => exact absurd (h x (List.mem_cons_self _ _)) (List.not_mem_nil _)
  | e :: rest, base, h => by
    simp only [List.foldl_cons]
    apply foldl_mapDelete_nil rest
    intro x hx
    have hx1 := mem_mapDelete.1 hx
    rcases List.mem_cons.1 (h x hx1.1) with h1 | h1
    · exact absurd (by rw [h1]) hx1.2
    · exact h1

theorem clearLoop_spec : ∀ (its : List (Nat × Ptr)) (c : Cache K V),
    c.clearLoop its =
      some { c with
        items := its.foldl (fun acc e => mapDelete acc e.1) c.items,
        calls := c.calls ++
          (if c.onEvict then its.map (fun e => (Arg.hash e.1, Arg.entry e.2)) else []) }
  | [], c => by simp [Cache.clearLoop]
  | (k, v) :: rest, c => by
    by_cases ho : c.onEvict = true
    · simp only [Cache.clearLoop, ho, if_true]
      rw [clearLoop_spec rest]
      simp [ho]
    · simp only [Bool.not_eq_true] at ho
      simp only [Cache.clearLoop, ho, Bool.false_eq_true, if_false]
      rw [clearLoop_spec rest]
      simp [ho]

theorem Clear_spec (c : Cache K V) :
    c.Clear = some { c with
      items := [], entriesWithTTL := [], list := c.list.Init,
      calls := c.calls ++
        (if c.onEvict then c.items.map (fun e => (Arg.hash e.1, Arg.entry e.2)) else []) } := by
  simp only [Cache.Clear, clearLoop_spec, Option.map_some']
  rw [foldl_mapDelete_nil c.items c.items (fun e he => he)]

theorem Wf.clear (h : Wf hasher c ps) (x : List (Arg K × Arg K)) :
    Wf hasher { c with items := [], entriesWithTTL := [], list := c.list.Init, calls := x } [] :=
  { rep := Rep.init c.list h.rep.fresh_pos
    size_pos := h.size_pos
    keys_nodup := List.nodup_nil
    vals_perm := List.Perm.refl _
    hash_ok := fun _ he => absurd he (List.not_mem_nil _)
    ttl_nodup := List.nodup_nil
    ttl_mem := fun _ hp => absurd hp (List.not_mem_nil _) }

/-- The purge loop of a sweep keeps the structures in agreement and only removes
entries. -/
theorem expireLoop_spec (now : Int) : ∀ (fuel : Nat) (c : Cache K V) (ps : List Ptr),
    Wf hasher c ps → c.entriesWithTTL.length ≤ fuel →
    ∃ c1 ps1, Cache.expireLoop hasher now fuel c = some c1 ∧ Wf hasher c1 ps1 ∧
      ps1.Sublist ps ∧ c1.size = c.size ∧ ∀ q, SameData c.list.mem c1.list.mem q
  | 0, c, ps, h, hf => by
    have : c.entriesWithTTL = [] := List.length_eq_zero.1 (Nat.le_zero.1 hf)
    exact ⟨c, ps, by simp [Cache.expireLoop, this], h, List.Sublist.refl _, rfl,
      fun _ => ⟨rfl, rfl, rfl⟩⟩
  | fuel + 1, c, ps, h, hf => by
    cases hl : c.entriesWithTTL.getLast? with
    | none =>
      exact ⟨c, ps, by simp [Cache.expireLoop, hl], h, List.Sublist.refl _, rfl,
        fun _ => ⟨rfl, rfl, rfl⟩⟩
    | some last =>
      by_cases hexp : (c.list.mem last).ExpiresAt > now
      · exact ⟨c, ps, by simp [Cache.expireLoop, hl, hexp], h, List.Sublist.refl _, rfl,
          fun _ => ⟨rfl, rfl, rfl⟩⟩
      · have hp : last ∈ ps := h.ttl_mem last (List.mem_of_getLast?_eq_some hl)
        obtain ⟨l1, hash, hrm, hk, hg, hfr, hd, hrep, hwf⟩ := h.remove_entry hp
        rw [erase_getLast h.ttl_nodup hl] at hwf
        have hlen : (c.entriesWithTTL.dropLast).length ≤ fuel := by
          rw [List.length_dropLast]; omega
        obtain ⟨c1, ps1, hrun, hwf1, hsub, hsz, hd1⟩ :=
          expireLoop_spec now fuel _ (ps.erase last) hwf hlen
        refine ⟨c1, ps1, ?_, hwf1, hsub.trans (List.erase_sublist _ _), hsz, fun q => ?_⟩
        · simp only [Cache.expireLoop, hl, hexp, if_false, hk, Option.getD_some, hrm,
            Option.bind_eq_bind, Option.some_bind]
          exact hrun
        · have h1 := hd q
          have h2 := hd1 q
          exact ⟨h2.1.trans h1.1, h2.2.1.trans h1.2.1, h2.2.2.trans h1.2.2⟩

theorem deleteExpired_spec (h : Wf hasher c ps) (now : Int) :
    ∃ c1 ps1, c.deleteExpired hasher now = some c1 ∧ Wf hasher c1 ps1 ∧
      ps1.Sublist ps ∧ c1.size = c.size ∧ ∀ q, SameData c.list.mem c1.list.mem q := by
  by_cases hlen : c.entriesWithTTL.length > 0
  · simp only [Cache.deleteExpired, hlen, if_true]
    exact expireLoop_spec now _ c ps h (le_refl _)
  · exact ⟨c, ps, by simp [Cache.deleteExpired, hlen], h, List.Sublist.refl _, rfl,
      fun _ => ⟨rfl, rfl, rfl⟩⟩

/-- The insertion and eviction of `Add` and `AddWithTTL` for a new fingerprint end in
a state within the capacity. -/
theorem Inv.evict (h : Wf hasher c ps) (hle : (ps.length : Int) ≤ c.size + 1) :
    ∃ c1 ps1, c.evictIfOver hasher = some c1 ∧ Inv hasher c1 ps1 ∧ c1.size = c.size := by
  by_cases hlt : c.size < (ps.length : Int)
  · obtain ⟨last, l1, hash, hl, _, _, _, _, _, _, hev, hwf⟩ := evictIfOver_over h hlt
    refine ⟨_, _, hev, ⟨hwf, ?_⟩, rfl⟩
    have h3 : ((ps.dropLast).length : Int) ≤ c.size := by
      have := h.size_pos
      rw [List.length_dropLast]; omega
    exact h3
  · have hle2 : (ps.length : Int) ≤ c.size := by omega
    exact ⟨c, ps, evictIfOver_within h hle2, ⟨h, hle2⟩, rfl⟩

theorem Inv.callOnEvict (h : Inv hasher c ps) {a b : Arg K} {c1 : Cache K V}
    (hc : c.callOnEvict a b = some c1) : Inv hasher c1 ps ∧ c1.size = c.size := by
  unfold Cache.callOnEvict at hc
  split at hc
  · cases hc
    exact ⟨⟨h.wf.set_calls _, h.le_size⟩, rfl⟩
  · cases hc

theorem Inv.newCache [Inhabited K] [Inhabited V] (hasher : K → Option Nat) {size : Int} {onEvict : Bool} {c : Cache K V}
    (h : Cache.NewCache size onEvict = some c) : Inv hasher c [] ∧ c.size = size := by
  unfold Cache.NewCache at h
  split at h
  · cases h
  · cases h
    refine ⟨⟨?_, by simp; omega⟩, rfl⟩
    exact
    { rep := Rep.init (K := K) (V := V) ⟨_, 0, 1⟩ Nat.one_pos
      size_pos := by simp; omega
      keys_nodup := List.nodup_nil
      vals_perm := List.Perm.refl _
      hash_ok := fun _ he => absurd he (List.not_mem_nil _)
      ttl_nodup := List.nodup_nil
      ttl_mem := fun _ hp => absurd hp (List.not_mem_nil _) }

end Preservation

section Shape
variable {K V : Type} {hasher : K → Option Nat} {c : Cache K V} {ps : List Ptr}

theorem Wf.fp_unique (h : Wf hasher c ps) {hash : Nat} {p q : Ptr}
    (hg : mapGet c.items hash = some p) (hq : q ∈ ps)
    (hk : hasher (c.list.mem q).Key = some hash) : q = p := by
  obtain ⟨hash1, _, hk1, hg1⟩ := h.get_of_mem hq
  rw [hk] at hk1
  cases hk1
  rw [hg] at hg1
  exact (Option.some.inj hg1).symm

theorem Wf.fp_absent (h : Wf hasher c ps) {hash : Nat}
    (hg : mapGet c.items hash = none) {q : Ptr} (hq : q ∈ ps) :
    hasher (c.list.mem q).Key ≠ some hash := by
  intro hk
  obtain ⟨hash1, _, hk1, hg1⟩ := h.get_of_mem hq
  rw [hk] at hk1
  cases hk1
  rw [hg] at hg1
  cases hg1

theorem StepShape.same {c1 : Cache K V} (hk : ∀ q, (c1.list.mem q).Key = (c.list.mem q).Key) :
    StepShape hasher c c1 ps ps none :=
  Or.inl ⟨rfl, List.Sublist.refl _, fun q _ => hk q⟩

/-- The eviction step after an insertion at the front. -/
theorem Inv.evict_shape {e : Ptr} (h : Wf hasher c (e :: ps))
    (hle : ((e :: ps).length : Int) ≤ c.size + 1) :
    ∃ c2 rest1, c.evictIfOver hasher = some c2 ∧ Inv hasher c2 (e :: rest1) ∧
      rest1.Sublist ps ∧ c2.size = c.size ∧
      ∀ q, (c2.list.mem q).Key = (c.list.mem q).Key := by
  by_cases hlt : c.size < ((e :: ps).length : Int)
  · obtain ⟨last, l1, hash, hl, _, _, _, _, hd, _, hev, hwf⟩ := evictIfOver_over h hlt
    have hne : ps ≠ [] := by
      rintro rfl
      have := h.size_pos
      simp at hlt; omega
    have hdl : (e :: ps).dropLast = e :: ps.dropLast := List.dropLast_cons_of_ne_nil hne
    rw [hdl] at hwf
    refine ⟨_, ps.dropLast, hev, ⟨hwf, ?_⟩, List.dropLast_sublist _, rfl, fun q => (hd q).1⟩
    have hpos : 0 < ps.length := List.length_pos.2 hne
    have h3 : (((e :: ps.dropLast).length : Nat) : Int) ≤ c.size := by
      simp only [List.length_cons, List.length_dropLast] at hle ⊢
      omega
    exact h3
  · have hle2 : (((e :: ps).length : Nat) : Int) ≤ c.size := by omega
    exact ⟨c, ps, evictIfOver_within h hle2, ⟨h, hle2⟩, List.Sublist.refl _, rfl, fun _ => rfl⟩

theorem Inv.callOnEvict_shape (h : Inv hasher c ps) {a b : Arg K} {c1 : Cache K V}
    (hc : c.callOnEvict a b = some c1) :
    Inv hasher c1 ps ∧ c1.size = c.size ∧ StepShape hasher c c1 ps ps none := by
  unfold Cache.callOnEvict at hc
  split at hc
  · cases hc
    exact ⟨⟨h.wf.set_calls _, h.le_size⟩, rfl, StepShape.same (fun _ => rfl)⟩
  · cases hc

/-- A step keeps the structures in agreement and within the capacity, and changes
the list by the touch it makes. -/
theorem Inv.step_shape [Inhabited V] (h : Inv hasher c ps) {op : Op K V} {now : Int}
    {c1 : Cache K V} (hs : step hasher c op now = some c1) :
    ∃ ps1, Inv hasher c1 ps1 ∧ c1.size = c.size ∧
      StepShape hasher c c1 ps ps1 (touched hasher c op now) := by
  have hit : ∀ {hash : Nat} {p : Ptr} {c2 : Cache K V}, mapGet c.items hash = some p →
      Wf hasher c2 (p :: ps.erase p) → c2.size = c.size →
      (∀ q, (c2.list.mem q).Key = (c.list.mem q).Key) →
      ∃ ps1, Inv hasher c2 ps1 ∧ c2.size = c.size ∧ StepShape hasher c c2 ps ps1 (some hash) := by
    intro hash p c2 hg hwf hsz hkeys
    have hp := (h.wf.mem_of_get hg).2.1
    refine ⟨_, ⟨hwf, ?_⟩, hsz, Or.inr ⟨p, hash, ps.erase p, rfl, rfl, List.erase_sublist _ _,
      ?_, ?_⟩⟩
    · have h2 := (List.perm_cons_erase hp).length_eq
      rw [← h2, hsz]; exact h.le_size
    · rw [hkeys]; exact (h.wf.mem_of_get hg).2.2
    · intro q hq
      refine ⟨hkeys q, fun hk => ?_⟩
      have hq1 := (List.Nodup.mem_erase_iff h.wf.rep.nodup).1 hq
      exact hq1.1 (h.wf.fp_unique hg hq1.2 hk)
  have miss : ∀ {hash : Nat} {c2 : Cache K V}, mapGet c.items hash = none →
      Wf hasher c2 (c.list.fresh :: ps) → c2.size = c.size →
      hasher (c2.list.mem c.list.fresh).Key = some hash →
      (∀ q, q ≠ c.list.fresh → (c2.list.mem q).Key = (c.list.mem q).Key) →
      ∀ {c3 : Cache K V}, c2.evictIfOver hasher = some c3 →
      ∃ ps1, Inv hasher c3 ps1 ∧ c3.size = c.size ∧ StepShape hasher c c3 ps ps1 (some hash) := by
    intro hash c2 hg hwf hsz hke hkeys c3 hev
    obtain ⟨c4, rest1, hev4, hinv4, hsub, hsz4, hk4⟩ := Inv.evict_shape hwf (by
      have := h.le_size
      simp only [List.length_cons, Nat.cast_add, Nat.cast_one, hsz]; omega)
    rw [hev4] at hev; cases hev
    have hfresh : ∀ q, q ∈ ps → q ≠ c.list.fresh := fun q hq e =>
      lt_irrefl _ (e ▸ h.wf.rep.lt q hq)
    refine ⟨_, hinv4, hsz4.trans hsz, Or.inr ⟨c.list.fresh, hash, rest1, rfl, rfl, hsub, ?_, ?_⟩⟩
    · rw [hk4]; exact hke
    · intro q hq
      have hq1 := hsub.subset hq
      exact ⟨(hk4 q).trans (hkeys q (hfresh q hq1)), h.wf.fp_absent hg hq1⟩
  have rem : ∀ {p : Ptr} {c2 : Cache K V}, Wf hasher c2 (ps.erase p) → c2.size = c.size →
      (∀ q, (c2.list.mem q).Key = (c.list.mem q).Key) →
      ∃ ps1, Inv hasher c2 ps1 ∧ c2.size = c.size ∧ StepShape hasher c c2 ps ps1 none := by
    intro p c2 hwf hsz hkeys
    refine ⟨_, ⟨hwf, ?_⟩, hsz, Or.inl ⟨rfl, List.erase_sublist _ _, fun q _ => hkeys q⟩⟩
    have := h.le_size
    have h2 := (List.erase_sublist p ps).length_le
    rw [hsz]; omega
  cases op with
  | Add key value =>
    simp only [step] at hs
    cases hk : hasher key with
    | none =>
      simp only [Cache.Add, hk] at hs
      simp only [touched, hk]
      exact ⟨ps, h.callOnEvict_shape hs⟩
    | some hash =>
      simp only [touched, hk]
      cases hg : mapGet c.items hash with
      | some p =>
        obtain ⟨l1, _, _, _, hd, hadd, hwf⟩ := Add_hit_spec h.wf value now hk hg
        rw [hadd] at hs; cases hs
        exact hit hg hwf rfl (fun q => by simp [(hd q).1])
      | none =>
        obtain ⟨l1, _, _, hkey, _, _, hdata, hpn, hwf⟩ :=
          pushNew_spec h.wf value (now + noEvictionTTL) hk hg
        simp only [Cache.Add, hk, hg, hpn, Option.bind_eq_bind, Option.some_bind] at hs
        exact miss hg hwf rfl (by rw [hkey]; exact hk) (fun q hq => (hdata q hq).1) hs
  | AddWithTTL key value ttl =>
    simp only [step] at hs
    by_cases httl : ttl = 0
    · simp only [Cache.AddWithTTL, httl, if_true] at hs
      simp only [touched, httl, if_true]
      cases hs
      exact ⟨ps, h, rfl, StepShape.same (fun _ => rfl)⟩
    · simp only [touched, httl, if_false]
      cases hk : hasher key with
      | none =>
        simp only [Cache.AddWithTTL, httl, if_false, hk] at hs
        exact ⟨ps, h.callOnEvict_shape hs⟩
      | some hash =>
        cases hg : mapGet c.items hash with
        | some p =>
          obtain ⟨l1, _, _, _, hd, hadd, hwf⟩ := AddWithTTL_hit_spec h.wf value now httl hk hg
          rw [hadd] at hs; cases hs
          exact hit hg hwf rfl (fun q => by simp [(hd q).1])
        | none =>
          obtain ⟨l1, hrep, _, hkey, _, _, hdata, hpn, hwf⟩ :=
            pushNew_spec h.wf value (now + ttl) hk hg
          obtain ⟨low, _, hins⟩ := insertSorted_spec
            ({ c with list := l1, items := mapSet c.items hash c.list.fresh } : Cache K V)
            c.list.fresh
          have hnot : c.list.fresh ∉ c.entriesWithTTL := fun hh =>
            lt_irrefl _ (h.wf.rep.lt _ (h.wf.ttl_mem _ hh))
          have hwf2 := hwf.ttl_insert low (List.mem_cons_self _ _) hnot
          simp only [Cache.AddWithTTL, httl, if_false, hk, hg, hpn, Option.bind_eq_bind,
            Option.some_bind, hins] at hs
          exact miss hg hwf2 rfl (by rw [← hk]; exact congrArg hasher hkey)
            (fun q hq => (hdata q hq).1) hs
  | Get key =>
    simp only [step] at hs
    cases hk : hasher key with
    | none =>
      simp only [Cache.Get, hk, Option.map_map] at hs
      cases hc : c.callOnEvict (Arg.key key) Arg.err with
      | none => rw [hc] at hs; cases hs
      | some c2 =>
        rw [hc] at hs; cases hs
        have : touched hasher c (Op.Get key) now = none := by
          simp [touched, Cache.Get, hk, hc]
        rw [this]
        exact ⟨ps, h.callOnEvict_shape hc⟩
    | some hash =>
      cases hg : mapGet c.items hash with
      | some p =>
        by_cases hexp : now > (c.list.mem p).ExpiresAt
        · obtain ⟨l1, _, hd, _, hget, hwf⟩ := Get_expired_spec h.wf hk hg hexp
          have : touched hasher c (Op.Get key) now = none := by
            simp [touched, hget]
          rw [this]
          rw [hget] at hs; cases hs
          exact rem hwf rfl (fun q => (hd q).1)
        · obtain ⟨l1, _, _, _, hd, hget, hwf⟩ := Get_live_spec h.wf hk hg hexp
          have : touched hasher c (Op.Get key) now = some hash := by
            simp [touched, hget, hk]
          rw [this]
          rw [hget] at hs; cases hs
          exact hit hg hwf rfl (fun q => (hd q).1)
      | none =>
        have hget : c.Get hasher key now = some (c, default, false) := by
          simp [Cache.Get, hk, hg]
        have : touched hasher c (Op.Get key) now = none := by
          simp [touched, hget]
        rw [this]
        rw [hget] at hs
        cases hs; exact ⟨ps, h, rfl, StepShape.same (fun _ => rfl)⟩
  | Peek key =>
    simp only [step] at hs
    simp only [touched]
    cases hk : hasher key with
    | none =>
      simp only [Cache.Peek, hk, Option.map_map] at hs
      cases hc : c.callOnEvict (Arg.key key) Arg.err with
      | none => rw [hc] at hs; cases hs
      | some c2 =>
        rw [hc] at hs; cases hs
        exact ⟨ps, h.callOnEvict_shape hc⟩
    | some hash =>
      cases hg : mapGet c.items hash with
      | some p =>
        simp only [Cache.Peek, hk, hg, Option.map_some'] at hs
        cases hs; exact ⟨ps, h, rfl, StepShape.same (fun _ => rfl)⟩
      | none =>
        simp only [Cache.Peek, hk, hg, Option.map_some'] at hs
        cases hs; exact ⟨ps, h, rfl, StepShape.same (fun _ => rfl)⟩
  | Contains key =>
    simp only [step] at hs
    simp only [touched]
    cases hk : hasher key with
    | none =>
      simp only [Cache.Contains, hk, Option.map_map] at hs
      cases hc : c.callOnEvict (Arg.key key) Arg.err with
      | none => rw [hc] at hs; cases hs
      | some c2 =>
        rw [hc] at hs; cases hs
        exact ⟨ps, h.callOnEvict_shape hc⟩
    | some hash =>
      simp only [Cache.Contains, hk, Option.map_some'] at hs
      cases hs; exact ⟨ps, h, rfl, StepShape.same (fun _ => rfl)⟩
  | Remove key =>
    simp only [step] at hs
    simp only [touched]
    cases hk : hasher key with
    | none =>
      simp only [Cache.Remove, hk] at hs
      exact ⟨ps, h.callOnEvict_shape hs⟩
    | some hash =>
      cases hg : mapGet c.items hash with
      | some p =>
        obtain ⟨l1, _, hd, _, hrm, hwf⟩ := Remove_hit_spec h.wf hk hg
        rw [hrm] at hs; cases hs
        exact rem hwf rfl (fun q => (hd q).1)
      | none =>
        simp only [Cache.Remove, hk, hg] at hs
        cases hs; exact ⟨ps, h, rfl, StepShape.same (fun _ => rfl)⟩
  | Clear =>
    simp only [step, Clear_spec] at hs
    simp only [touched]
    cases hs
    exact ⟨[], ⟨h.wf.clear _, by simpa using le_of_lt h.wf.size_pos⟩, rfl,
      Or.inl ⟨rfl, List.nil_sublist _, fun q hq => absurd hq (List.not_mem_nil _)⟩⟩
  | deleteExpired =>
    simp only [step] at hs
    simp only [touched]
    obtain ⟨c2, ps2, hde, hwf, hsub, hsz, hkeys⟩ := deleteExpired_spec h.wf now
    rw [hde] at hs; cases hs
    refine ⟨ps2, ⟨hwf, ?_⟩, hsz, Or.inl ⟨rfl, hsub, fun q _ => (hkeys q).1⟩⟩
    have := h.le_size
    have h2 := hsub.length_le
    rw [hsz]; omega

theorem Inv.preserved [Inhabited V] (h : Inv hasher c ps) {op : Op K V} {now : Int}
    {c1 : Cache K V} (hs : step hasher c op now = some c1) :
    ∃ ps1, Inv hasher c1 ps1 ∧ c1.size = c.size := by
  obtain ⟨ps1, h1, h2, _⟩ := h.step_shape hs
  exact ⟨ps1, h1, h2⟩

theorem Reachable.inv [Inhabited K] [Inhabited V] {c : Cache K V} (h : Reachable hasher c) :
    ∃ ps, Inv hasher c ps := by
  induction h with
  | init size onEvict c hc => exact ⟨[], (Inv.newCache hasher hc).1⟩
  | step c op now c1 _ hs ih =>
    obtain ⟨ps, hinv⟩ := ih
    obtain ⟨ps1, h1, _⟩ := hinv.preserved hs
    exact ⟨ps1, h1⟩

end Shape

theorem Inv.len_le {K V : Type} {hasher : K → Option Nat} {c : Cache K V} {ps : List Ptr}
    (h : Inv hasher c ps) : c.Len ≤ c.Cap := by
  have := h.wf.items_length
  have h2 := h.le_size
  simp only [Cache.Len, Cache.Cap, this]
  exact h2

section Runs
variable {K V : Type} [Inhabited V] {hasher : K → Option Nat}

theorem Inv.run : ∀ {ops : List (Op K V × Int)} {c c1 : Cache K V} {ps : List Ptr},
    Inv hasher c ps → run hasher c ops = some c1 → ∃ ps1, Inv hasher c1 ps1 ∧ c1.size = c.size
  | [], c, c1, ps, h, hr => by
    simp only [LRU.run] at hr
    cases hr
    exact ⟨ps, h, rfl⟩
  | (op, now) :: rest, c, c1, ps, h, hr => by
    simp only [LRU.run] at hr
    cases hs : step hasher c op now with
    | none => rw [hs] at hr; cases hr
    | some c2 =>
      rw [hs] at hr
      obtain ⟨ps2, h2, hsz2⟩ := h.preserved hs
      obtain ⟨ps1, h1, hsz1⟩ := Inv.run h2 hr
      exact ⟨ps1, h1, hsz1.trans hsz2⟩

theorem Reachable.of_run [Inhabited K] (size : Int) (onEvict : Bool) (c0 : Cache K V)
    (hnew : Cache.NewCache size onEvict = some c0) :
    ∀ (ops : List (Op K V × Int)) {c : Cache K V}, run hasher c0 ops = some c →
      Reachable hasher c := by
  have key : ∀ (ops : List (Op K V × Int)) (c1 c : Cache K V), Reachable hasher c1 →
      run hasher c1 ops = some c → Reachable hasher c := by
    intro ops
    induction ops with
    | nil =>
      intro c1 c h1 hr
      simp only [LRU.run] at hr
      cases hr; exact h1
    | cons x rest ih =>
      intro c1 c h1 hr
      obtain ⟨op, now⟩ := x
      simp only [LRU.run] at hr
      cases hs : LRU.step hasher c1 op now with
      | none => rw [hs] at hr; cases hr
      | some c2 =>
        rw [hs] at hr
        exact ih c2 c (Reachable.step c1 op now c2 h1 hs) hr
  intro ops c hr
  exact key ops c0 c (Reachable.init size onEvict c0 hnew) hr

end Runs

section C2proof
variable {K V : Type} {hasher : K → Option Nat} {c : Cache K V} {ps : List Ptr}

theorem Wf.order_eq (h : Wf hasher c ps) : c.list.toList = ps := h.rep.walk_toList

/-- The eviction after an insertion into a full cache. -/
theorem overflow_spec (h : Inv hasher c ps) (hfull : c.Len = c.Cap) {c1 : Cache K V}
    {key : K} {value : V} {t : Int} {hash : Nat}
    (hwf1 : Wf hasher c1 (c.list.fresh :: ps))
    (hitems : c1.items = mapSet c.items hash c.list.fresh)
    (hsize : c1.size = c.size)
    (hkey : (c1.list.mem c.list.fresh).Key = key)
    (hval : (c1.list.mem c.list.fresh).Value = value)
    (hexp : (c1.list.mem c.list.fresh).ExpiresAt = t)
    (hdata : ∀ q, q ≠ c.list.fresh → SameData c.list.mem c1.list.mem q) :
    ∃ last lastHash c2, c.list.Last = some last ∧
      c.list.toList = c.list.toList.dropLast ++ [last] ∧
      hasher (c.list.mem last).Key = some lastHash ∧ mapGet c.items lastHash = some last ∧
      c1.evictIfOver hasher = some c2 ∧ Evicts c c2 last lastHash hash key value t ∧
      c2.entriesWithTTL = c1.entriesWithTTL.erase last := by
  have hlen := h.wf.items_length
  have hps : (ps.length : Int) = c.size := by
    have := hfull; simp only [Cache.Len, Cache.Cap, hlen] at this; exact this
  have hne : ps ≠ [] := by
    rintro rfl
    have := h.wf.size_pos
    simp at hps; omega
  have hlt : c1.size < ((c.list.fresh :: ps).length : Int) := by
    simp only [List.length_cons, Nat.cast_add, Nat.cast_one, hsize]; omega
  obtain ⟨last, l2, lastHash, hl, _, hk, hg2, hf, hd, hrep, hev, hwf2⟩ := evictIfOver_over hwf1 hlt
  have hl' : ps.getLast? = some last := by
    cases ps with
    | nil => exact absurd rfl hne
    | cons x xs => simpa [List.getLast?_cons_cons] using hl
  have hdl : (c.list.fresh :: ps).dropLast = c.list.fresh :: ps.dropLast :=
    List.dropLast_cons_of_ne_nil hne
  rw [hdl] at hrep hwf2
  have hlast_mem : last ∈ ps := List.mem_of_getLast?_eq_some hl'
  have hlf : last ≠ c.list.fresh := fun e => lt_irrefl _ (e ▸ h.wf.rep.lt _ hlast_mem)
  have hgl : ps.getLast hne = last := by
    rw [List.getLast?_eq_getLast _ hne] at hl'; exact Option.some.inj hl'
  have hsplit : ps.dropLast ++ [last] = ps := by
    rw [← hgl]; exact List.dropLast_append_getLast hne
  have hnotin : last ∉ ps.dropLast := by
    have hnd := h.wf.rep.nodup
    rw [← hsplit] at hnd
    exact fun hh => (List.nodup_append.1 hnd).2.2 hh (List.mem_singleton_self _)
  have hk0 : hasher (c.list.mem last).Key = some lastHash := by
    rw [← (hdata last hlf).1]; exact hk
  have hg3 : lastHash ≠ hash ∧ mapGet c.items lastHash = some last := by
    rw [hitems, mapGet_mapSet] at hg2
    by_cases e : lastHash = hash
    · rw [if_pos e] at hg2
      exact absurd (Option.some.inj hg2).symm hlf
    · rw [if_neg e] at hg2
      exact ⟨e, hg2⟩
  have hhl : hash ≠ lastHash := fun e => hg3.1 e.symm
  refine ⟨last, lastHash, _, ?_, ?_, hk0, hg3.2, hev, ?_, rfl⟩
  · rw [h.wf.rep.last, hl']
  · rw [h.wf.order_eq, hsplit]
  · exact
    { order := by rw [hwf2.order_eq, h.wf.order_eq]
      gone_list := by
        rw [hwf2.order_eq]
        simp only [List.mem_cons, not_or]
        exact ⟨hlf, hnotin⟩
      gone_items := by
        show mapGet (mapDelete c1.items lastHash) lastHash = none
        rw [mapGet_mapDelete, if_pos rfl]
      gone_ttl := List.Nodup.not_mem_erase hwf1.ttl_nodup
      stored := by
        show mapGet (mapDelete c1.items lastHash) hash = some c.list.fresh
        rw [mapGet_mapDelete, if_neg hhl, hitems, mapGet_mapSet, if_pos rfl]
      stored_key := by
        show (l2.mem c.list.fresh).Key = key
        rw [(hd _).1, hkey]
      stored_value := by
        show (l2.mem c.list.fresh).Value = value
        rw [(hd _).2.1, hval]
      stored_expiry := by
        show (l2.mem c.list.fresh).ExpiresAt = t
        rw [(hd _).2.2, hexp]
      others_items := fun x hx1 hx2 => by
        show mapGet (mapDelete c1.items lastHash) x = mapGet c.items x
        rw [mapGet_mapDelete, if_neg hx2, hitems, mapGet_mapSet, if_neg hx1]
      others_data := fun q hq => by
        have h1 := hdata q hq
        have h2 := hd q
        exact ⟨h2.1.trans h1.1, h2.2.1.trans h1.2.1, h2.2.2.trans h1.2.2⟩
      len := by
        have := hwf2.items_length
        simp only [Cache.Len, Cache.Cap, this, hsize, List.length_cons, List.length_dropLast]
        have hpos : 0 < ps.length := List.length_pos.2 hne
        rw [← hps]
        omega
      cap := by simp only [Cache.Cap, hsize] }

/-- When `Add` meets a new fingerprint in a full cache. -/
theorem Add_overflow (h : Inv hasher c ps) (hfull : c.Len = c.Cap) {key : K} (value : V)
    (now : Int) {hash : Nat} (hk : hasher key = some hash) (hg : mapGet c.items hash = none) :
    ∃ last lastHash c2, c.list.Last = some last ∧
      c.list.toList = c.list.toList.dropLast ++ [last] ∧
      hasher (c.list.mem last).Key = some lastHash ∧ mapGet c.items lastHash = some last ∧
      c.Add hasher key value now = some c2 ∧
      Evicts c c2 last lastHash hash key value (now + noEvictionTTL) ∧
      c2.entriesWithTTL = c.entriesWithTTL.erase last := by
  obtain ⟨l1, _, _, hkey, hval, hexp, hdata, hpn, hwf⟩ :=
    pushNew_spec h.wf value (now + noEvictionTTL) hk hg
  obtain ⟨last, lastHash, c2, h1, h2, h3, h4, hev, h5, h6⟩ :=
    overflow_spec h hfull hwf rfl rfl hkey hval hexp hdata
  refine ⟨last, lastHash, c2, h1, h2, h3, h4, ?_, h5, h6⟩
  simp only [Cache.Add, hk, hg, hpn, Option.bind_eq_bind, Option.some_bind]
  exact hev

/-- When `AddWithTTL` with a non-zero ttl meets a new fingerprint in a full cache. -/
theorem AddWithTTL_overflow (h : Inv hasher c ps) (hfull : c.Len = c.Cap) {key : K} (value : V)
    {ttl : Int} (httl : ttl ≠ 0) (now : Int) {hash : Nat} (hk : hasher key = some hash)
    (hg : mapGet c.items hash = none) :
    ∃ last lastHash c2 low, c.list.Last = some last ∧
      c.list.toList = c.list.toList.dropLast ++ [last] ∧
      hasher (c.list.mem last).Key = some lastHash ∧ mapGet c.items lastHash = some last ∧
      c.AddWithTTL hasher key value ttl now = some c2 ∧
      Evicts c c2 last lastHash hash key value (now + ttl) ∧
      low ≤ c.entriesWithTTL.length ∧
      c2.entriesWithTTL =
        (c.entriesWithTTL.take low ++ c.list.fresh :: c.entriesWithTTL.drop low).erase last := by
  obtain ⟨l1, _, _, hkey, hval, hexp, hdata, hpn, hwf⟩ :=
    pushNew_spec h.wf value (now + ttl) hk hg
  obtain ⟨low, hlow, hins⟩ := insertSorted_spec
    ({ c with list := l1, items := mapSet c.items hash c.list.fresh } : Cache K V) c.list.fresh
  have hnot : c.list.fresh ∉ c.entriesWithTTL := fun hh =>
    lt_irrefl _ (h.wf.rep.lt _ (h.wf.ttl_mem _ hh))
  have hwf2 := hwf.ttl_insert low (List.mem_cons_self _ _) hnot
  obtain ⟨last, lastHash, c2, h1, h2, h3, h4, hev, h5, h6⟩ :=
    overflow_spec h hfull hwf2 rfl rfl hkey hval hexp hdata
  refine ⟨last, lastHash, c2, low, h1, h2, h3, h4, ?_, h5, hlow, h6⟩
  simp only [Cache.AddWithTTL, httl, if_false, hk, hg, hpn, Option.bind_eq_bind,
    Option.some_bind, hins]
  exact hev

theorem mapGet_isSome_of_mem_keys {items : List (Nat × Ptr)} {h : Nat}
    (hm : h ∈ items.map Prod.fst) : (mapGet items h).isSome = true := by
  cases hg : mapGet items h with
  | none => exact absurd hm (mapGet_none hg)
  | some p => rfl

/-- Adding new keys with distinct fingerprints while there is room appends them to
the Fingerprint Index and puts them in front of the list, newest first. -/
theorem adds_within [Inhabited V] : ∀ (adds : List (K × V × Int)) (hs : List Nat) (c : Cache K V)
    (ps : List Ptr), Inv hasher c ps → ps = (c.items.map Prod.snd).reverse →
    adds.map (fun a => hasher a.1) = hs.map some → (c.items.map Prod.fst ++ hs).Nodup →
    ((ps.length + adds.length : Nat) : Int) ≤ c.size →
    ∃ c1 ps1, run hasher c (addOps adds) = some c1 ∧ Inv hasher c1 ps1 ∧
      ps1 = (c1.items.map Prod.snd).reverse ∧ c1.size = c.size ∧
      c1.items.map Prod.fst = c.items.map Prod.fst ++ hs
  | [], hs, c, ps, h, hps, hh, _, _ => by
    have : hs = [] := by
      cases hs with
      | nil => rfl
      | cons x xs => simp at hh
    subst this
    exact ⟨c, ps, rfl, h, hps, rfl, by simp⟩
  | a :: rest, hs, c, ps, h, hps, hh, hnd, hle => by
    cases hs with
    | nil => simp at hh
    | cons x xs =>
      simp only [List.map_cons, List.cons.injEq] at hh
      obtain ⟨hk, hrest⟩ := hh
      have hx : x ∉ c.items.map Prod.fst := by
        intro hm
        exact (List.nodup_append.1 hnd).2.2 hm (List.mem_cons_self _ _)
      have hg : mapGet c.items x = none := by
        cases hg : mapGet c.items x with
        | none => rfl
        | some p => exact absurd (List.mem_map.2 ⟨_, mapGet_mem hg, rfl⟩) hx
      obtain ⟨l1, _, _, _, _, _, _, hpn, hwf⟩ :=
        pushNew_spec h.wf a.2.1 (a.2.2 + noEvictionTTL) hk hg
      have hle1 : (((c.list.fresh :: ps).length : Nat) : Int) ≤ c.size := by
        simp only [List.length_cons] at hle ⊢
        omega
      have hitems : mapSet c.items x c.list.fresh = c.items ++ [(x, c.list.fresh)] := by
        unfold mapSet; rw [mapDelete_of_not_mem hx]
      have hstep : step hasher c (Op.Add a.1 a.2.1) a.2.2 =
          some { c with list := l1, items := mapSet c.items x c.list.fresh } := by
        simp only [step, Cache.Add, hk, hg, hpn, Option.bind_eq_bind, Option.some_bind]
        exact evictIfOver_within hwf hle1
      obtain ⟨c1, ps1, hrun, hinv1, hps1, hsz1, hk1⟩ :=
        adds_within rest xs _ (c.list.fresh :: ps) ⟨hwf, hle1⟩
          (by
            show c.list.fresh :: ps = ((mapSet c.items x c.list.fresh).map Prod.snd).reverse
            rw [hitems, hps]; simp)
          hrest
          (by
            show ((mapSet c.items x c.list.fresh).map Prod.fst ++ xs).Nodup
            rw [hitems]
            simpa using hnd)
          (by
            show (((c.list.fresh :: ps).length + rest.length : Nat) : Int) ≤ c.size
            simp only [List.length_cons] at hle ⊢
            have : ps.length + 1 + rest.length = ps.length + (rest.length + 1) := by omega
            rw [this]; exact hle)
      refine ⟨c1, ps1, ?_, hinv1, hps1, hsz1, ?_⟩
      · simp only [addOps, List.map_cons, run, hstep, Option.some_bind]
        exact hrun
      · rw [hk1]
        show (mapSet c.items x c.list.fresh).map Prod.fst ++ xs = _
        rw [hitems]; simp

/-- Inserting `size + 1` keys with distinct fingerprints into the empty cache. -/
theorem adds_overflow [Inhabited K] [Inhabited V] (hasher : K → Option Nat) (size : Int)
    (onEvict : Bool) (c0 : Cache K V)
    (hnew : Cache.NewCache size onEvict = some c0) (adds : List (K × V × Int))
    (hlen : (adds.length : Int) = size + 1) (hsome : ∀ a, a ∈ adds → hasher a.1 ≠ none)
    (hdist : (adds.map (fun a => hasher a.1)).Nodup) :
    ∃ c, run hasher c0 (addOps adds) = some c ∧ c.Len = size ∧
      (∀ a, adds.head? = some a → c.Contains hasher a.1 = some (c, false)) ∧
      ∀ a, a ∈ adds.tail → c.Contains hasher a.1 = some (c, true) := by
  obtain ⟨h0, hs0⟩ := Inv.newCache hasher hnew
  have hitems0 : c0.items = [] := by
    unfold Cache.NewCache at hnew
    split at hnew
    · cases hnew
    · cases hnew; rfl
  have hpos : 0 < size := hs0 ▸ h0.wf.size_pos
  -- the keys: a first one, then the others, the last of which overflows
  have hne : adds ≠ [] := by rintro rfl; simp at hlen; omega
  obtain ⟨ini, lst, rfl⟩ : ∃ ini lst, adds = ini ++ [lst] :=
    ⟨adds.dropLast, adds.getLast hne, (List.dropLast_append_getLast hne).symm⟩
  have hlen2 : (ini.length : Int) = size := by
    simp only [List.length_append, List.length_singleton, Nat.cast_add, Nat.cast_one] at hlen
    omega
  have hhash : ∀ (l : List (K × V × Int)), (∀ a, a ∈ l → hasher a.1 ≠ none) →
      l.map (fun a => hasher a.1) = (l.map (fun a => (hasher a.1).getD 0)).map some := by
    intro l hl
    rw [List.map_map]
    apply List.map_congr_left
    intro a ha
    cases hh : hasher a.1 with
    | none => exact absurd hh (hl a ha)
    | some x => simp [hh]
  have hsome1 : ∀ a, a ∈ ini → hasher a.1 ≠ none := fun a ha =>
    hsome a (List.mem_append_left _ ha)
  have hdist1 : (ini.map (fun a => hasher a.1)).Nodup := by
    rw [List.map_append] at hdist
    exact (List.nodup_append.1 hdist).1
  have hnd1 : (ini.map (fun a => (hasher a.1).getD 0)).Nodup := by
    rw [hhash ini hsome1] at hdist1
    exact List.Nodup.of_map _ hdist1
  obtain ⟨c1, ps1, hrun1, hinv1, hps1, hsz1, hkeys1⟩ :=
    adds_within ini (ini.map (fun a => (hasher a.1).getD 0)) c0 [] h0
      (by rw [hitems0]; rfl) (hhash ini hsome1) (by rw [hitems0]; simpa using hnd1)
      (by simp only [List.length_nil, Nat.zero_add]; rw [hs0]; omega)
  rw [hitems0, List.map_nil, List.nil_append] at hkeys1
  have hlen1 : c1.Len = c1.Cap := by
    have h1 : c1.items.length = ini.length := by
      have := congrArg List.length hkeys1
      simpa using this
    simp only [Cache.Len, Cache.Cap, h1, hsz1, hs0]
    exact hlen2
  -- the overflowing insertion
  have hlsome : hasher lst.1 ≠ none := hsome lst (by simp)
  obtain ⟨hl, hhl⟩ : ∃ hl, hasher lst.1 = some hl := by
    cases hh : hasher lst.1 with
    | none => exact absurd hh hlsome
    | some x => exact ⟨x, rfl⟩
  have hlnew : hl ∉ c1.items.map Prod.fst := by
    rw [hkeys1]
    intro hm
    rw [List.map_append] at hdist
    have hm2 : some hl ∈ ini.map (fun a => hasher a.1) := by
      rw [hhash ini hsome1]; exact List.mem_map_of_mem _ hm
    exact (List.nodup_append.1 hdist).2.2 hm2 (by simp [hhl])
  have hg : mapGet c1.items hl = none := by
    cases hg : mapGet c1.items hl with
    | none => rfl
    | some p => exact absurd (List.mem_map.2 ⟨_, mapGet_mem hg, rfl⟩) hlnew
  obtain ⟨last, lastHash, c2, hlast, _, hklast, hglast, hadd, hev, _⟩ :=
    Add_overflow hinv1 hlen1 lst.2.1 lst.2.2 hhl hg
  have hrun : run hasher c0 (addOps (ini ++ [lst])) = some c2 := by
    have happ : ∀ (l1 l2 : List (Op K V × Int)) (c : Cache K V),
        run hasher c (l1 ++ l2) = (run hasher c l1).bind (fun c1 => run hasher c1 l2) := by
      intro l1
      induction l1 with
      | nil => intro l2 c; simp [run]
      | cons x xs ih =>
        intro l2 c
        simp only [List.cons_append, run]
        cases step hasher c x.1 x.2 with
        | none => rfl
        | some c3 => simp only [Option.some_bind]; exact ih l2 c3
    simp only [addOps, List.map_append, List.map_cons, List.map_nil] at hrun1 ⊢
    rw [happ, hrun1]
    simp only [Option.some_bind, run, step, hadd]
  -- the first key is the one at the back of the list
  obtain ⟨a1, rest, rfl⟩ : ∃ a1 rest, ini = a1 :: rest := by
    cases ini with
    | nil => simp at hlen2; omega
    | cons a1 rest => exact ⟨a1, rest, rfl⟩
  obtain ⟨h1, hh1⟩ : ∃ h1, hasher a1.1 = some h1 := by
    cases hh : hasher a1.1 with
    | none => exact absurd hh (hsome1 a1 (by simp))
    | some x => exact ⟨x, rfl⟩
  obtain ⟨e, erest, hitems⟩ : ∃ e erest, c1.items = e :: erest := by
    cases hi : c1.items with
    | nil => rw [hi] at hkeys1; simp at hkeys1
    | cons e erest => exact ⟨e, erest, rfl⟩
  have he1 : e.1 = h1 := by
    rw [hitems] at hkeys1
    simp only [List.map_cons, List.cons.injEq] at hkeys1
    rw [hkeys1.1, hh1]; rfl
  have he2 : e.2 = last := by
    have : ps1.getLast? = some e.2 := by
      rw [hps1, hitems]; simp
    rw [hinv1.wf.rep.last, this] at hlast
    exact Option.some.inj hlast
  have hlh : lastHash = h1 := by
    have := hinv1.wf.hash_ok e (by rw [hitems]; simp)
    rw [he2, hklast, he1] at this
    exact Option.some.inj this
  refine ⟨c2, hrun, ?_, ?_, ?_⟩
  · rw [hev.len, hev.cap]; simp only [Cache.Cap, hsz1, hs0]
  · intro a ha
    simp only [List.cons_append, List.head?_cons, Option.some.injEq] at ha
    subst ha
    have := hev.gone_items
    rw [hlh] at this
    simp [Cache.Contains, hh1, this]
  · intro a ha
    simp only [List.cons_append, List.tail_cons, List.mem_append, List.mem_singleton] at ha
    rcases ha with ha | rfl
    · obtain ⟨x, hx⟩ : ∃ x, hasher a.1 = some x := by
        cases hh : hasher a.1 with
        | none => exact absurd hh (hsome1 a (by simp [ha]))
        | some x => exact ⟨x, rfl⟩
      have hx1 : x ≠ h1 := by
        rintro rfl
        simp only [List.map_cons, List.nodup_cons] at hdist1
        apply hdist1.1
        rw [hh1, ← hx]
        exact List.mem_map_of_mem _ ha
      have hx2 : x ≠ hl := by
        rintro rfl
        rw [List.map_append] at hdist
        have hdj := (List.nodup_append.1 hdist).2.2
        have hm1 : some x ∈ List.map (fun a => hasher a.1) (a1 :: rest) := by
          rw [← hx]
          exact List.mem_map_of_mem (fun a => hasher a.1) (List.mem_cons_of_mem _ ha)
        exact hdj hm1 (by simp [hhl])
      have hxmem : x ∈ c1.items.map Prod.fst := by
        rw [hkeys1]
        have : x = (hasher a.1).getD 0 := by rw [hx]; rfl
        rw [this]
        exact List.mem_map_of_mem (fun a => (hasher a.1).getD 0) (List.mem_cons_of_mem _ ha)
      have h3 := hev.others_items x hx2 (hlh ▸ hx1)
      have h4 := mapGet_isSome_of_mem_keys hxmem
      simp [Cache.Contains, hx, h3, h4]
    · simp [Cache.Contains, hhl, hev.stored]

end C2proof

section Order
variable {K V : Type} {hasher : K → Option Nat}

theorem sinceTouch_snoc (k : K) (log : List (Option Nat)) (t : Option Nat) :
    sinceTouch hasher k (log ++ [t]) =
      if (t.isSome && t == hasher k) = true then 0 else sinceTouch hasher k log + 1 := by
  unfold sinceTouch
  rw [List.reverse_append, List.reverse_singleton, List.singleton_append, List.findIdx_cons]
  by_cases h : (t.isSome && t == hasher k) = true
  · simp [h]
  · simp only [Bool.not_eq_true] at h
    simp [h]

theorem sinceTouch_snoc_none (k : K) (log : List (Option Nat)) :
    sinceTouch hasher k (log ++ [none]) = sinceTouch hasher k log + 1 := by
  rw [sinceTouch_snoc]; simp

theorem sinceTouch_snoc_hit (k : K) (log : List (Option Nat)) {h : Nat}
    (hk : hasher k = some h) : sinceTouch hasher k (log ++ [some h]) = 0 := by
  rw [sinceTouch_snoc]; simp [hk]

theorem sinceTouch_snoc_other (k : K) (log : List (Option Nat)) {h : Nat}
    (hk : hasher k ≠ some h) :
    sinceTouch hasher k (log ++ [some h]) = sinceTouch hasher k log + 1 := by
  rw [sinceTouch_snoc]
  have : ¬ ((some h).isSome && (some h == hasher k)) = true := by
    simp only [Option.isSome_some, Bool.true_and, beq_iff_eq]
    exact fun e => hk e.symm
  rw [if_neg this]

theorem Ordered.after_step {c c1 : Cache K V} {ps ps1 : List Ptr} {log : List (Option Nat)}
    {t : Option Nat} (h : Ordered hasher c ps log) (hs : StepShape hasher c c1 ps ps1 t) :
    Ordered hasher c1 ps1 (log ++ [t]) := by
  rcases hs with ⟨rfl, hsub, hkeys⟩ | ⟨e, x, rest1, rfl, rfl, hsub, hke, hrest⟩
  · refine List.Pairwise.imp_of_mem ?_ (List.Pairwise.sublist hsub h)
    intro p q hp hq hpq
    rw [hkeys p hp, hkeys q hq, sinceTouch_snoc_none, sinceTouch_snoc_none]
    omega
  · refine List.pairwise_cons.2 ⟨?_, ?_⟩
    · intro q hq
      rw [sinceTouch_snoc_hit _ _ hke, (hrest q hq).1, sinceTouch_snoc_other _ _ (hrest q hq).2]
      omega
    · refine List.Pairwise.imp_of_mem ?_ (List.Pairwise.sublist hsub h)
      intro p q hp hq hpq
      rw [(hrest p hp).1, (hrest q hq).1, sinceTouch_snoc_other _ _ (hrest p hp).2,
        sinceTouch_snoc_other _ _ (hrest q hq).2]
      omega

theorem Ordered.after_run [Inhabited V] : ∀ (ops : List (Op K V × Int)) {c c1 : Cache K V}
    {ps : List Ptr} (log : List (Option Nat)), Inv hasher c ps → Ordered hasher c ps log →
    run hasher c ops = some c1 →
    ∃ ps1, Inv hasher c1 ps1 ∧ Ordered hasher c1 ps1 (log ++ touchLog hasher c ops)
  | [], c, c1, ps, log, h, ho, hr => by
    simp only [LRU.run] at hr
    cases hr
    exact ⟨ps, h, by simpa [touchLog] using ho⟩
  | (op, now) :: rest, c, c1, ps, log, h, ho, hr => by
    simp only [LRU.run] at hr
    cases hs : LRU.step hasher c op now with
    | none => rw [hs] at hr; cases hr
    | some c2 =>
      rw [hs] at hr
      obtain ⟨ps2, h2, _, hshape⟩ := h.step_shape hs
      obtain ⟨ps1, h1, ho1⟩ := Ordered.after_run rest (log ++ [touched hasher c op now]) h2
        (ho.after_step hshape) hr
      refine ⟨ps1, h1, ?_⟩
      simp only [touchLog, hs]
      rw [List.append_assoc] at ho1
      exact ho1

theorem Wf.stored_iff {c : Cache K V} {ps : List Ptr} (h : Wf hasher c ps) (x : Nat) :
    (mapGet c.items x).isSome = true ↔ ∃ k, k ∈ c.keys ∧ hasher k = some x := by
  constructor
  · intro hx
    obtain ⟨p, hp⟩ := Option.isSome_iff_exists.1 hx
    obtain ⟨_, hmem, hk⟩ := h.mem_of_get hp
    refine ⟨(c.list.mem p).Key, ?_, hk⟩
    unfold Cache.keys
    rw [h.rep.walk_toList]
    exact List.mem_map_of_mem (fun p => (c.list.mem p).Key) hmem
  · rintro ⟨k, hk, hx⟩
    unfold Cache.keys at hk
    rw [h.rep.walk_toList] at hk
    obtain ⟨p, hp, rfl⟩ := List.mem_map.1 hk
    obtain ⟨hash, _, hk1, hg⟩ := h.get_of_mem hp
    rw [hx] at hk1
    cases hk1
    rw [hg]; rfl

end Order

section AddStores
variable {K V : Type} {hasher : K → Option Nat} {c : Cache K V} {ps : List Ptr}

/-- After `Add(key, value)` the fingerprint of `key` is indexed, and its entry holds
`value`. -/
theorem Add_stores [Inhabited V] (h : Inv hasher c ps) {key : K} (value : V) (now : Int)
    {hash : Nat} (hk : hasher key = some hash) :
    ∃ c1 ps1 p, c.Add hasher key value now = some c1 ∧ Inv hasher c1 ps1 ∧
      mapGet c1.items hash = some p ∧ (c1.list.mem p).Value = value ∧
      (c1.list.mem p).ExpiresAt = expiryAfterAdd c hash now := by
  cases hg : mapGet c.items hash with
  | some p =>
    obtain ⟨l1, _, _, _, hd, hadd, hwf⟩ := Add_hit_spec h.wf value now hk hg
    have hp := (h.wf.mem_of_get hg).2.1
    refine ⟨_, _, p, hadd, ⟨hwf, ?_⟩, hg, by simp, ?_⟩
    · have h2 := (List.perm_cons_erase hp).length_eq
      rw [← h2]; exact h.le_size
    · simp [expiryAfterAdd, hg, (hd p).2.2]
  | none =>
    have hexp : expiryAfterAdd c hash now = now + noEvictionTTL := by
      simp [expiryAfterAdd, hg]
    rw [hexp]
    by_cases hfull : c.Len = c.Cap
    · obtain ⟨last, lastHash, c2, _, _, _, _, hadd, hev, _⟩ :=
        Add_overflow h hfull value now hk hg
      have hstep : step hasher c (Op.Add key value) now = some c2 := hadd
      obtain ⟨ps2, hinv2, _⟩ := h.preserved hstep
      exact ⟨c2, ps2, c.list.fresh, hadd, hinv2, hev.stored, hev.stored_value, hev.stored_expiry⟩
    · obtain ⟨l1, _, _, _, hval, hexp1, _, hpn, hwf⟩ :=
        pushNew_spec h.wf value (now + noEvictionTTL) hk hg
      have hlen := h.wf.items_length
      have hle := h.le_size
      have hlt : (ps.length : Int) < c.size := by
        have : (ps.length : Int) ≠ c.size := by
          intro e; apply hfull; simp only [Cache.Len, Cache.Cap, hlen]; exact e
        omega
      have hle1 : (((c.list.fresh :: ps).length : Nat) : Int) ≤ c.size := by
        simp only [List.length_cons, Nat.cast_add, Nat.cast_one]; omega
      refine ⟨_, _, c.list.fresh, ?_, ⟨hwf, hle1⟩, ?_, hval, hexp1⟩
      · simp only [Cache.Add, hk, hg, hpn, Option.bind_eq_bind, Option.some_bind]
        exact evictIfOver_within hwf hle1
      · show mapGet (mapSet c.items hash c.list.fresh) hash = some c.list.fresh
        rw [mapGet_mapSet, if_pos rfl]

end AddStores

section Progress
variable {K V : Type} {hasher : K → Option Nat} {c : Cache K V} {ps : List Ptr}

theorem callOnEvict_some (c : Cache K V) (a b : Arg K) (h : c.onEvict = true) :
    ∃ c1, c.callOnEvict a b = some c1 := by
  simp [Cache.callOnEvict, h]

/-- In a state whose structures agree no operation and no sweep meets a nil link:
each returns a state. The one panic left is calling the nil callback when hashing
fails. -/
theorem Inv.progress [Inhabited V] (h : Inv hasher c ps) (op : Op K V) (now : Int)
    (hok : c.onEvict = true ∨ ∀ k, op.key? = some k → hasher k ≠ none) :
    ∃ c1, step hasher c op now = some c1 := by
  have hcall : ∀ key, op.key? = some key → hasher key = none →
      ∃ c1, c.callOnEvict (Arg.key key) Arg.err = some c1 := by
    intro key hkey hnone
    rcases hok with ho | ho
    · exact callOnEvict_some c _ _ ho
    · exact absurd hnone (ho key hkey)
  cases op with
  | Add key value =>
    simp only [step]
    cases hk : hasher key with
    | none =>
      obtain ⟨c1, hc⟩ := hcall key rfl hk
      exact ⟨c1, by simp [Cache.Add, hk, hc]⟩
    | some hash =>
      obtain ⟨c1, _, _, hadd, _⟩ := Add_stores h value now hk
      exact ⟨c1, hadd⟩
  | AddWithTTL key value ttl =>
    simp only [step]
    by_cases httl : ttl = 0
    · exact ⟨c, by simp [Cache.AddWithTTL, httl]⟩
    · cases hk : hasher key with
      | none =>
        obtain ⟨c1, hc⟩ := hcall key rfl hk
        exact ⟨c1, by simp [Cache.AddWithTTL, httl, hk, hc]⟩
      | some hash =>
        cases hg : mapGet c.items hash with
        | some p =>
          obtain ⟨l1, _, _, _, _, hadd, _⟩ := AddWithTTL_hit_spec h.wf value now httl hk hg
          exact ⟨_, hadd⟩
        | none =>
          obtain ⟨l1, _, _, _, _, _, _, hpn, hwf⟩ := pushNew_spec h.wf value (now + ttl) hk hg
          obtain ⟨low, _, hins⟩ := insertSorted_spec
            ({ c with list := l1, items := mapSet c.items hash c.list.fresh } : Cache K V)
            c.list.fresh
          have hnot : c.list.fresh ∉ c.entriesWithTTL := fun hh =>
            lt_irrefl _ (h.wf.rep.lt _ (h.wf.ttl_mem _ hh))
          have hwf2 := hwf.ttl_insert low (List.mem_cons_self _ _) hnot
          obtain ⟨c2, _, hev, _⟩ := Inv.evict hwf2 (by
            have := h.le_size
            simp only [List.length_cons, Nat.cast_add, Nat.cast_one]; omega)
          exact ⟨c2, by
            simp only [Cache.AddWithTTL, httl, if_false, hk, hg, hpn, Option.bind_eq_bind,
              Option.some_bind, hins]
            exact hev⟩
  | Get key =>
    simp only [step]
    cases hk : hasher key with
    | none =>
      obtain ⟨c1, hc⟩ := hcall key rfl hk
      exact ⟨c1, by simp [Cache.Get, hk, hc]⟩
    | some hash =>
      cases hg : mapGet c.items hash with
      | some p =>
        by_cases hexp : now > (c.list.mem p).ExpiresAt
        · obtain ⟨l1, _, _, _, hget, _⟩ := Get_expired_spec h.wf hk hg hexp
          exact ⟨_, by rw [hget]; rfl⟩
        · obtain ⟨l1, _, _, _, _, hget, _⟩ := Get_live_spec h.wf hk hg hexp
          exact ⟨_, by rw [hget]; rfl⟩
      | none => exact ⟨c, by simp [Cache.Get, hk, hg]⟩
  | Peek key =>
    simp only [step]
    cases hk : hasher key with
    | none =>
      obtain ⟨c1, hc⟩ := hcall key rfl hk
      exact ⟨c1, by simp [Cache.Peek, hk, hc]⟩
    | some hash =>
      cases hg : mapGet c.items hash with
      | some p => exact ⟨c, by simp [Cache.Peek, hk, hg]⟩
      | none => exact ⟨c, by simp [Cache.Peek, hk, hg]⟩
  | Contains key =>
    simp only [step]
    cases hk : hasher key with
    | none =>
      obtain ⟨c1, hc⟩ := hcall key rfl hk
      exact ⟨c1, by simp [Cache.Contains, hk, hc]⟩
    | some hash => exact ⟨c, by simp [Cache.Contains, hk]⟩
  | Remove key =>
    simp only [step]
    cases hk : hasher key with
    | none =>
      obtain ⟨c1, hc⟩ := hcall key rfl hk
      exact ⟨c1, by simp [Cache.Remove, hk, hc]⟩
    | some hash =>
      cases hg : mapGet c.items hash with
      | some p =>
        obtain ⟨l1, _, _, _, hrm, _⟩ := Remove_hit_spec h.wf hk hg
        exact ⟨_, hrm⟩
      | none => exact ⟨c, by simp [Cache.Remove, hk, hg]⟩
  | Clear => exact ⟨_, by simp only [step]; exact Clear_spec c⟩
  | deleteExpired =>
    obtain ⟨c1, _, hde, _⟩ := deleteExpired_spec h.wf now
    exact ⟨c1, hde⟩

end Progress

section AddRoom
variable {K V : Type} {hasher : K → Option Nat} {c : Cache K V} {ps : List Ptr}

/-- When `Add` meets a new fingerprint and the list is below the capacity, a new entry
goes to the front and nothing is evicted. -/
theorem Add_room (h : Wf hasher c ps) (hlt : (ps.length : Int) < c.size) {key : K} (value : V)
    (now : Int) {hash : Nat} (hk : hasher key = some hash) (hg : mapGet c.items hash = none) :
    ∃ c1, c.Add hasher key value now = some c1 ∧ Inv hasher c1 (c.list.fresh :: ps) ∧
      c1.list.toList = c.list.fresh :: c.list.toList ∧
      c1.items = mapSet c.items hash c.list.fresh ∧
      c1.entriesWithTTL = c.entriesWithTTL ∧
      (c1.list.mem c.list.fresh).Key = key ∧ (c1.list.mem c.list.fresh).Value = value ∧
      (c1.list.mem c.list.fresh).ExpiresAt = now + noEvictionTTL ∧
      (∀ q, q ≠ c.list.fresh → SameData c.list.mem c1.list.mem q) ∧
      c1.Len = c.Len + 1 := by
  obtain ⟨l1, _, _, hkey, hval, hexp, hdata, hpn, hwf⟩ :=
    pushNew_spec h value (now + noEvictionTTL) hk hg
  have hle1 : (((c.list.fresh :: ps).length : Nat) : Int) ≤ c.size := by
    simp only [List.length_cons, Nat.cast_add, Nat.cast_one]; omega
  refine ⟨_, ?_, ⟨hwf, hle1⟩, ?_, rfl, rfl, hkey, hval, hexp, hdata, ?_⟩
  · simp only [Cache.Add, hk, hg, hpn, Option.bind_eq_bind, Option.some_bind]
    exact evictIfOver_within hwf hle1
  · rw [hwf.order_eq, h.order_eq]
  · have h1 := hwf.items_length
    have h2 := h.items_length
    simp only [Cache.Len, h1, h2, List.length_cons, Nat.cast_add, Nat.cast_one]

/-- What `Remove` does to an indexed key, in terms of the list `ps`. -/
theorem Remove_present (h : Inv hasher c ps) {key : K} {hash : Nat} {p : Ptr}
    (hk : hasher key = some hash) (hg : mapGet c.items hash = some p) :
    ∃ c1, c.Remove hasher key = some c1 ∧ Wf hasher c1 (ps.erase p) ∧
      ((ps.erase p).length : Int) < c1.size ∧ mapGet c1.items hash = none ∧
      p ∉ c1.list.toList ∧ p ∉ c1.entriesWithTTL ∧
      c1.Len = c.Len - 1 ∧ c1.list.Len = c.list.Len - 1 ∧
      c1.list.toList = c.list.toList.erase p ∧
      c1.entriesWithTTL = c.entriesWithTTL.erase p ∧
      (∀ x, x ≠ hash → mapGet c1.items x = mapGet c.items x) ∧
      ∀ q, SameData c.list.mem c1.list.mem q := by
  obtain ⟨l1, _, hd, hrep, hrm, hwf⟩ := Remove_hit_spec h.wf hk hg
  have hp := (h.wf.mem_of_get hg).2.1
  have hpos : 0 < ps.length := List.length_pos_of_mem hp
  have hlen1 := hwf.items_length
  have hlen := h.wf.items_length
  have hle := List.length_erase_of_mem hp
  have hsz := h.le_size
  have hgone : mapGet (mapDelete c.items hash) hash = none := by
    rw [mapGet_mapDelete, if_pos rfl]
  refine ⟨_, hrm, hwf, ?_, hgone, ?_, List.Nodup.not_mem_erase h.wf.ttl_nodup, ?_, ?_, ?_, rfl,
    ?_, hd⟩
  · show (((ps.erase p).length : Nat) : Int) < c.size
    rw [hle]; omega
  · rw [hwf.order_eq]; exact List.Nodup.not_mem_erase h.wf.rep.nodup
  · simp only [Cache.Len, hlen1, hlen, hle]; omega
  · simp only [LruList.Len, hrep.len, h.wf.rep.len, hle]; omega
  · rw [hwf.order_eq, h.wf.order_eq]
  · intro x hx
    show mapGet (mapDelete c.items hash) x = mapGet c.items x
    rw [mapGet_mapDelete, if_neg hx]

end AddRoom

section SearchSorted

/-- On a slice sorted by descending expiry the binary search of `insertSorted`
returns the boundary between the elements that expire strictly after `t` and the
others. -/
theorem searchLoop_sorted (exp : Ptr → Int) (arr : List Ptr) (t : Int)
    (hs : arr.Pairwise (fun a b => exp a ≥ exp b)) :
    ∀ (fuel low high : Nat), high ≤ arr.length → high - low ≤ fuel → low ≤ high →
      (∀ i (hi : i < arr.length), i < low → exp arr[i] > t) →
      (∀ i (hi : i < arr.length), high ≤ i → ¬ exp arr[i] > t) →
      ∃ r, searchLoop exp arr t fuel low high = some r ∧ low ≤ r ∧ r ≤ high ∧
        (∀ i (hi : i < arr.length), i < r → exp arr[i] > t) ∧
        (∀ i (hi : i < arr.length), r ≤ i → ¬ exp arr[i] > t)
  | 0, low, high, _, hf, hlh, hlo, hhi => by
    have hn : ¬ (low < high) := by omega
    have he : low = high := by omega
    exact ⟨low, by simp [searchLoop, hn], le_refl _, hlh, hlo, fun i hi h => hhi i hi (he ▸ h)⟩
  | fuel + 1, low, high, hh, hf, hlh, hlo, hhi => by
    by_cases hlt : low < high
    · have hmid : (low + high) / 2 < arr.length := by omega
      simp only [searchLoop, hlt, if_true, List.getElem?_eq_getElem hmid]
      by_cases hc : exp arr[(low + high) / 2] > t
      · simp only [hc, if_true]
        obtain ⟨r, hr, h1, h2, h3, h4⟩ := searchLoop_sorted exp arr t hs fuel
          ((low + high) / 2 + 1) high hh (by omega) (by omega)
          (fun i hi hlt2 => by
            rcases Nat.lt_or_ge i ((low + high) / 2) with h5 | h5
            · have := List.pairwise_iff_getElem.1 hs i ((low + high) / 2) hi hmid h5
              omega
            · have h6 : i = (low + high) / 2 := by omega
              subst h6
              exact hc)
          hhi
        exact ⟨r, hr, by omega, h2, h3, h4⟩
      · simp only [hc, if_false]
        obtain ⟨r, hr, h1, h2, h3, h4⟩ := searchLoop_sorted exp arr t hs fuel low
          ((low + high) / 2) (by omega) (by omega) (by omega) hlo
          (fun i hi hge => by
            rcases Nat.lt_or_ge ((low + high) / 2) i with h5 | h5
            · have := List.pairwise_iff_getElem.1 hs ((low + high) / 2) i hmid hi h5
              omega
            · have h6 : i = (low + high) / 2 := by omega
              subst h6
              exact hc)
        exact ⟨r, hr, h1, by omega, h3, h4⟩
    · have he : low = high := by omega
      exact ⟨low, by simp [searchLoop, hlt], le_refl _, hlh, hlo,
        fun i hi h => hhi i hi (he ▸ h)⟩

end SearchSorted

section Keeps
variable {K V : Type} {hasher : K → Option Nat} {c : Cache K V} {ps : List Ptr}

/-- The purge loop of a sweep at `now` keeps an entry whose expiry lies after `now`,
with its data and its pair of the Fingerprint Index. -/
theorem expireLoop_keeps (now : Int) {hash : Nat} {p : Ptr} :
    ∀ (fuel : Nat) (c : Cache K V) (ps : List Ptr),
    Wf hasher c ps → c.entriesWithTTL.length ≤ fuel → mapGet c.items hash = some p →
    now < (c.list.mem p).ExpiresAt →
    ∃ c1 ps1, Cache.expireLoop hasher now fuel c = some c1 ∧ Wf hasher c1 ps1 ∧
      ps1.length ≤ ps.length ∧ c1.size = c.size ∧ mapGet c1.items hash = some p ∧
      SameData c.list.mem c1.list.mem p
  | 0, c, ps, h, hf, hg, _ => by
    have : c.entriesWithTTL = [] := List.length_eq_zero.1 (Nat.le_zero.1 hf)
    exact ⟨c, ps, by simp [Cache.expireLoop, this], h, le_refl _, rfl, hg, rfl, rfl, rfl⟩
  | fuel + 1, c, ps, h, hf, hg, hnow => by
    cases hl : c.entriesWithTTL.getLast? with
    | none =>
      exact ⟨c, ps, by simp [Cache.expireLoop, hl], h, le_refl _, rfl, hg, rfl, rfl, rfl⟩
    | some last =>
      by_cases hexp : (c.list.mem last).ExpiresAt > now
      · exact ⟨c, ps, by simp [Cache.expireLoop, hl, hexp], h, le_refl _, rfl, hg, rfl, rfl, rfl⟩
      · have hp : last ∈ ps := h.ttl_mem last (List.mem_of_getLast?_eq_some hl)
        obtain ⟨l1, hash1, hrm, hk, hg1, hfr, hd, hrep, hwf⟩ := h.remove_entry hp
        rw [erase_getLast h.ttl_nodup hl] at hwf
        have hlen : (c.entriesWithTTL.dropLast).length ≤ fuel := by
          rw [List.length_dropLast]; omega
        have hne : hash ≠ hash1 := by
          rintro rfl
          rw [hg] at hg1
          cases hg1
          exact hexp hnow
        have hg2 : mapGet (mapDelete c.items hash1) hash = some p := by
          rw [mapGet_mapDelete, if_neg hne]; exact hg
        have hnow2 : now < (l1.mem p).ExpiresAt := by rw [(hd p).2.2]; exact hnow
        obtain ⟨c1, ps1, hrun, hwf1, hle, hsz, hg3, hd1⟩ :=
          expireLoop_keeps now fuel _ (ps.erase last) hwf hlen hg2 hnow2
        refine ⟨c1, ps1, ?_, hwf1, hle.trans (List.erase_sublist _ _).length_le, hsz, hg3, ?_⟩
        · simp only [Cache.expireLoop, hl, hexp, if_false, hk, Option.getD_some, hrm,
            Option.bind_eq_bind, Option.some_bind]
          exact hrun
        · have h1 := hd p
          exact ⟨hd1.1.trans h1.1, hd1.2.1.trans h1.2.1, hd1.2.2.trans h1.2.2⟩

/-- A call of `Get` on a key that can be hashed and a sweep, at a clock reading
before the expiry of the entry `p`, return and keep `p` with its data. -/
theorem Inv.step_keeps [Inhabited V] (h : Inv hasher c ps) {hash : Nat} {p : Ptr}
    (hg : mapGet c.items hash = some p) {op : Op K V} {now : Int}
    (hop : op.getOrSweep = true) (hnow : now < (c.list.mem p).ExpiresAt)
    (hok : ∀ k, op.key? = some k → hasher k ≠ none) :
    ∃ c1 ps1, step hasher c op now = some c1 ∧ Inv hasher c1 ps1 ∧
      mapGet c1.items hash = some p ∧ SameData c.list.mem c1.list.mem p := by
  cases op with
  | Get key =>
    cases hk : hasher key with
    | none => exact absurd hk (hok key rfl)
    | some hash1 =>
      cases hg1 : mapGet c.items hash1 with
      | none =>
        exact ⟨c, ps, by simp [step, Cache.Get, hk, hg1], h, hg, rfl, rfl, rfl⟩
      | some q =>
        have hq := (h.wf.mem_of_get hg1).2.1
        by_cases hexp : now > (c.list.mem q).ExpiresAt
        · obtain ⟨l1, _, hd, _, hget, hwf⟩ := Get_expired_spec h.wf hk hg1 hexp
          have hne : hash ≠ hash1 := by
            rintro rfl
            rw [hg] at hg1
            cases hg1
            omega
          refine ⟨_, _, by simp only [step, hget]; rfl, ⟨hwf, ?_⟩, ?_, hd p⟩
          · have h1 := h.le_size
            have h2 := (List.erase_sublist q ps).length_le
            show ((ps.erase q).length : Int) ≤ c.size
            omega
          · show mapGet (mapDelete c.items hash1) hash = some p
            rw [mapGet_mapDelete, if_neg hne]; exact hg
        · obtain ⟨l1, _, _, _, hd, hget, hwf⟩ := Get_live_spec h.wf hk hg1 hexp
          refine ⟨_, _, by simp only [step, hget]; rfl, ⟨hwf, ?_⟩, hg, hd p⟩
          have h1 := h.le_size
          show (((q :: ps.erase q).length : Nat) : Int) ≤ c.size
          rw [List.length_cons, List.length_erase_of_mem hq]
          have : 0 < ps.length := List.length_pos_of_mem hq
          omega
  | deleteExpired =>
    by_cases hlen : c.entriesWithTTL.length > 0
    · obtain ⟨c1, ps1, hrun, hwf1, hle, hsz, hg1, hd⟩ :=
        expireLoop_keeps now c.entriesWithTTL.length c ps h.wf (le_refl _) hg hnow
      refine ⟨c1, ps1, by simp only [step, Cache.deleteExpired, hlen, if_true]; exact hrun,
        ⟨hwf1, ?_⟩, hg1, hd⟩
      have h1 := h.le_size
      rw [hsz]; omega
    · exact ⟨c, ps, by simp [step, Cache.deleteExpired, hlen], h, hg, rfl, rfl, rfl⟩
  | Add _ _ => cases hop
  | AddWithTTL _ _ _ => cases hop
  | Peek _ => cases hop
  | Contains _ => cases hop
  | Remove _ => cases hop
  | Clear => cases hop

/-- Any sequence of calls of `Get` on keys that can be hashed and of sweeps, all at
clock readings before the expiry of the entry `p`, returns and keeps `p` with
its data. -/
theorem Inv.run_keeps [Inhabited V] {hash : Nat} {p : Ptr} :
    ∀ (ops : List (Op K V × Int)) (c : Cache K V) (ps : List Ptr), Inv hasher c ps →
    mapGet c.items hash = some p →
    (∀ x ∈ ops, x.1.getOrSweep = true ∧ x.2 < (c.list.mem p).ExpiresAt ∧
      ∀ k, x.1.key? = some k → hasher k ≠ none) →
    ∃ c1 ps1, LRU.run hasher c ops = some c1 ∧ Inv hasher c1 ps1 ∧
      mapGet c1.items hash = some p ∧ SameData c.list.mem c1.list.mem p
  | [], c, ps, h, hg, _ => ⟨c, ps, rfl, h, hg, rfl, rfl, rfl⟩
  | (op, now) :: rest, c, ps, h, hg, hall => by
    obtain ⟨hop, hnow, hok⟩ := hall (op, now) (List.mem_cons_self _ _)
    obtain ⟨c1, ps1, hs, h1, hg1, hd1⟩ := h.step_keeps hg hop hnow hok
    obtain ⟨c2, ps2, hr, h2, hg2, hd2⟩ := Inv.run_keeps rest c1 ps1 h1 hg1
      (fun x hx => by
        obtain ⟨a, b, d⟩ := hall x (List.mem_cons_of_mem _ hx)
        exact ⟨a, by rw [hd1.2.2]; exact b, d⟩)
    refine ⟨c2, ps2, by simp only [LRU.run, hs, Option.some_bind]; exact hr, h2, hg2, ?_⟩
    exact ⟨hd2.1.trans hd1.1, hd2.2.1.trans hd1.2.1, hd2.2.2.trans hd1.2.2⟩

end Keeps

section TTLRoom
variable {K V : Type} {hasher : K → Option Nat} {c : Cache K V} {ps : List Ptr}

/-- When `AddWithTTL` with a non-zero ttl meets a new fingerprint and the list is below
the capacity, a new entry goes to the front of the list and into the TTL Index and
nothing is evicted. -/
theorem AddWithTTL_room (h : Wf hasher c ps) (hlt : (ps.length : Int) < c.size) {key : K}
    (value : V) {ttl : Int} (httl : ttl ≠ 0) (now : Int) {hash : Nat}
    (hk : hasher key = some hash) (hg : mapGet c.items hash = none) :
    ∃ c1 low, c.AddWithTTL hasher key value ttl now = some c1 ∧
      Inv hasher c1 (c.list.fresh :: ps) ∧
      c1.list.toList = c.list.fresh :: c.list.toList ∧
      c1.items = mapSet c.items hash c.list.fresh ∧
      low ≤ c.entriesWithTTL.length ∧
      c1.entriesWithTTL = c.entriesWithTTL.take low ++ c.list.fresh :: c.entriesWithTTL.drop low ∧
      (c1.list.mem c.list.fresh).Key = key ∧ (c1.list.mem c.list.fresh).Value = value ∧
      (c1.list.mem c.list.fresh).ExpiresAt = now + ttl ∧
      (∀ q, q ≠ c.list.fresh → SameData c.list.mem c1.list.mem q) ∧
      c1.Len = c.Len + 1 := by
  obtain ⟨l1, _, _, hkey, hval, hexp, hdata, hpn, hwf⟩ :=
    pushNew_spec h value (now + ttl) hk hg
  obtain ⟨low, hlow, hins⟩ := insertSorted_spec
    ({ c with list := l1, items := mapSet c.items hash c.list.fresh } : Cache K V) c.list.fresh
  have hnot : c.list.fresh ∉ c.entriesWithTTL := fun hh =>
    lt_irrefl _ (h.rep.lt _ (h.ttl_mem _ hh))
  have hwf2 := hwf.ttl_insert low (List.mem_cons_self _ _) hnot
  have hle1 : (((c.list.fresh :: ps).length : Nat) : Int) ≤ c.size := by
    simp only [List.length_cons, Nat.cast_add, Nat.cast_one]; omega
  refine ⟨_, low, ?_, ⟨hwf2, hle1⟩, ?_, rfl, hlow, rfl, hkey, hval, hexp, hdata, ?_⟩
  · simp only [Cache.AddWithTTL, httl, if_false, hk, hg, hpn, Option.bind_eq_bind,
      Option.some_bind, hins]
    exact evictIfOver_within hwf2 hle1
  · rw [hwf2.order_eq, h.order_eq]
  · have h1 := hwf2.items_length
    have h2 := h.items_length
    simp only [Cache.Len, h1, h2, List.length_cons, Nat.cast_add, Nat.cast_one]

end TTLRoom

section GetBoundary
variable {K V : Type} [Inhabited K] [Inhabited V]

/-- What `Get` does on an indexed key in a reachable cache: not-found when `now` is
strictly after the expiry of the entry, the stored value when `now` is at or
before it. -/
theorem Get_boundary_spec (hasher : K → Option Nat) (c : Cache K V)
    (hreach : Reachable hasher c) (key : K) (hash : Nat) (p : Ptr) (now : Int)
    (hk : hasher key = some hash) (hg : mapGet c.items hash = some p) :
    ((c.list.mem p).ExpiresAt < now → ∃ c1, c.Get hasher key now = some (c1, default, false)) ∧
    (now ≤ (c.list.mem p).ExpiresAt →
      ∃ c1, c.Get hasher key now = some (c1, (c.list.mem p).Value, true)) := by
  obtain ⟨ps, hinv⟩ := hreach.inv
  constructor
  · intro hlt
    obtain ⟨l1, _, _, _, hget, _⟩ := Get_expired_spec hinv.wf hk hg hlt
    exact ⟨_, hget⟩
  · intro hle
    have hnot : ¬ now > (c.list.mem p).ExpiresAt := by omega
    obtain ⟨l1, _, _, _, _, hget, _⟩ := Get_live_spec hinv.wf hk hg hnot
    exact ⟨_, hget⟩

end GetBoundary

section Serial
variable {K V : Type} {hasher : K → Option Nat} {c : Cache K V} {ps : List Ptr}

theorem Op.eq_of_isSweep {op : Op K V} (h : op.isSweep = true) : op = Op.deleteExpired := by
  cases op <;> first | rfl | cases h

/-- A sweep at a clock reading before every expiry of the TTL Index purges nothing. -/
theorem deleteExpired_live (c : Cache K V) (now : Int)
    (h : ∀ p ∈ c.entriesWithTTL, now < (c.list.mem p).ExpiresAt) :
    c.deleteExpired hasher now = some c := by
  cases hl : c.entriesWithTTL.getLast? with
  | none =>
    have : c.entriesWithTTL = [] := List.getLast?_eq_none_iff.1 hl
    simp [Cache.deleteExpired, this]
  | some last =>
    have hm := List.mem_of_getLast?_eq_some hl
    have hexp : (c.list.mem last).ExpiresAt > now := h last hm
    have hpos : 0 < c.entriesWithTTL.length := List.length_pos_of_mem hm
    obtain ⟨n, hn⟩ := Nat.exists_eq_succ_of_ne_zero (Nat.pos_iff_ne_zero.1 hpos)
    simp only [Cache.deleteExpired, gt_iff_lt, hpos, if_true]
    rw [hn]
    simp [Cache.expireLoop, hl, hexp]

theorem filterMap_map_some {α β : Type} (f : α → Option β) :
    ∀ (l : List α), (∀ x ∈ l, f x ≠ none) → (l.filterMap f).map some = l.map f
  | [], _ => rfl
  | x :: rest, h => by
    cases hx : f x with
    | none => exact absurd hx (h x (List.mem_cons_self _ _))
    | some y =>
      rw [List.filterMap_cons_some hx, List.map_cons, List.map_cons, hx,
        filterMap_map_some f rest (fun z hz => h z (List.mem_cons_of_mem _ hz))]

/-- The fingerprints of the keyed operations of `ops` are those of its operations
other than sweeps. -/
theorem filterMap_fp_filter (hasher : K → Option Nat) : ∀ (ops : List (Op K V × Int)),
    ops.filterMap (fun x => x.1.key?.bind hasher) =
      (ops.filter (fun x => !x.1.isSweep)).filterMap (fun x => x.1.key?.bind hasher)
  | [] => rfl
  | (op, now) :: rest => by
    have ih := filterMap_fp_filter hasher rest
    cases hsw : op.isSweep with
    | true =>
      have := Op.eq_of_isSweep hsw
      subst this
      simp only [List.filter_cons, hsw, Bool.not_true, Bool.false_eq_true, if_false]
      exact ih
    | false =>
      simp only [List.filter_cons, hsw, Bool.not_false, if_true, List.filterMap_cons]
      rw [ih]

/-- Calls of `AddWithTTL` with a non-zero ttl on keys with new, pairwise distinct
fingerprints, run in the given order while there is room, with sweeps in between
at clock readings before every expiry: each call returns and stores its key, and
no stored entry is lost or changed. -/
theorem inserts_run [Inhabited V] : ∀ (ops : List (Op K V × Int)) (c : Cache K V)
    (ps : List Ptr), Inv hasher c ps →
    (∀ x ∈ ops, x.1.isSweep = true ∨
      ∃ key v ttl, x.1 = Op.AddWithTTL key v ttl ∧ ttl ≠ 0 ∧ hasher key ≠ none) →
    (c.items.map Prod.fst ++ ops.filterMap (fun x => x.1.key?.bind hasher)).Nodup →
    ((ps.length + (ops.filterMap (fun x => x.1.key?.bind hasher)).length : Nat) : Int) ≤
      c.size →
    (∀ x ∈ ops, x.1.isSweep = true →
      (∀ p ∈ c.entriesWithTTL, x.2 < (c.list.mem p).ExpiresAt) ∧
      ∀ y ∈ ops, ∀ key v ttl, y.1 = Op.AddWithTTL key v ttl → x.2 < y.2 + ttl) →
    ∃ c1 ps1, LRU.run hasher c ops = some c1 ∧ Inv hasher c1 ps1 ∧ c1.size = c.size ∧
      c1.items.map Prod.fst =
        c.items.map Prod.fst ++ ops.filterMap (fun x => x.1.key?.bind hasher) ∧
      (∀ hash p, mapGet c.items hash = some p →
        mapGet c1.items hash = some p ∧ SameData c.list.mem c1.list.mem p) ∧
      ∀ x ∈ ops, ∀ key v ttl hash, x.1 = Op.AddWithTTL key v ttl → hasher key = some hash →
        ∃ p, mapGet c1.items hash = some p ∧ (c1.list.mem p).Value = v ∧
          (c1.list.mem p).ExpiresAt = x.2 + ttl
  | [], c, ps, h, _, _, _, _ =>
    ⟨c, ps, rfl, h, rfl, by simp, fun _ _ hg => ⟨hg, rfl, rfl, rfl⟩,
      fun x hx => absurd hx (List.not_mem_nil _)⟩
  | (op, now) :: rest, c, ps, h, ha, hnd, hcap, hsw => by
    rcases ha (op, now) (List.mem_cons_self _ _) with hs | ⟨key, v, ttl, hop, httl, hkne⟩
    · have hop : op = Op.deleteExpired := Op.eq_of_isSweep hs
      subst hop
      have hstep : step hasher c Op.deleteExpired now = some c :=
        deleteExpired_live c now (hsw _ (List.mem_cons_self _ _) hs).1
      have hfm : ((Op.deleteExpired, now) :: rest : List (Op K V × Int)).filterMap
          (fun x => x.1.key?.bind hasher) = rest.filterMap (fun x => x.1.key?.bind hasher) := rfl
      rw [hfm] at hnd hcap
      obtain ⟨c1, ps1, hrun, hinv1, hsz, hkeys, hkeep, hall⟩ := inserts_run rest c ps h
        (fun x hx => ha x (List.mem_cons_of_mem _ hx)) hnd hcap
        (fun x hx hsx => ⟨(hsw x (List.mem_cons_of_mem _ hx) hsx).1,
          fun y hy => (hsw x (List.mem_cons_of_mem _ hx) hsx).2 y (List.mem_cons_of_mem _ hy)⟩)
      refine ⟨c1, ps1, ?_, hinv1, hsz, by rw [hfm]; exact hkeys, hkeep, ?_⟩
      · simp only [LRU.run, hstep, Option.some_bind]; exact hrun
      · intro x hx key v ttl hash hxop hk
        rcases List.mem_cons.1 hx with rfl | hx
        · cases hxop
        · exact hall x hx key v ttl hash hxop hk
    · have hop2 : op = Op.AddWithTTL key v ttl := hop
      subst hop2
      cases hk : hasher key with
      | none => exact absurd hk hkne
      | some hash =>
        have hfm : ((Op.AddWithTTL key v ttl, now) :: rest : List (Op K V × Int)).filterMap
            (fun x => x.1.key?.bind hasher) =
            hash :: rest.filterMap (fun x => x.1.key?.bind hasher) :=
          List.filterMap_cons_some (by simp [Op.key?, hk])
        rw [hfm] at hnd hcap
        have hx : hash ∉ c.items.map Prod.fst := fun hm =>
          (List.nodup_append.1 hnd).2.2 hm (List.mem_cons_self _ _)
        have hg : mapGet c.items hash = none := by
          cases hg : mapGet c.items hash with
          | none => rfl
          | some p => exact absurd (List.mem_map.2 ⟨_, mapGet_mem hg, rfl⟩) hx
        have hlt : (ps.length : Int) < c.size := by
          simp only [List.length_cons] at hcap
          omega
        obtain ⟨c2, low, hadd, hinv2, _, hitems, _, httlidx, _, hval, hexp, hdata, _⟩ :=
          AddWithTTL_room h.wf hlt v httl now hk hg
        have hstep : step hasher c (Op.AddWithTTL key v ttl) now = some c2 := hadd
        obtain ⟨_, _, hsz2⟩ := h.preserved hstep
        have hitems2 : c2.items = c.items ++ [(hash, c.list.fresh)] := by
          rw [hitems]; unfold mapSet; rw [mapDelete_of_not_mem hx]
        have hfresh : ∀ p ∈ ps, p ≠ c.list.fresh := fun p hp he => by
          have hlt2 := h.wf.rep.lt p hp
          rw [he] at hlt2
          exact lt_irrefl _ hlt2
        obtain ⟨c1, ps1, hrun, hinv1, hsz, hkeys, hkeep, hall⟩ :=
          inserts_run rest c2 (c.list.fresh :: ps) hinv2
            (fun x hx => ha x (List.mem_cons_of_mem _ hx))
            (by rw [hitems2]; simpa using hnd)
            (by
              rw [hsz2]
              simp only [List.length_cons] at hcap ⊢
              omega)
            (fun x hx hsx => by
              obtain ⟨h1, h2⟩ := hsw x (List.mem_cons_of_mem _ hx) hsx
              refine ⟨fun p hp => ?_, fun y hy => h2 y (List.mem_cons_of_mem _ hy)⟩
              rw [httlidx] at hp
              rcases List.mem_append.1 hp with hp | hp
              · have hp2 := List.mem_of_mem_take hp
                rw [(hdata p (hfresh p (h.wf.ttl_mem p hp2))).2.2]
                exact h1 p hp2
              · rcases List.mem_cons.1 hp with rfl | hp
                · rw [hexp]
                  exact h2 _ (List.mem_cons_self _ _) key v ttl rfl
                · have hp2 := List.mem_of_mem_drop hp
                  rw [(hdata p (hfresh p (h.wf.ttl_mem p hp2))).2.2]
                  exact h1 p hp2)
        refine ⟨c1, ps1, ?_, hinv1, hsz.trans hsz2, ?_, ?_, ?_⟩
        · simp only [LRU.run, hstep, Option.some_bind]; exact hrun
        · rw [hkeys, hitems2, hfm]; simp
        · intro h1 p hgp
          have hne : h1 ≠ hash := by
            rintro rfl
            rw [hg] at hgp
            cases hgp
          have hp := (h.wf.mem_of_get hgp).2.1
          have hg2 : mapGet c2.items h1 = some p := by
            rw [hitems, mapGet_mapSet, if_neg hne]; exact hgp
          obtain ⟨k1, k2⟩ := hkeep h1 p hg2
          have k3 := hdata p (hfresh p hp)
          exact ⟨k1, k2.1.trans k3.1, k2.2.1.trans k3.2.1, k2.2.2.trans k3.2.2⟩
        · intro x hx key1 v1 ttl1 hash1 hxop hk1
          rcases List.mem_cons.1 hx with rfl | hx
          · cases hxop
            rw [hk] at hk1
            cases hk1
            have hst : mapGet c2.items hash = some c.list.fresh := by
              rw [hitems, mapGet_mapSet, if_pos rfl]
            obtain ⟨k1, k2⟩ := hkeep hash _ hst
            exact ⟨c.list.fresh, k1, k2.2.1.trans hval, k2.2.2.trans hexp⟩
          · exact hall x hx key1 v1 ttl1 hash1 hxop hk1

end Serial

section Claims
variable {K V : Type} [Inhabited K] [Inhabited V]

/-- C1. Capacity bound: in every state `c` that a sequence `ops` of operations and
sweeps, at any clock readings, reaches from a successful `NewCache(size, _)`,
`Len() <= Cap() = size`. Inside `Add` and `AddWithTTL` the state `c1` between the
insertion of a new key (`pushNew`, and for `AddWithTTL` also `insertSorted`) and the
eviction holds exactly one entry more, so at most `size + 1` in the map and in the
list, and the eviction step returns a state within the bound again. -/
theorem C1_capacity_bound (hasher : K → Option Nat) (size : Int) (onEvict : Bool)
    (c0 c : Cache K V) (ops : List (Op K V × Int))
    (hnew : Cache.NewCache size onEvict = some c0) (hrun : run hasher c0 ops = some c) :
    c.Len ≤ c.Cap ∧ c.Cap = size ∧
    ∀ (key : K) (value : V) (t : Int) (hash : Nat) (c1 : Cache K V) (e : Ptr),
      hasher key = some hash → mapGet c.items hash = none →
      c.pushNew hash key value t = some (c1, e) →
        c1.Len = c.Len + 1 ∧ c1.Len ≤ size + 1 ∧ c1.list.Len ≤ size + 1 ∧
        (∃ c2, c1.evictIfOver hasher = some c2 ∧ c2.Len ≤ size) ∧
        ∃ c2, c1.insertSorted e = some c2 ∧ c2.Len = c.Len + 1 ∧ c2.list.Len ≤ size + 1 ∧
          ∃ c3, c2.evictIfOver hasher = some c3 ∧ c3.Len ≤ size := by
  obtain ⟨h0, hs0⟩ := Inv.newCache hasher hnew
  obtain ⟨ps, hinv, hsz⟩ := h0.run hrun
  have hcap : c.Cap = size := by simp only [Cache.Cap, hsz, hs0]
  refine ⟨hinv.len_le, hcap, ?_⟩
  intro key value t hash c1 e hk hg hpn
  obtain ⟨l1, hrep, _, _, _, _, _, hpn2, hwf⟩ := pushNew_spec hinv.wf value t hk hg
  rw [hpn2] at hpn
  cases hpn
  have hlen1 := hwf.items_length
  have hlen := hinv.wf.items_length
  have hle := hinv.le_size
  have hsize : c.size = size := hcap
  have hb : ((c.list.fresh :: ps).length : Int) ≤ c.size + 1 := by
    simp only [List.length_cons, Nat.cast_add, Nat.cast_one]; omega
  obtain ⟨low, _, hins⟩ := insertSorted_spec
    ({ c with list := l1, items := mapSet c.items hash c.list.fresh } : Cache K V) c.list.fresh
  have hnot : c.list.fresh ∉ c.entriesWithTTL := fun hh =>
    lt_irrefl _ (hinv.wf.rep.lt _ (hinv.wf.ttl_mem _ hh))
  have hwf2 := hwf.ttl_insert low (List.mem_cons_self _ _) hnot
  refine ⟨?_, ?_, ?_, ?_, _, hins, ?_, ?_, ?_⟩
  · simp only [Cache.Len, hlen1, hlen, List.length_cons, Nat.cast_add, Nat.cast_one]
  · simp only [Cache.Len, hlen1]; omega
  · simp only [LruList.Len, hrep.len]; omega
  · obtain ⟨c2, ps2, hev, hinv2, hsz2⟩ := Inv.evict hwf hb
    refine ⟨c2, hev, ?_⟩
    have := hinv2.len_le
    simp only [Cache.Cap, hsz2] at this
    exact hsize ▸ this
  · simp only [Cache.Len, hlen1, hlen, List.length_cons, Nat.cast_add, Nat.cast_one]
  · simp only [LruList.Len, hrep.len]; omega
  · obtain ⟨c3, ps3, hev, hinv3, hsz3⟩ := Inv.evict hwf2 hb
    refine ⟨c3, hev, ?_⟩
    have := hinv3.len_le
    simp only [Cache.Cap, hsz3] at this
    exact hsize ▸ this

end Claims

theorem C1_capacity_bound_witness :
    Cache.NewCache 2 false = some cache2 ∧
    (run natHasher cache2 [(Op.Add 1 1, 0), (Op.Add 2 2, 1), (Op.Add 3 3, 2)]).isSome = true ∧
    ((run natHasher cache2 [(Op.Add 1 1, 0), (Op.Add 2 2, 1), (Op.Add 3 3, 2)]).getD cache2).Len
      ≤ 2 :=
  ⟨rfl, by decide,
    (C1_capacity_bound natHasher 2 false cache2
      ((run natHasher cache2 [(Op.Add 1 1, 0), (Op.Add 2 2, 1), (Op.Add 3 3, 2)]).getD cache2)
      [(Op.Add 1 1, 0), (Op.Add 2 2, 1), (Op.Add 3 3, 2)] rfl rfl).1⟩

section ClaimC2
variable {K V : Type} [Inhabited K] [Inhabited V]

/-- C2. Overflow eviction. For a reachable cache `c` that holds exactly `Cap()`
entries and a key whose fingerprint `hash` is not stored, there is an entry `last`
at the back of the Recency List, indexed under the fingerprint `lastHash` of its
key, such that `Add`, and `AddWithTTL` with any non-zero ttl, return a cache `c2`
in which exactly `last` is gone (whatever its expiry) from the list, the
Fingerprint Index and the TTL Index, every other entry keeps its place and data,
the new key is stored at the front, and `Len() == Cap()`. In particular `size + 1`
keys with distinct fingerprints, inserted by `Add` into the empty cache of capacity
`size`, leave exactly `size` entries: all but the first-inserted key. -/
theorem C2_overflow_eviction (hasher : K → Option Nat) (c : Cache K V)
    (hreach : Reachable hasher c) (hfull : c.Len = c.Cap) (key : K) (value : V) (now : Int)
    (hash : Nat) (hk : hasher key = some hash) (hnew : mapGet c.items hash = none) :
    (∃ last lastHash, c.list.Last = some last ∧
      c.list.toList = c.list.toList.dropLast ++ [last] ∧
      hasher (c.list.mem last).Key = some lastHash ∧ mapGet c.items lastHash = some last ∧
      (∃ c2, c.Add hasher key value now = some c2 ∧
        Evicts c c2 last lastHash hash key value (now + noEvictionTTL) ∧
        c2.entriesWithTTL = c.entriesWithTTL.erase last) ∧
      ∀ ttl : Int, ttl ≠ 0 → ∃ c2 low, c.AddWithTTL hasher key value ttl now = some c2 ∧
        Evicts c c2 last lastHash hash key value (now + ttl) ∧
        low ≤ c.entriesWithTTL.length ∧
        c2.entriesWithTTL =
          (c.entriesWithTTL.take low ++ c.list.fresh :: c.entriesWithTTL.drop low).erase last) ∧
    ∀ (size : Int) (onEvict : Bool) (c0 : Cache K V) (adds : List (K × V × Int)),
      Cache.NewCache size onEvict = some c0 → (adds.length : Int) = size + 1 →
      (∀ a, a ∈ adds → hasher a.1 ≠ none) → (adds.map (fun a => hasher a.1)).Nodup →
      ∃ c1, run hasher c0 (addOps adds) = some c1 ∧ c1.Len = size ∧
        (∀ a, adds.head? = some a → c1.Contains hasher a.1 = some (c1, false)) ∧
        ∀ a, a ∈ adds.tail → c1.Contains hasher a.1 = some (c1, true) := by
  obtain ⟨ps, hinv⟩ := hreach.inv
  refine ⟨?_, fun size onEvict c0 adds hnew0 hlen hsome hdist =>
    adds_overflow hasher size onEvict c0 hnew0 adds hlen hsome hdist⟩
  obtain ⟨last, lastHash, c2, h1, h2, h3, h4, hadd, hev, httl⟩ :=
    Add_overflow hinv hfull value now hk hnew
  refine ⟨last, lastHash, h1, h2, h3, h4, ⟨c2, hadd, hev, httl⟩, ?_⟩
  intro ttl hne
  obtain ⟨last1, lastHash1, c3, low, g1, _, g3, _, hadd3, hev3, hlow, httl3⟩ :=
    AddWithTTL_overflow hinv hfull value hne now hk hnew
  have e1 : last1 = last := by rw [h1] at g1; exact (Option.some.inj g1).symm
  subst e1
  have e2 : lastHash1 = lastHash := by rw [h3] at g3; exact (Option.some.inj g3).symm
  subst e2
  exact ⟨c3, low, hadd3, hev3, hlow, httl3⟩

end ClaimC2

theorem C2_overflow_eviction_witness :
    Reachable natHasher cacheFull ∧ cacheFull.Len = cacheFull.Cap ∧
    natHasher 3 = some 3 ∧ mapGet cacheFull.items 3 = none ∧
    ∃ last lastHash, cacheFull.list.Last = some last ∧
      cacheFull.list.toList = cacheFull.list.toList.dropLast ++ [last] ∧
      natHasher (cacheFull.list.mem last).Key = some lastHash ∧
      mapGet cacheFull.items lastHash = some last ∧
      (∃ c2, cacheFull.Add natHasher 3 3 2 = some c2 ∧
        Evicts cacheFull c2 last lastHash 3 3 3 (2 + noEvictionTTL) ∧
        c2.entriesWithTTL = cacheFull.entriesWithTTL.erase last) ∧
      ∀ ttl : Int, ttl ≠ 0 → ∃ c2 low, cacheFull.AddWithTTL natHasher 3 3 ttl 2 = some c2 ∧
        Evicts cacheFull c2 last lastHash 3 3 3 (2 + ttl) ∧
        low ≤ cacheFull.entriesWithTTL.length ∧
        c2.entriesWithTTL =
          (cacheFull.entriesWithTTL.take low ++
            cacheFull.list.fresh :: cacheFull.entriesWithTTL.drop low).erase last :=
  ⟨Reachable.of_run 2 false cache2 rfl [(Op.Add 1 1, 0), (Op.Add 2 2, 1)] rfl, by decide, rfl,
    by decide,
    (C2_overflow_eviction natHasher cacheFull
      (Reachable.of_run 2 false cache2 rfl [(Op.Add 1 1, 0), (Op.Add 2 2, 1)] rfl)
      (by decide) 3 3 2 3 rfl (by decide)).1⟩

section ClaimC3
variable {K V : Type} [Inhabited K] [Inhabited V]

/-- C3. Recency order. In the state `c` that a sequence `ops` of operations reaches
from a successful `NewCache` (any operations at all: sequences of `Add`,
`AddWithTTL`, `Get`, `Peek` and `Contains` with hashable keys and live entries are a
special case), the keys of the Recency List read front to back are exactly the
stored keys, and they are ordered by their most recent touch, most recent first: of
two keys the one nearer to the front has fewer operations since its last touch,
where `Add`, `AddWithTTL` with a non-zero ttl and a successful `Get` touch their key
while `Peek` and `Contains` touch nothing and return the cache as it is. Hence the
entry at the back, the one an overflow evicts, has the oldest last touch. With
capacity 2, `Add 1, Add 2, Add 3` leaves the keys 3, 2 (1 is evicted), and then
`Get 2, Add 4` leaves 4, 2 (3 is evicted, not 2). -/
theorem C3_recency_order (hasher : K → Option Nat) (size : Int) (onEvict : Bool)
    (c0 c : Cache K V) (ops : List (Op K V × Int))
    (hnew : Cache.NewCache size onEvict = some c0) (hrun : run hasher c0 ops = some c) :
    (∀ x, (mapGet c.items x).isSome = true ↔ ∃ k, k ∈ c.keys ∧ hasher k = some x) ∧
    c.keys.Pairwise (fun a b =>
      sinceTouch hasher a (touchLog hasher c0 ops) <
        sinceTouch hasher b (touchLog hasher c0 ops)) ∧
    (∀ last, c.list.Last = some last → ∀ p, p ∈ c.list.toList → p ≠ last →
      sinceTouch hasher (c.list.mem p).Key (touchLog hasher c0 ops) <
        sinceTouch hasher (c.list.mem last).Key (touchLog hasher c0 ops)) ∧
    (∀ key now, touched hasher c (Op.Peek key) now = none ∧
      touched hasher c (Op.Contains key) now = none ∧
      (∀ r, c.Peek hasher key = some r → hasher key ≠ none → r.1 = c) ∧
      (∀ r, c.Contains hasher key = some r → hasher key ≠ none → r.1 = c)) ∧
    (run natHasher cache2 [(Op.Add 1 1, 0), (Op.Add 2 2, 1), (Op.Add 3 3, 2)]).map
        (fun c3 => (c3.keys, c3.items.map Prod.fst)) = some ([3, 2], [2, 3]) ∧
    (run natHasher cache2 [(Op.Add 1 1, 0), (Op.Add 2 2, 1), (Op.Add 3 3, 2), (Op.Get 2, 3),
        (Op.Add 4 4, 4)]).map
        (fun c5 => (c5.keys, c5.items.map Prod.fst)) = some ([4, 2], [2, 4]) := by
  obtain ⟨h0, _⟩ := Inv.newCache hasher hnew
  obtain ⟨ps, hinv, hord⟩ := Ordered.after_run ops [] h0 List.Pairwise.nil hrun
  rw [List.nil_append] at hord
  have hkeys : c.keys = ps.map (fun p => (c.list.mem p).Key) := by
    unfold Cache.keys; rw [hinv.wf.rep.walk_toList]
  refine ⟨hinv.wf.stored_iff, ?_, ?_, ?_, by decide, by decide⟩
  · rw [hkeys, List.pairwise_map]
    exact hord
  · intro last hlast p hp hne
    rw [hinv.wf.rep.walk_toList] at hp
    rw [hinv.wf.rep.last] at hlast
    have hne0 : ps ≠ [] := by rintro rfl; simp at hp
    have hgl : ps.getLast hne0 = last := by
      rw [List.getLast?_eq_getLast _ hne0] at hlast; exact Option.some.inj hlast
    have hsplit : ps.dropLast ++ [last] = ps := by
      rw [← hgl]; exact List.dropLast_append_getLast hne0
    have hord2 : Ordered hasher c (ps.dropLast ++ [last]) (touchLog hasher c0 ops) := by
      rw [hsplit]; exact hord
    have hp2 : p ∈ ps.dropLast := by
      rw [← hsplit] at hp
      rcases List.mem_append.1 hp with h1 | h1
      · exact h1
      · exact absurd (List.mem_singleton.1 h1) hne
    exact (List.pairwise_append.1 hord2).2.2 p hp2 last (List.mem_singleton_self _)
  · intro key now
    refine ⟨rfl, rfl, ?_, ?_⟩
    · intro r hr hk
      cases hh : hasher key with
      | none => exact absurd hh hk
      | some x =>
        simp only [Cache.Peek, hh] at hr
        cases hg : mapGet c.items x with
        | none => rw [hg] at hr; cases hr; rfl
        | some p => rw [hg] at hr; cases hr; rfl
    · intro r hr hk
      cases hh : hasher key with
      | none => exact absurd hh hk
      | some x =>
        simp only [Cache.Contains, hh] at hr
        cases hr; rfl

end ClaimC3

theorem C3_recency_order_witness :
    Cache.NewCache 2 false = some cache2 ∧
    (run natHasher cache2 [(Op.Add 1 1, 0), (Op.Add 2 2, 1), (Op.Get 1, 2)]).isSome = true ∧
    ((run natHasher cache2 [(Op.Add 1 1, 0), (Op.Add 2 2, 1), (Op.Get 1, 2)]).getD cache2).keys
      = [1, 2] ∧
    ((run natHasher cache2 [(Op.Add 1 1, 0), (Op.Add 2 2, 1), (Op.Get 1, 2)]).getD
        cache2).keys.Pairwise (fun a b =>
      sinceTouch natHasher a
          (touchLog natHasher cache2 [(Op.Add 1 1, 0), (Op.Add 2 2, 1), (Op.Get 1, 2)]) <
        sinceTouch natHasher b
          (touchLog natHasher cache2 [(Op.Add 1 1, 0), (Op.Add 2 2, 1), (Op.Get 1, 2)])) :=
  ⟨rfl, by decide, by decide,
    (C3_recency_order natHasher 2 false cache2
      ((run natHasher cache2 [(Op.Add 1 1, 0), (Op.Add 2 2, 1), (Op.Get 1, 2)]).getD cache2)
      [(Op.Add 1 1, 0), (Op.Add 2 2, 1), (Op.Get 1, 2)] rfl rfl).2.1⟩

section ClaimC4
variable {K V : Type} [Inhabited K] [Inhabited V]

/-- C4. Round trip. For a reachable cache `c`, a key whose hashing succeeds and any
value, `Add(key, value)` at clock reading `now1` followed at once by `Get(key)` at
`now2` returns `(value, true)`, provided `now2` does not lie after the expiry of the
entry, which is the expiry the entry already had when the key was present and
`now1 + noEvictionTTL` when it was absent. The statement covers every key type and
value type, so also the empty string as key and nil (`default`) as value. -/
theorem C4_round_trip (hasher : K → Option Nat) (c : Cache K V) (hreach : Reachable hasher c)
    (key : K) (value : V) (hash : Nat) (now1 now2 : Int) (hk : hasher key = some hash)
    (hlive : now2 ≤ expiryAfterAdd c hash now1) :
    ∃ c1 c2, c.Add hasher key value now1 = some c1 ∧
      c1.Get hasher key now2 = some (c2, value, true) := by
  obtain ⟨ps, hinv⟩ := hreach.inv
  obtain ⟨c1, ps1, p, hadd, hinv1, hg, hval, hexp⟩ := Add_stores hinv value now1 hk
  have hnot : ¬ now2 > (c1.list.mem p).ExpiresAt := by rw [hexp]; omega
  obtain ⟨l1, _, _, _, _, hget, _⟩ := Get_live_spec hinv1.wf hk hg hnot
  exact ⟨c1, _, hadd, by rw [hget, hval]⟩

end ClaimC4

theorem C4_round_trip_witness :
    Reachable lengthHasher cacheStr ∧ lengthHasher "" = some 0 ∧
    (7 : Int) ≤ expiryAfterAdd cacheStr 0 3 ∧
    ∃ c1 c2, cacheStr.Add lengthHasher "" none 3 = some c1 ∧
      c1.Get lengthHasher "" 7 = some (c2, none, true) :=
  ⟨Reachable.init 2 false cacheStr rfl, rfl, by decide,
    C4_round_trip lengthHasher cacheStr (Reachable.init 2 false cacheStr rfl) "" none 0 3 7 rfl
      (by decide)⟩

section ClaimC5
variable {K V : Type} [Inhabited K] [Inhabited V]

/-- C5. Duplicate insert. For a reachable cache `c` and a key whose fingerprint is
indexed with entry `p`, `Add(key, v2)` replaces the value of `p` by `v2`, moves `p`
to the front of the list keeping the order of the others, and leaves the
Fingerprint Index (so `Len()` and the stored keys), the TTL Index, the key and
expiry of `p` and the data of every other entry unchanged: nothing is evicted, full
or not. So from any reachable cache `Add(k, v1); Add(k, v2)` leaves `Len()` as the
first `Add` left it, and a `Get(k)` not after the expiry returns `(v2, true)`. -/
theorem C5_duplicate_insert (hasher : K → Option Nat) (c : Cache K V)
    (hreach : Reachable hasher c) (key : K) (v2 : V) (now : Int) (hash : Nat) (p : Ptr)
    (hk : hasher key = some hash) (hg : mapGet c.items hash = some p) :
    (∃ c1, c.Add hasher key v2 now = some c1 ∧
      (c1.list.mem p).Value = v2 ∧
      c1.list.toList = p :: c.list.toList.erase p ∧
      c1.items = c.items ∧ c1.Len = c.Len ∧ c1.Cap = c.Cap ∧
      c1.entriesWithTTL = c.entriesWithTTL ∧
      (c1.list.mem p).Key = (c.list.mem p).Key ∧
      (c1.list.mem p).ExpiresAt = (c.list.mem p).ExpiresAt ∧
      ∀ q, q ≠ p → SameData c.list.mem c1.list.mem q) ∧
    ∀ (v1 : V) (t1 t2 t3 : Int), t3 ≤ expiryAfterAdd c hash t1 →
      ∃ c1 c2 c3, c.Add hasher key v1 t1 = some c1 ∧ c1.Add hasher key v2 t2 = some c2 ∧
        c2.Len = c1.Len ∧ c2.Get hasher key t3 = some (c3, v2, true) := by
  obtain ⟨ps, hinv⟩ := hreach.inv
  constructor
  · obtain ⟨l1, _, hrep, _, hd, hadd, hwf⟩ := Add_hit_spec hinv.wf v2 now hk hg
    refine ⟨_, hadd, by simp, ?_, rfl, rfl, rfl, rfl, by simp [(hd p).1], by simp [(hd p).2.2],
      ?_⟩
    · rw [hwf.order_eq, hinv.wf.order_eq]
    · intro q hq
      have := hd q
      exact ⟨by simp [this.1], by simp [hq, this.2.1], by simp [this.2.2]⟩
  · intro v1 t1 t2 t3 hlive
    obtain ⟨c1, ps1, p1, hadd1, hinv1, hg1, _, hexp1⟩ := Add_stores hinv v1 t1 hk
    obtain ⟨l2, _, _, _, hd2, hadd2, hwf2⟩ := Add_hit_spec hinv1.wf v2 t2 hk hg1
    have hnot : ¬ t3 > (({ c1 with list := { l2 with mem := setValue l2.mem p1 v2 } } :
        Cache K V).list.mem p1).ExpiresAt := by
      have : (setValue l2.mem p1 v2 p1).ExpiresAt = (c1.list.mem p1).ExpiresAt := by
        simp [(hd2 p1).2.2]
      show ¬ t3 > (setValue l2.mem p1 v2 p1).ExpiresAt
      rw [this, hexp1]; omega
    obtain ⟨l3, _, _, _, _, hget, _⟩ := Get_live_spec hwf2 hk hg1 hnot
    have hv : (({ c1 with list := { l2 with mem := setValue l2.mem p1 v2 } } :
        Cache K V).list.mem p1).Value = v2 := by simp
    rw [hv] at hget
    exact ⟨c1, _, _, hadd1, hadd2, rfl, hget⟩

end ClaimC5

theorem C5_duplicate_insert_witness :
    Reachable natHasher cacheFull ∧ natHasher 1 = some 1 ∧ mapGet cacheFull.items 1 = some 1 ∧
    ∃ c1, cacheFull.Add natHasher 1 7 5 = some c1 ∧ (c1.list.mem 1).Value = 7 ∧
      c1.list.toList = 1 :: cacheFull.list.toList.erase 1 ∧
      c1.items = cacheFull.items ∧ c1.Len = cacheFull.Len ∧ c1.Cap = cacheFull.Cap ∧
      c1.entriesWithTTL = cacheFull.entriesWithTTL ∧
      (c1.list.mem 1).Key = (cacheFull.list.mem 1).Key ∧
      (c1.list.mem 1).ExpiresAt = (cacheFull.list.mem 1).ExpiresAt ∧
      ∀ q, q ≠ 1 → SameData cacheFull.list.mem c1.list.mem q :=
  ⟨Reachable.of_run 2 false cache2 rfl [(Op.Add 1 1, 0), (Op.Add 2 2, 1)] rfl, rfl, by decide,
    (C5_duplicate_insert natHasher cacheFull
      (Reachable.of_run 2 false cache2 rfl [(Op.Add 1 1, 0), (Op.Add 2 2, 1)] rfl)
      1 7 5 1 1 rfl (by decide)).1⟩

/-- C6 at a failing input. After `AddWithTTL(1, 1, 5)` at clock reading 0 the key 1 is
indexed and its entry expires at 5. `Get(1)` at the clock reading 5, at the expiry
(`now == e`), returns `(1, true)` and keeps the entry in the three structures,
where not-found is expected; a sweep at the same clock reading 5 purges that
entry from the three structures. Away from the boundary `Get` does what is
expected: at 4 it returns `(1, true)`, at 6 it reports not-found and removes the
entry. -/
theorem C6_get_keeps_entry_at_expiry :
    (run natHasher cache2 [(Op.AddWithTTL 1 1 5, 0)]).isSome = true ∧
    mapGet cacheTTL.items 1 = some 1 ∧ (cacheTTL.list.mem 1).ExpiresAt = 5 ∧
    (cacheTTL.Get natHasher 1 5).map (fun r => r.2) = some (1, true) ∧
    (cacheTTL.Get natHasher 1 5).map (fun r => (r.1.keys, r.1.items, r.1.entriesWithTTL, r.1.Len)) =
      some ([1], [(1, 1)], [1], 1) ∧
    (cacheTTL.deleteExpired natHasher 5).map
        (fun c => (c.keys, c.items, c.entriesWithTTL, c.Len)) = some ([], [], [], 0) ∧
    (cacheTTL.Get natHasher 1 4).map (fun r => r.2) = some (1, true) ∧
    (cacheTTL.Get natHasher 1 6).map (fun r => r.2) = some (0, false) ∧
    (cacheTTL.Get natHasher 1 6).map (fun r => (r.1.keys, r.1.items, r.1.entriesWithTTL, r.1.Len)) =
      some ([], [], [], 0) := by
  refine ⟨by decide, by decide, by decide, by decide, by decide, by decide, by decide,
    by decide, by decide⟩

section ClaimC7
variable {K V : Type} [Inhabited K] [Inhabited V]

/-- C7. Lazy removal is complete. When, in a reachable cache `c`, `Get(key)` reports
not-found for a key whose fingerprint is indexed with entry `p`, the entry was
judged expired (`now` after its expiry) and in the returned cache `c1` the entry is
absent from the Recency List, the Fingerprint Index (`Contains` is false) and the
TTL Index, `Len()` and the list length have dropped by exactly one, the list and
the TTL Index are the old ones with `p` taken out (the order of the others is
kept), every other fingerprint is indexed as before and no entry's data changed. -/
theorem C7_lazy_removal_complete (hasher : K → Option Nat) (c : Cache K V)
    (hreach : Reachable hasher c) (key : K) (hash : Nat) (p : Ptr) (now : Int)
    (c1 : Cache K V) (v : V)
    (hk : hasher key = some hash) (hg : mapGet c.items hash = some p)
    (hget : c.Get hasher key now = some (c1, v, false)) :
    (c.list.mem p).ExpiresAt < now ∧
    p ∉ c1.list.toList ∧ mapGet c1.items hash = none ∧ p ∉ c1.entriesWithTTL ∧
    c1.Contains hasher key = some (c1, false) ∧
    c1.Len = c.Len - 1 ∧ c1.list.Len = c.list.Len - 1 ∧
    (c1.list.toList.length : Int) = c.list.toList.length - 1 ∧
    c1.list.toList = c.list.toList.erase p ∧
    c1.entriesWithTTL = c.entriesWithTTL.erase p ∧
    (∀ x, x ≠ hash → mapGet c1.items x = mapGet c.items x) ∧
    ∀ q, SameData c.list.mem c1.list.mem q := by
  obtain ⟨ps, hinv⟩ := hreach.inv
  by_cases hexp : now > (c.list.mem p).ExpiresAt
  · obtain ⟨l1, _, hd, hrep, hget1, hwf⟩ := Get_expired_spec hinv.wf hk hg hexp
    rw [hget1] at hget
    cases hget
    have hp := (hinv.wf.mem_of_get hg).2.1
    have hpos : 0 < ps.length := List.length_pos_of_mem hp
    have hlen1 := hwf.items_length
    have hlen := hinv.wf.items_length
    have hle := List.length_erase_of_mem hp
    have hgone : mapGet (mapDelete c.items hash) hash = none := by
      rw [mapGet_mapDelete, if_pos rfl]
    refine ⟨hexp, ?_, hgone, List.Nodup.not_mem_erase hinv.wf.ttl_nodup, ?_, ?_, ?_, ?_, ?_, rfl,
      ?_, hd⟩
    · rw [hwf.order_eq]; exact List.Nodup.not_mem_erase hinv.wf.rep.nodup
    · simp only [Cache.Contains, hk]
      rw [hgone]; rfl
    · simp only [Cache.Len, hlen1, hlen, hle]; omega
    · simp only [LruList.Len, hrep.len, hinv.wf.rep.len, hle]; omega
    · rw [hwf.order_eq, hinv.wf.order_eq, hle]; omega
    · rw [hwf.order_eq, hinv.wf.order_eq]
    · intro x hx
      show mapGet (mapDelete c.items hash) x = mapGet c.items x
      rw [mapGet_mapDelete, if_neg hx]
  · obtain ⟨l1, _, _, _, _, hget1, _⟩ := Get_live_spec hinv.wf hk hg hexp
    rw [hget1] at hget
    cases hget

end ClaimC7

theorem C7_lazy_removal_complete_witness :
    Reachable natHasher cacheTTL ∧ natHasher 1 = some 1 ∧ mapGet cacheTTL.items 1 = some 1 ∧
    (cacheTTL.Get natHasher 1 6).isSome = true ∧
    ((cacheTTL.Get natHasher 1 6).getD (cacheTTL, 0, false)).1.Len = cacheTTL.Len - 1 ∧
    ((cacheTTL.Get natHasher 1 6).getD (cacheTTL, 0, false)).1.entriesWithTTL =
      cacheTTL.entriesWithTTL.erase 1 :=
  ⟨Reachable.of_run 2 false cache2 rfl [(Op.AddWithTTL 1 1 5, 0)] rfl, rfl, by decide, by decide,
    (C7_lazy_removal_complete natHasher cacheTTL
      (Reachable.of_run 2 false cache2 rfl [(Op.AddWithTTL 1 1 5, 0)] rfl) 1 1 1 6
      ((cacheTTL.Get natHasher 1 6).getD (cacheTTL, 0, false)).1 0 rfl (by decide) rfl).2.2.2.2.2.1,
    (C7_lazy_removal_complete natHasher cacheTTL
      (Reachable.of_run 2 false cache2 rfl [(Op.AddWithTTL 1 1 5, 0)] rfl) 1 1 1 6
      ((cacheTTL.Get natHasher 1 6).getD (cacheTTL, 0, false)).1 0 rfl (by decide)
      rfl).2.2.2.2.2.2.2.2.2.1⟩

/-- C8 at a failing input. Key 1 is added with a ttl of 10 and key 2 with a ttl of 5
at clock reading 0, key 2 is renewed with a ttl of 100 at clock reading 1, and the
sweep runs at clock reading 20. The entry of key 1 expired at 10, yet after the
sweep it is still in the Recency List, the Fingerprint Index and the TTL Index and
`Len()` is 2: the sweep stopped at the renewed entry of key 2 at the back of the
TTL Index. Likewise a key stored by `Add` and then given a ttl of 5 by `AddWithTTL`
is never in the TTL Index and survives a sweep at 7. The five keys of the example,
each added with a ttl of 5, are all purged by a sweep at 7. -/
theorem C8_sweep_leaves_expired :
    (run natHasher cache2 renewOps).isSome = true ∧
    (cacheRenewed.deleteExpired natHasher 20).map
        (fun c => (c.keys, c.items, c.entriesWithTTL, (c.list.mem 1).ExpiresAt, c.Len)) =
      some ([2, 1], [(1, 1), (2, 2)], [1, 2], 10, 2) ∧
    (run natHasher cache2 [(Op.Add 1 1, 0), (Op.AddWithTTL 1 1 5, 0), (Op.deleteExpired, 7)]).map
        (fun c => (c.keys, c.items, c.entriesWithTTL, (c.list.mem 1).ExpiresAt, c.Len)) =
      some ([1], [(1, 1)], [], 5, 1) ∧
    (run natHasher cache5 [(Op.AddWithTTL 1 1 5, 0), (Op.AddWithTTL 2 2 5, 0),
        (Op.AddWithTTL 3 3 5, 0), (Op.AddWithTTL 4 4 5, 0), (Op.AddWithTTL 5 5 5, 0),
        (Op.deleteExpired, 7)]).map (fun c => c.Len) = some 0 := by
  refine ⟨by decide, by decide, by decide, by decide⟩

/-- C9 at a failing input. Key 1 is added with a ttl of 10 and key 2 with a ttl of 5
at clock reading 0, then `AddWithTTL(2, 2, 100)` is called at clock reading 1 for
the key 2 that already exists. It sets the expiry of the entry to 101 and leaves
the entry where it was in the TTL Index, behind the entry of key 1 that expires at
10: after this `AddWithTTL` call the TTL Index is not sorted by descending
`ExpiresAt`. -/
theorem C9_ttl_index_unsorted :
    (run natHasher cache2 renewOps).isSome = true ∧
    cacheRenewed.entriesWithTTL.map (fun p => ((cacheRenewed.list.mem p).Key,
      (cacheRenewed.list.mem p).ExpiresAt)) = [(1, 10), (2, 101)] ∧
    ¬ TTLSorted cacheRenewed := by
  refine ⟨by decide, by decide, ?_⟩
  unfold TTLSorted
  decide

section ClaimC10
variable {K V : Type} [Inhabited K] [Inhabited V]

/-- C10. Structure consistency invariant. In every reachable state (the hasher being
a function, hence deterministic), `Len()` = the size of the Fingerprint Index (its
pairs have distinct fingerprints) = `list.Len()` = the number of entries met when
traversing the list; the traversal
meets no entry twice, and the entries it meets are exactly the entries the
Fingerprint Index points to. The TTL Index has no duplicates and holds only entries
that are linked in the list (owned by it, with non-nil `next` and `prev`) and
indexed in the Fingerprint Index, so `|TTL Index| <= Len()`. No removal path unlinks
an entry twice: unlinking an unlinked entry would dereference its nil `next`, and
from a reachable state every operation and every sweep returns without a panic, the
call of a nil callback on a hashing failure apart. -/
theorem C10_structure_consistency (hasher : K → Option Nat) (c : Cache K V)
    (hreach : Reachable hasher c) :
    c.Len = (c.items.length : Int) ∧ (c.items.map Prod.fst).Nodup ∧
    (c.items.length : Int) = c.list.Len ∧
    c.list.Len = (c.list.toList.length : Int) ∧
    c.list.toList.Nodup ∧
    (∀ p, p ∈ c.list.toList ↔ ∃ x, mapGet c.items x = some p) ∧
    c.entriesWithTTL.Nodup ∧
    (∀ p, p ∈ c.entriesWithTTL →
      p ∈ c.list.toList ∧ (c.list.mem p).List = true ∧ (c.list.mem p).next ≠ none ∧
      (c.list.mem p).prev ≠ none ∧ ∃ x, mapGet c.items x = some p) ∧
    (c.entriesWithTTL.length : Int) ≤ c.Len ∧
    ∀ (op : Op K V) (now : Int),
      (c.onEvict = true ∨ ∀ k, op.key? = some k → hasher k ≠ none) →
      ∃ c1, step hasher c op now = some c1 := by
  obtain ⟨ps, hinv⟩ := hreach.inv
  have hwf := hinv.wf
  have hl := hwf.order_eq
  have hstored : ∀ p, p ∈ ps → ∃ x, mapGet c.items x = some p := fun p hp => by
    obtain ⟨x, _, _, hg⟩ := hwf.get_of_mem hp
    exact ⟨x, hg⟩
  refine ⟨rfl, hwf.keys_nodup, ?_, ?_, ?_, ?_, hwf.ttl_nodup, ?_, ?_,
    fun op now hok => hinv.progress op now hok⟩
  · rw [hwf.items_length]; simp only [LruList.Len, hwf.rep.len]
  · rw [hl]; simp only [LruList.Len, hwf.rep.len]
  · rw [hl]; exact hwf.rep.nodup
  · intro p
    rw [hl]
    exact ⟨hstored p, fun ⟨x, hx⟩ => (hwf.mem_of_get hx).2.1⟩
  · intro p hp
    have hp1 := hwf.ttl_mem p hp
    obtain ⟨_, _, a, n, _, _, hpa, hpn, _⟩ := hwf.rep.split hp1
    exact ⟨hl ▸ hp1, hwf.rep.own p hp1, by rw [hpn]; simp, by rw [hpa]; simp, hstored p hp1⟩
  · have h1 : c.entriesWithTTL.length ≤ ps.length :=
      (List.subperm_of_subset hwf.ttl_nodup (fun p hp => hwf.ttl_mem p hp)).length_le
    simp only [Cache.Len, hwf.items_length]
    exact_mod_cast h1

end ClaimC10

theorem C10_structure_consistency_witness :
    Reachable natHasher cacheFull ∧
    cacheFull.Len = (cacheFull.items.length : Int) ∧
    (cacheFull.items.length : Int) = cacheFull.list.Len ∧
    cacheFull.list.Len = (cacheFull.list.toList.length : Int) :=
  ⟨Reachable.of_run 2 false cache2 rfl [(Op.Add 1 1, 0), (Op.Add 2 2, 1)] rfl,
    (C10_structure_consistency natHasher cacheFull
      (Reachable.of_run 2 false cache2 rfl [(Op.Add 1 1, 0), (Op.Add 2 2, 1)] rfl)).1,
    (C10_structure_consistency natHasher cacheFull
      (Reachable.of_run 2 false cache2 rfl [(Op.Add 1 1, 0), (Op.Add 2 2, 1)] rfl)).2.2.1,
    (C10_structure_consistency natHasher cacheFull
      (Reachable.of_run 2 false cache2 rfl [(Op.Add 1 1, 0), (Op.Add 2 2, 1)] rfl)).2.2.2.1⟩

section ClaimC11
variable {K V : Type}

/-- C11. Zero TTL is a no-op. For every cache state, key, value and clock reading,
`AddWithTTL(key, value, 0)` returns the cache exactly as it was: the Recency List
and its order, the Fingerprint Index, the TTL Index, every stored value and expiry
(the whole heap), and also the log of callback invocations, since the call returns
before the key is even hashed. So nothing is inserted when the key is absent and
nothing is updated or promoted when it is present. On the empty cache of capacity
2, `AddWithTTL(1, 1, 0)` followed by `Get(1)` reports not-found and `Len()` is 0. -/
theorem C11_zero_ttl_noop (hasher : K → Option Nat) (c : Cache K V) (key : K) (value : V)
    (now : Int) :
    c.AddWithTTL hasher key value 0 now = some c ∧
    ((cache2.AddWithTTL natHasher 1 1 0 0).bind (fun c1 => c1.Get natHasher 1 1)).map
      (fun r => (r.2, r.1.Len)) = some ((0, false), 0) :=
  ⟨by simp [Cache.AddWithTTL], by decide⟩

end ClaimC11

section ClaimC12
variable {K V : Type} [Inhabited V]

/-- C12. Peek and Contains are read-only and ignore expiry. For every cache state
and every key with fingerprint `hash`, `Peek` returns `(stored value, true)` when
`hash` is in the Fingerprint Index and `(nil, false)` otherwise, `Contains` returns
that same presence bit, and both return the cache exactly as it was (recency
order, `Len()`, TTL Index, values and expiries). Neither reads the clock nor the
expiry of the entry, so the answer is the same for an entry whose expiry has
passed. -/
theorem C12_peek_contains_readonly (hasher : K → Option Nat) (c : Cache K V) (key : K)
    (hash : Nat) (hk : hasher key = some hash) :
    (∀ p, mapGet c.items hash = some p →
      c.Peek hasher key = some (c, (c.list.mem p).Value, true) ∧
      c.Contains hasher key = some (c, true)) ∧
    (mapGet c.items hash = none →
      c.Peek hasher key = some (c, default, false) ∧
      c.Contains hasher key = some (c, false)) ∧
    (∀ r, c.Peek hasher key = some r → r.1 = c ∧ r.2.2 = (mapGet c.items hash).isSome) ∧
    ∀ r, c.Contains hasher key = some r → r.1 = c ∧ r.2 = (mapGet c.items hash).isSome := by
  refine ⟨?_, ?_, ?_, ?_⟩
  · intro p hg
    simp [Cache.Peek, Cache.Contains, hk, hg]
  · intro hg
    simp [Cache.Peek, Cache.Contains, hk, hg]
  · intro r hr
    cases hg : mapGet c.items hash with
    | none =>
      simp only [Cache.Peek, hk, hg] at hr
      cases hr; exact ⟨rfl, rfl⟩
    | some p =>
      simp only [Cache.Peek, hk, hg] at hr
      cases hr; exact ⟨rfl, rfl⟩
  · intro r hr
    simp only [Cache.Contains, hk] at hr
    cases hr; exact ⟨rfl, rfl⟩

end ClaimC12

theorem C12_peek_contains_readonly_witness :
    natHasher 1 = some 1 ∧ (cacheTTL.list.mem 1).ExpiresAt = 5 ∧
    (cacheTTL.Get natHasher 1 9).map (fun r => r.2) = some (0, false) ∧
    mapGet cacheTTL.items 1 = some 1 ∧
    cacheTTL.Peek natHasher 1 = some (cacheTTL, (cacheTTL.list.mem 1).Value, true) ∧
    cacheTTL.Contains natHasher 1 = some (cacheTTL, true) :=
  ⟨rfl, by decide, by decide, by decide,
    (C12_peek_contains_readonly natHasher cacheTTL 1 1 rfl).1 1 (by decide)⟩

section ClaimC13
variable {K V : Type} [Inhabited K] [Inhabited V]

/-- C13. Remove. For a reachable cache `c` and a key with fingerprint `hash`: if the
fingerprint is indexed with entry `p`, `Remove(key)` returns a cache `c1` in which
`p` is gone from the Recency List, the Fingerprint Index and the TTL Index, `Len()`
is one less, the list and the TTL Index are the old ones with `p` taken out (the
others keep their order), every other fingerprint is indexed as before and no
entry's data changed; if the fingerprint is not indexed, `Remove(key)` returns the
cache as it was. In both cases `Peek(key)` then reports not-found, and an `Add(key,
v)` right after stores `v` afresh: in a newly allocated entry with the far-future
expiry, which `Peek(key)` then returns; after a removal there is room, so that
entry goes to the front of the list and nothing is evicted. -/
theorem C13_remove (hasher : K → Option Nat) (c : Cache K V) (hreach : Reachable hasher c)
    (key : K) (hash : Nat) (hk : hasher key = some hash) :
    ∃ c1, c.Remove hasher key = some c1 ∧
      (∀ p, mapGet c.items hash = some p →
        p ∉ c1.list.toList ∧ p ∉ c1.entriesWithTTL ∧
        c1.Len = c.Len - 1 ∧ c1.list.Len = c.list.Len - 1 ∧
        c1.list.toList = c.list.toList.erase p ∧
        c1.entriesWithTTL = c.entriesWithTTL.erase p ∧
        (∀ x, x ≠ hash → mapGet c1.items x = mapGet c.items x) ∧
        (∀ q, SameData c.list.mem c1.list.mem q) ∧
        ∀ (v : V) (now : Int), ∃ c2, c1.Add hasher key v now = some c2 ∧
          c2.list.toList = c1.list.fresh :: c1.list.toList ∧ c2.Len = c.Len) ∧
      (mapGet c.items hash = none → c1 = c) ∧
      mapGet c1.items hash = none ∧
      c1.Peek hasher key = some (c1, default, false) ∧
      ∀ (v : V) (now : Int), ∃ c2, c1.Add hasher key v now = some c2 ∧
        c2.Peek hasher key = some (c2, v, true) ∧
        mapGet c2.items hash = some c1.list.fresh ∧
        (c2.list.mem c1.list.fresh).ExpiresAt = now + noEvictionTTL := by
  obtain ⟨ps, hinv⟩ := hreach.inv
  have after : ∀ (c1 : Cache K V) (ps1 : List Ptr), Inv hasher c1 ps1 →
      mapGet c1.items hash = none →
      c1.Peek hasher key = some (c1, default, false) ∧
      ∀ (v : V) (now : Int), ∃ c2, c1.Add hasher key v now = some c2 ∧
        c2.Peek hasher key = some (c2, v, true) ∧
        mapGet c2.items hash = some c1.list.fresh ∧
        (c2.list.mem c1.list.fresh).ExpiresAt = now + noEvictionTTL := by
    intro c1 ps1 hinv1 hg
    refine ⟨by simp [Cache.Peek, hk, hg], ?_⟩
    intro v now
    by_cases hlt : (ps1.length : Int) < c1.size
    · obtain ⟨c2, hadd, _, _, hitems, _, _, hval, hexp, _, _⟩ :=
        Add_room hinv1.wf hlt v now hk hg
      have hg2 : mapGet c2.items hash = some c1.list.fresh := by
        rw [hitems, mapGet_mapSet, if_pos rfl]
      exact ⟨c2, hadd, by simp [Cache.Peek, hk, hg2, hval], hg2, hexp⟩
    · have hfull : c1.Len = c1.Cap := by
        have h1 := hinv1.wf.items_length
        have h2 := hinv1.le_size
        simp only [Cache.Len, Cache.Cap, h1]; omega
      obtain ⟨last, lastHash, c2, _, _, _, _, hadd, hev, _⟩ :=
        Add_overflow hinv1 hfull v now hk hg
      exact ⟨c2, hadd, by simp [Cache.Peek, hk, hev.stored, hev.stored_value], hev.stored,
        hev.stored_expiry⟩
  cases hg : mapGet c.items hash with
  | none =>
    have hrm : c.Remove hasher key = some c := by simp [Cache.Remove, hk, hg]
    obtain ⟨h1, h2⟩ := after c ps hinv hg
    exact ⟨c, hrm, fun p hp => (by cases hp), fun _ => rfl, hg, h1, h2⟩
  | some p =>
    obtain ⟨c1, hrm, hwf, hlt, hgone, g1, g2, g3, g4, g5, g6, g7, g8⟩ :=
      Remove_present hinv hk hg
    obtain ⟨h1, h2⟩ := after c1 _ ⟨hwf, le_of_lt hlt⟩ hgone
    refine ⟨c1, hrm, ?_, fun hn => (by cases hn), hgone, h1, h2⟩
    intro p1 hp1
    cases hp1
    refine ⟨g1, g2, g3, g4, g5, g6, g7, g8, ?_⟩
    intro v now
    obtain ⟨c2, hadd, _, hlist, _, _, _, _, _, _, hlen2⟩ := Add_room hwf hlt v now hk hgone
    refine ⟨c2, hadd, hlist, ?_⟩
    rw [hlen2, g3]; omega

end ClaimC13

theorem C13_remove_witness :
    Reachable natHasher cacheFull ∧ natHasher 1 = some 1 ∧
    ∃ c1, cacheFull.Remove natHasher 1 = some c1 ∧ mapGet c1.items 1 = none ∧
      c1.Peek natHasher 1 = some (c1, default, false) :=
  ⟨Reachable.of_run 2 false cache2 rfl [(Op.Add 1 1, 0), (Op.Add 2 2, 1)] rfl, rfl,
    (C13_remove natHasher cacheFull
      (Reachable.of_run 2 false cache2 rfl [(Op.Add 1 1, 0), (Op.Add 2 2, 1)] rfl) 1 1 rfl).imp
      (fun _ h => ⟨h.1, h.2.2.2.1, h.2.2.2.2.1⟩)⟩

section ClaimC14
variable {K V : Type} [Inhabited K] [Inhabited V]

/-- C14. Clear empties the cache. For every reachable cache `c`, with TTL entries,
entries without TTL or both, `Clear()` returns a cache `c1` with `Len() == 0`, list
length 0, an empty traversal, `Last()` returning nothing, an empty TTL Index and an
empty Fingerprint Index, and the capacity it had. In `c1` every `Get`, `Peek` and
`Contains` that returns reports not-found, and for a key that can be hashed they do
return, leaving `c1` as it is. The cache is usable again: `c1` is a reachable
state, and `Add(key, v)` stores the key, as the only entry. -/
theorem C14_clear_empties (hasher : K → Option Nat) (c : Cache K V)
    (hreach : Reachable hasher c) :
    ∃ c1, c.Clear = some c1 ∧ c1.Len = 0 ∧ c1.list.Len = 0 ∧ c1.list.toList = [] ∧
      c1.list.Last = none ∧ c1.entriesWithTTL = [] ∧ c1.items = [] ∧ c1.Cap = c.Cap ∧
      Reachable hasher c1 ∧
      (∀ key now r, c1.Get hasher key now = some r → r.2 = (default, false)) ∧
      (∀ key r, c1.Peek hasher key = some r → r.2 = (default, false)) ∧
      (∀ key r, c1.Contains hasher key = some r → r.2 = false) ∧
      (∀ key now, hasher key ≠ none →
        c1.Get hasher key now = some (c1, default, false) ∧
        c1.Peek hasher key = some (c1, default, false) ∧
        c1.Contains hasher key = some (c1, false)) ∧
      ∀ key (v : V) (now : Int), hasher key ≠ none →
        ∃ c2, c1.Add hasher key v now = some c2 ∧ c2.Peek hasher key = some (c2, v, true) ∧
          c2.Len = 1 ∧ c2.list.toList = [c1.list.fresh] := by
  obtain ⟨ps, hinv⟩ := hreach.inv
  have hclear := Clear_spec c
  have hwf := hinv.wf.clear (c.calls ++
    (if c.onEvict then c.items.map (fun e => (Arg.hash e.1, Arg.entry e.2)) else []))
  have hstep : step hasher c Op.Clear 0 = some _ := hclear
  refine ⟨_, hclear, rfl, rfl, hwf.order_eq, ?_, rfl, rfl, rfl,
    Reachable.step c Op.Clear 0 _ hreach hstep, ?_, ?_, ?_, ?_, ?_⟩
  · rw [hwf.rep.last]; rfl
  · intro key now r hr
    cases hk : hasher key with
    | none =>
      simp only [Cache.Get, hk] at hr
      cases hc : Cache.callOnEvict _ (Arg.key key) Arg.err with
      | none => rw [hc] at hr; cases hr
      | some c2 => rw [hc] at hr; cases hr; rfl
    | some hash =>
      simp only [Cache.Get, hk, mapGet, List.find?_nil, Option.map_none'] at hr
      cases hr; rfl
  · intro key r hr
    cases hk : hasher key with
    | none =>
      simp only [Cache.Peek, hk] at hr
      cases hc : Cache.callOnEvict _ (Arg.key key) Arg.err with
      | none => rw [hc] at hr; cases hr
      | some c2 => rw [hc] at hr; cases hr; rfl
    | some hash =>
      simp only [Cache.Peek, hk, mapGet, List.find?_nil, Option.map_none'] at hr
      cases hr; rfl
  · intro key r hr
    cases hk : hasher key with
    | none =>
      simp only [Cache.Contains, hk] at hr
      cases hc : Cache.callOnEvict _ (Arg.key key) Arg.err with
      | none => rw [hc] at hr; cases hr
      | some c2 => rw [hc] at hr; cases hr; rfl
    | some hash =>
      simp only [Cache.Contains, hk, mapGet, List.find?_nil, Option.map_none'] at hr
      cases hr; rfl
  · intro key now hk
    cases hh : hasher key with
    | none => exact absurd hh hk
    | some hash => simp [Cache.Get, Cache.Peek, Cache.Contains, hh, mapGet]
  · intro key v now hk
    cases hh : hasher key with
    | none => exact absurd hh hk
    | some hash =>
      have hg : mapGet ([] : List (Nat × Ptr)) hash = none := rfl
      obtain ⟨c2, hadd, _, hlist, hitems, _, _, hval, _, _, hlen⟩ :=
        Add_room hwf (by simpa using hinv.wf.size_pos) v now hh hg
      have hg2 : mapGet c2.items hash = some c.list.Init.fresh := by
        rw [hitems, mapGet_mapSet, if_pos rfl]
      refine ⟨c2, hadd, by simp [Cache.Peek, hh, hg2, hval], ?_, ?_⟩
      · rw [hlen]; rfl
      · rw [hlist, hwf.order_eq]

end ClaimC14

theorem C14_clear_empties_witness :
    Reachable natHasher cacheMixed ∧
    (cacheMixed.items, cacheMixed.entriesWithTTL) = ([(1, 1), (2, 2)], [1]) ∧
    ∃ c1, cacheMixed.Clear = some c1 ∧ c1.Len = 0 ∧ c1.list.Len = 0 ∧ c1.list.toList = [] ∧
      c1.list.Last = none ∧ c1.entriesWithTTL = [] ∧ c1.items = [] ∧ c1.Cap = cacheMixed.Cap :=
  ⟨Reachable.of_run 5 false cache5 rfl [(Op.AddWithTTL 1 1 100, 0), (Op.Add 2 2, 0)] rfl,
    by decide,
    (C14_clear_empties natHasher cacheMixed
      (Reachable.of_run 5 false cache5 rfl [(Op.AddWithTTL 1 1 100, 0), (Op.Add 2 2, 0)] rfl)).imp
      (fun _ h => ⟨h.1, h.2.1, h.2.2.1, h.2.2.2.1, h.2.2.2.2.1, h.2.2.2.2.2.1, h.2.2.2.2.2.2.1,
        h.2.2.2.2.2.2.2.1⟩)⟩

/-- C15 at a failing input. A cache of capacity 2 with an eviction callback, under a
hasher that sends key `k` to the fingerprint `k + 100`, stores key 1 with value 7
and key 2 with value 9 (given a ttl), in the entries at addresses 1 and 2; no
callback call has happened. `Clear()` then calls the callback once for each of the
two entries, but with the fingerprint (101, 102) where the key (1, 2) is expected
and with the pointer to the entry where the value (7, 9) is expected. For every
cache, `Clear()` logs exactly one call for each pair of the Fingerprint Index when
there is a callback, with the fingerprint and the entry pointer as arguments. -/
theorem C15_clear_passes_fingerprint_and_entry :
    (run shiftHasher cacheCb [(Op.Add 1 7, 0), (Op.AddWithTTL 2 9 5, 1)]).map
        (fun c => (c.keys, c.items, (c.list.mem 1).Value, (c.list.mem 2).Value)) =
      some ([2, 1], [(101, 1), (102, 2)], 7, 9) ∧
    (run shiftHasher cacheCb [(Op.Add 1 7, 0), (Op.AddWithTTL 2 9 5, 1)]).map
        (fun c => c.calls) = some [] ∧
    (run shiftHasher cacheCb [(Op.Add 1 7, 0), (Op.AddWithTTL 2 9 5, 1), (Op.Clear, 2)]).map
        (fun c => c.calls) =
      some [(Arg.hash 101, Arg.entry 1), (Arg.hash 102, Arg.entry 2)] ∧
    (Arg.hash 101 : Arg Nat) ≠ Arg.key 1 ∧
    ∀ c : Cache Nat Nat, c.Clear.map (fun c1 => c1.calls) =
      some (c.calls ++
        (if c.onEvict then c.items.map (fun e => (Arg.hash e.1, Arg.entry e.2)) else [])) := by
  refine ⟨by decide, by decide, by decide, by decide, fun c => ?_⟩
  rw [Clear_spec]; rfl

section ClaimC16
variable {K V : Type} [Inhabited V]

/-- C16, hashing failure. For every cache and every key whose fingerprint cannot be
computed: in a cache constructed with no eviction callback (nil) each of `Add`,
`AddWithTTL` with a non-zero ttl, `Get`, `Remove`, `Contains` and `Peek` panics in
the call `c.onEvict(key, err)`; in a cache constructed with a callback each of them
completes, logs the one call `onEvict(key, err)`, leaves the Recency List, the
Fingerprint Index and the TTL Index as they are, and `Get` and `Peek` return
`(nil, false)`, `Contains` returns `false`. -/
theorem C16_hash_failure_panics_without_callback (hasher : K → Option Nat) (c : Cache K V)
    (key : K) (value : V) (ttl now : Int) (hk : hasher key = none) (httl : ttl ≠ 0) :
    (c.onEvict = false →
      c.Add hasher key value now = none ∧ c.AddWithTTL hasher key value ttl now = none ∧
      c.Get hasher key now = none ∧ c.Remove hasher key = none ∧
      c.Contains hasher key = none ∧ c.Peek hasher key = none) ∧
    (c.onEvict = true →
      c.Add hasher key value now = some { c with calls := c.calls ++ [(Arg.key key, Arg.err)] } ∧
      c.AddWithTTL hasher key value ttl now =
        some { c with calls := c.calls ++ [(Arg.key key, Arg.err)] } ∧
      c.Get hasher key now =
        some ({ c with calls := c.calls ++ [(Arg.key key, Arg.err)] }, default, false) ∧
      c.Remove hasher key = some { c with calls := c.calls ++ [(Arg.key key, Arg.err)] } ∧
      c.Contains hasher key =
        some ({ c with calls := c.calls ++ [(Arg.key key, Arg.err)] }, false) ∧
      c.Peek hasher key =
        some ({ c with calls := c.calls ++ [(Arg.key key, Arg.err)] }, default, false)) := by
  constructor
  · intro ho
    simp [Cache.Add, Cache.AddWithTTL, Cache.Get, Cache.Remove, Cache.Contains, Cache.Peek,
      Cache.callOnEvict, hk, ho, httl]
  · intro ho
    simp [Cache.Add, Cache.AddWithTTL, Cache.Get, Cache.Remove, Cache.Contains, Cache.Peek,
      Cache.callOnEvict, hk, ho, httl]

end ClaimC16

theorem C16_hash_failure_panics_without_callback_witness :
    failHasher 0 = none ∧ (5 : Int) ≠ 0 ∧ cache2.onEvict = false ∧
    Cache.NewCache 2 false = some cache2 ∧
    cache2.Add failHasher 0 1 0 = none ∧ cache2.AddWithTTL failHasher 0 1 5 0 = none ∧
    cache2.Get failHasher 0 0 = none ∧ cache2.Remove failHasher 0 = none ∧
    cache2.Contains failHasher 0 = none ∧ cache2.Peek failHasher 0 = none :=
  ⟨rfl, by decide, rfl, rfl,
    (C16_hash_failure_panics_without_callback failHasher cache2 0 1 5 0 rfl (by decide)).1 rfl⟩

section ClaimC17
variable {K V : Type} [Inhabited K] [Inhabited V]

/-- C17. Concurrent inserts, over every serialization order. The mutex makes the
body of every `AddWithTTL` call and every purge of the background sweep one
step, so a concurrent execution is a sequence `ops` of these steps in some order.
For every `N` calls of `AddWithTTL` (`adds`: key, value, ttl, clock reading) on keys
with pairwise distinct fingerprints and non-zero ttl, on the empty cache of a
capacity of at least `N`, and for every sequence `ops` that holds these calls in
any order, with any number of sweeps anywhere in between at clock readings before
every expiry: every step returns, and in the end `Len()` is `N`, `Cap()` is the
capacity, and every one of the `N` keys is present, `Contains` is true and `Peek`
returns its value. -/
theorem C17_serialized_inserts (hasher : K → Option Nat) (size : Int) (onEvict : Bool)
    (c0 : Cache K V) (hnew : Cache.NewCache size onEvict = some c0)
    (adds : List (K × V × Int × Int))
    (hsome : ∀ a ∈ adds, hasher a.1 ≠ none)
    (hdist : (adds.map (fun a => hasher a.1)).Nodup)
    (httl : ∀ a ∈ adds, a.2.2.1 ≠ 0)
    (hcap : (adds.length : Int) ≤ size)
    (ops : List (Op K V × Int))
    (hperm : (ops.filter (fun x => !x.1.isSweep)).Perm (ttlOps adds))
    (hlive : ∀ x ∈ ops, x.1.isSweep = true → ∀ a ∈ adds, x.2 < a.2.2.2 + a.2.2.1) :
    ∃ c1, run hasher c0 ops = some c1 ∧ c1.Len = adds.length ∧ c1.Cap = size ∧
      ∀ a ∈ adds, c1.Contains hasher a.1 = some (c1, true) ∧
        c1.Peek hasher a.1 = some (c1, a.2.1, true) := by
  obtain ⟨hinv0, hsz0⟩ := Inv.newCache hasher hnew
  have hc0 : c0.items = [] ∧ c0.entriesWithTTL = [] := by
    unfold Cache.NewCache at hnew
    split at hnew
    · cases hnew
    · cases hnew
      exact ⟨rfl, rfl⟩
  have hmemT : ∀ x ∈ ttlOps adds,
      ∃ a ∈ adds, x = (Op.AddWithTTL a.1 a.2.1 a.2.2.1, a.2.2.2) := by
    intro x hx
    obtain ⟨a, ha, rfl⟩ := List.mem_map.1 hx
    exact ⟨a, ha, rfl⟩
  have hmemF : ∀ x ∈ ops, x.1.isSweep = false →
      ∃ a ∈ adds, x = (Op.AddWithTTL a.1 a.2.1 a.2.2.1, a.2.2.2) := fun x hx hs =>
    hmemT x (hperm.mem_iff.1 (List.mem_filter.2 ⟨hx, by simp [hs]⟩))
  have hfm := filterMap_fp_filter hasher ops
  have hFne : ∀ x ∈ ops.filter (fun x => !x.1.isSweep), x.1.key?.bind hasher ≠ none := by
    intro x hx
    obtain ⟨a, ha, rfl⟩ := hmemT x (hperm.mem_iff.1 hx)
    exact hsome a ha
  have hmap := filterMap_map_some (fun x : Op K V × Int => x.1.key?.bind hasher) _ hFne
  have hadds : (ttlOps adds).map (fun x : Op K V × Int => x.1.key?.bind hasher) =
      adds.map (fun a => hasher a.1) := by
    simp only [ttlOps, List.map_map]
    rfl
  have hnd : (ops.filterMap (fun x => x.1.key?.bind hasher)).Nodup := by
    rw [hfm]
    apply List.Nodup.of_map some
    rw [hmap]
    exact (hperm.map _).nodup_iff.2 (by rw [hadds]; exact hdist)
  have hlen : (ops.filterMap (fun x => x.1.key?.bind hasher)).length = adds.length := by
    rw [hfm]
    have h1 := congrArg List.length hmap
    simp only [List.length_map] at h1
    rw [h1, hperm.length_eq]
    simp [ttlOps]
  obtain ⟨c1, ps1, hrun, hinv1, hsz, hkeys, _, hall⟩ := inserts_run ops c0 [] hinv0
    (fun x hx => by
      cases hs : x.1.isSweep with
      | true => exact Or.inl rfl
      | false =>
        obtain ⟨a, ha, rfl⟩ := hmemF x hx hs
        exact Or.inr ⟨a.1, a.2.1, a.2.2.1, rfl, httl a ha, hsome a ha⟩)
    (by rw [hc0.1]; simpa using hnd)
    (by
      rw [hlen, hsz0]
      simpa using hcap)
    (fun x hx hs => by
      refine ⟨fun p hp => ?_, fun y hy key v ttl hyop => ?_⟩
      · rw [hc0.2] at hp
        exact absurd hp (List.not_mem_nil _)
      · have hsy : y.1.isSweep = false := by rw [hyop]; rfl
        obtain ⟨a, ha, rfl⟩ := hmemF y hy hsy
        cases hyop
        exact hlive x hx hs a ha)
  refine ⟨c1, hrun, ?_, by rw [Cache.Cap, hsz, hsz0], fun a ha => ?_⟩
  · have h1 := congrArg List.length hkeys
    rw [hc0.1] at h1
    simp only [List.length_map, List.map_nil, List.nil_append] at h1
    simp only [Cache.Len, h1, hlen]
  · have hx : (Op.AddWithTTL a.1 a.2.1 a.2.2.1, a.2.2.2) ∈ ops :=
      (List.mem_filter.1 (hperm.mem_iff.2 (List.mem_map.2 ⟨a, ha, rfl⟩))).1
    cases hk : hasher a.1 with
    | none => exact absurd hk (hsome a ha)
    | some hash =>
      obtain ⟨p, hg, hv, _⟩ := hall _ hx a.1 a.2.1 a.2.2.1 hash rfl hk
      exact ⟨by simp [Cache.Contains, hk, hg], by simp [Cache.Peek, hk, hg, hv]⟩

end ClaimC17

theorem C17_serialized_inserts_witness :
    Cache.NewCache 5 false = some cache5 ∧
    (run natHasher cache5
        [(Op.AddWithTTL 3 3 10, 1), (Op.deleteExpired, 2), (Op.AddWithTTL 1 1 10, 0),
          (Op.AddWithTTL 2 2 10, 0)]).map (fun c => (c.Len, c.keys)) = some (3, [2, 1, 3]) ∧
    ∃ c1, run natHasher cache5
        [(Op.AddWithTTL 3 3 10, 1), (Op.deleteExpired, 2), (Op.AddWithTTL 1 1 10, 0),
          (Op.AddWithTTL 2 2 10, 0)] = some c1 ∧
      c1.Len = ([(1, 1, 10, 0), (2, 2, 10, 0), (3, 3, 10, 1)] : List (Nat × Nat × Int × Int)).length ∧
      c1.Cap = 5 ∧
      ∀ a ∈ ([(1, 1, 10, 0), (2, 2, 10, 0), (3, 3, 10, 1)] : List (Nat × Nat × Int × Int)),
        c1.Contains natHasher a.1 = some (c1, true) ∧
        c1.Peek natHasher a.1 = some (c1, a.2.1, true) :=
  ⟨rfl, by decide,
    C17_serialized_inserts natHasher 5 false cache5 rfl
      [(1, 1, 10, 0), (2, 2, 10, 0), (3, 3, 10, 1)] (by decide) (by decide) (by decide)
      (by decide)
      [(Op.AddWithTTL 3 3 10, 1), (Op.deleteExpired, 2), (Op.AddWithTTL 1 1 10, 0),
        (Op.AddWithTTL 2 2 10, 0)]
      (List.perm_append_comm :
        ([(Op.AddWithTTL 3 3 10, 1)] ++ [(Op.AddWithTTL 1 1 10, 0), (Op.AddWithTTL 2 2 10, 0)] :
          List (Op Nat Nat × Int)).Perm _)
      (by decide)⟩

section ClaimC18
variable {K V : Type} [Inhabited K] [Inhabited V]

/-- C18. Re-adding with a TTL replaces the expiry. In every reachable cache, for
every key whose fingerprint is stored (in the entry `p`, first stored by `Add` or by
`AddWithTTL`), every value `v` and every non-zero `ttl`, the call
`AddWithTTL(key, v, ttl)` at clock reading `t` returns, sets the value of `p` to `v`
and its expiry to `t + ttl`, moves `p` to the front of the Recency List, and leaves
`Len()`, the Fingerprint Index, the stored keys, the TTL Index and the data of the
other entries as they were. After it every sequence of calls of `Get` (on keys that
can be hashed) and of sweeps at clock readings before `t + ttl` returns and keeps
the entry, whatever its previous expiry was: the fingerprint is still stored in
`p`, in the Recency List, with value `v` and expiry `t + ttl`, and a `Get(key)` at
any clock reading up to `t + ttl` returns `(v, true)`. -/
theorem C18_renewal_replaces_expiry (hasher : K → Option Nat) (c : Cache K V)
    (hreach : Reachable hasher c) (key : K) (hash : Nat) (p : Ptr) (v : V) (ttl t : Int)
    (hk : hasher key = some hash) (hg : mapGet c.items hash = some p) (httl : ttl ≠ 0) :
    ∃ c1, c.AddWithTTL hasher key v ttl t = some c1 ∧
      (c1.list.mem p).Value = v ∧ (c1.list.mem p).ExpiresAt = t + ttl ∧
      c1.list.toList = p :: c.list.toList.erase p ∧
      c1.Len = c.Len ∧ c1.items = c.items ∧ c1.keys.Perm c.keys ∧
      c1.entriesWithTTL = c.entriesWithTTL ∧
      (∀ q, q ≠ p → SameData c.list.mem c1.list.mem q) ∧
      ∀ ops : List (Op K V × Int),
        (∀ x ∈ ops, x.1.getOrSweep = true ∧ x.2 < t + ttl ∧
          ∀ k, x.1.key? = some k → hasher k ≠ none) →
        ∃ c2, run hasher c1 ops = some c2 ∧ mapGet c2.items hash = some p ∧
          p ∈ c2.list.toList ∧ (c2.list.mem p).Value = v ∧
          (c2.list.mem p).ExpiresAt = t + ttl ∧
          ∀ now, now ≤ t + ttl → ∃ c3, c2.Get hasher key now = some (c3, v, true) := by
  obtain ⟨ps, hinv⟩ := hreach.inv
  have hp := (hinv.wf.mem_of_get hg).2.1
  obtain ⟨l1, hmv, hrep, hf, hd, hadd, hwf⟩ := AddWithTTL_hit_spec hinv.wf v t httl hk hg
  have hinv1 : Inv hasher _ (p :: ps.erase p) := ⟨hwf, by
    have h1 := hinv.le_size
    show (((p :: ps.erase p).length : Nat) : Int) ≤ c.size
    rw [List.length_cons, List.length_erase_of_mem hp]
    have : 0 < ps.length := List.length_pos_of_mem hp
    omega⟩
  refine ⟨_, hadd, by simp, by simp, ?_, rfl, rfl, ?_, rfl, ?_, ?_⟩
  · rw [hwf.order_eq, hinv.wf.order_eq]
  · unfold Cache.keys
    rw [hwf.order_eq, hinv.wf.order_eq]
    have hkeys : ∀ q, ((setExpiresAt (setValue l1.mem p v) p (t + ttl)) q).Key =
        (c.list.mem q).Key := fun q => by simp [(hd q).1]
    show List.Perm (List.map (fun q => ((setExpiresAt (setValue l1.mem p v) p (t + ttl)) q).Key)
      (p :: ps.erase p)) _
    simp only [hkeys]
    exact (List.perm_cons_erase hp).symm.map _
  · intro q hq
    have h1 := hd q
    refine ⟨?_, ?_, ?_⟩
    · simp [h1.1]
    · simp [hq, h1.2.1]
    · simp [hq, h1.2.2]
  · intro ops hall
    have hexp : ((setExpiresAt (setValue l1.mem p v) p (t + ttl)) p).ExpiresAt = t + ttl := by
      simp
    have hval : ((setExpiresAt (setValue l1.mem p v) p (t + ttl)) p).Value = v := by simp
    obtain ⟨c2, ps2, hr, h2, hg2, hd2⟩ := Inv.run_keeps ops _ _ hinv1 hg
      (fun x hx => by
        obtain ⟨a, b, d⟩ := hall x hx
        exact ⟨a, by rw [hexp]; exact b, d⟩)
    have hv2 : (c2.list.mem p).Value = v := hd2.2.1.trans hval
    have he2 : (c2.list.mem p).ExpiresAt = t + ttl := hd2.2.2.trans hexp
    refine ⟨c2, hr, hg2, ?_, hv2, he2, fun now hnow => ?_⟩
    · rw [h2.wf.order_eq]; exact (h2.wf.mem_of_get hg2).2.1
    · obtain ⟨l3, _, _, _, _, hget, _⟩ :=
        Get_live_spec h2.wf hk hg2
        (show ¬ now > (c2.list.mem p).ExpiresAt by rw [he2]; omega)
      exact ⟨_, by rw [hget, hv2]⟩

end ClaimC18

theorem C18_renewal_replaces_expiry_witness :
    Reachable natHasher cacheTTL ∧ natHasher 1 = some 1 ∧ mapGet cacheTTL.items 1 = some 1 ∧
    (100 : Int) ≠ 0 ∧ (cacheTTL.list.mem 1).ExpiresAt = 5 ∧
    (run natHasher cacheTTL [(Op.AddWithTTL 1 2 100, 9), (Op.deleteExpired, 50)]).bind
        (fun c => (c.Get natHasher 1 60).map (fun r => r.2)) = some (2, true) ∧
    ∃ c1, cacheTTL.AddWithTTL natHasher 1 2 100 9 = some c1 ∧
      (c1.list.mem 1).Value = 2 ∧ (c1.list.mem 1).ExpiresAt = 9 + 100 ∧
      c1.Len = cacheTTL.Len ∧ c1.items = cacheTTL.items :=
  ⟨Reachable.of_run 2 false cache2 rfl [(Op.AddWithTTL 1 1 5, 0)] rfl, rfl, by decide,
    by decide, by decide, by decide,
    (C18_renewal_replaces_expiry natHasher cacheTTL
      (Reachable.of_run 2 false cache2 rfl [(Op.AddWithTTL 1 1 5, 0)] rfl) 1 1 1 2 100 9 rfl
      (by decide) (by decide)).imp
      (fun _ h => ⟨h.1, h.2.1, h.2.2.1, h.2.2.2.2.1, h.2.2.2.2.2.1⟩)⟩

section ClaimC19
variable {K V : Type}

/-- C19. Method `insertSorted` returns for every TTL Index and every new entry `e`
(the binary search ends within `len` iterations), with `e` inserted at an index
`low` and all other entries kept in their order. When the TTL Index is sorted by
descending `ExpiresAt`, `low` is the first index whose existing expiry is not
strictly after that of `e`: every element before `low` expires strictly after `e`
and no element from `low` on does (`low` is the length when there is none); the
result is the old sequence with `e` at index `low`, one longer, again sorted by
descending `ExpiresAt`, and nothing else of the cache changes. -/
theorem C19_insertSorted_sorted (c : Cache K V) (e : Ptr) :
    (∃ low, low ≤ c.entriesWithTTL.length ∧ c.insertSorted e =
      some { c with entriesWithTTL :=
        c.entriesWithTTL.take low ++ e :: c.entriesWithTTL.drop low }) ∧
    (TTLSorted c →
      ∃ low c1, c.insertSorted e = some c1 ∧ low ≤ c.entriesWithTTL.length ∧
        (∀ i (hi : i < c.entriesWithTTL.length), i < low →
          (c.list.mem c.entriesWithTTL[i]).ExpiresAt > (c.list.mem e).ExpiresAt) ∧
        (∀ i (hi : i < c.entriesWithTTL.length), low ≤ i →
          ¬ (c.list.mem c.entriesWithTTL[i]).ExpiresAt > (c.list.mem e).ExpiresAt) ∧
        c1.entriesWithTTL = c.entriesWithTTL.take low ++ e :: c.entriesWithTTL.drop low ∧
        c1.entriesWithTTL[low]? = some e ∧
        c1.entriesWithTTL.eraseIdx low = c.entriesWithTTL ∧
        c1.entriesWithTTL.length = c.entriesWithTTL.length + 1 ∧
        TTLSorted c1 ∧
        c1.list = c.list ∧ c1.items = c.items ∧ c1.size = c.size ∧ c1.calls = c.calls) := by
  refine ⟨insertSorted_spec c e, fun hs => ?_⟩
  obtain ⟨low, hrun, _, hle, hbefore, hafter⟩ :=
    searchLoop_sorted (fun p => (c.list.mem p).ExpiresAt) c.entriesWithTTL
      (c.list.mem e).ExpiresAt hs c.entriesWithTTL.length 0 c.entriesWithTTL.length (le_refl _)
      (by omega) (Nat.zero_le _) (fun i _ h => absurd h (Nat.not_lt_zero _))
      (fun i hi h => absurd hi (by omega))
  have hlen : (c.entriesWithTTL.take low).length = low := by
    rw [List.length_take]; omega
  refine ⟨low, { c with entriesWithTTL :=
      c.entriesWithTTL.take low ++ e :: c.entriesWithTTL.drop low }, ?_, hle, hbefore, hafter,
    rfl, ?_, ?_, ?_, ?_, rfl, rfl, rfl, rfl⟩
  · simp [Cache.insertSorted, hrun]
  · show (c.entriesWithTTL.take low ++ e :: c.entriesWithTTL.drop low)[low]? = some e
    rw [List.getElem?_append_right (by omega)]
    simp [hlen]
  · show (c.entriesWithTTL.take low ++ e :: c.entriesWithTTL.drop low).eraseIdx low = _
    rw [List.eraseIdx_append_of_length_le (by omega)]
    simp [hlen]
  · show (c.entriesWithTTL.take low ++ e :: c.entriesWithTTL.drop low).length = _
    simp only [List.length_append, List.length_cons, List.length_take, List.length_drop]
    omega
  · show (c.entriesWithTTL.take low ++ e :: c.entriesWithTTL.drop low).Pairwise
      (fun a b => (c.list.mem a).ExpiresAt ≥ (c.list.mem b).ExpiresAt)
    have hs2 : (c.entriesWithTTL.take low ++ c.entriesWithTTL.drop low).Pairwise
        (fun a b => (c.list.mem a).ExpiresAt ≥ (c.list.mem b).ExpiresAt) := by
      rw [List.take_append_drop]; exact hs
    rw [List.pairwise_append] at hs2 ⊢
    refine ⟨hs2.1, List.pairwise_cons.2 ⟨?_, hs2.2.1⟩, ?_⟩
    · intro b hb
      obtain ⟨j, hj, rfl⟩ := List.getElem_of_mem hb
      rw [List.getElem_drop]
      have := hafter (low + j) (by rw [List.length_drop] at hj; omega) (by omega)
      omega
    · intro a ha b hb
      rcases List.mem_cons.1 hb with rfl | hb
      · obtain ⟨j, hj, rfl⟩ := List.getElem_of_mem ha
        rw [List.getElem_take]
        have := hbefore j (by rw [List.length_take] at hj; omega)
          (by rw [List.length_take] at hj; omega)
        omega
      · exact hs2.2.2 a ha b hb

end ClaimC19

theorem C19_insertSorted_sorted_witness :
    (cachePushed.entriesWithTTL.map (fun p => (cachePushed.list.mem p).ExpiresAt),
      (cachePushed.list.mem 3).ExpiresAt) = ([10, 5], 7) ∧
    (cachePushed.insertSorted 3).map (fun c => c.entriesWithTTL) = some [1, 3, 2] ∧
    ∃ low c1, cachePushed.insertSorted 3 = some c1 ∧ low ≤ cachePushed.entriesWithTTL.length ∧
      c1.entriesWithTTL =
        cachePushed.entriesWithTTL.take low ++ 3 :: cachePushed.entriesWithTTL.drop low ∧
      TTLSorted c1 :=
  ⟨by decide, by decide,
    ((C19_insertSorted_sorted cachePushed 3).2 (by unfold TTLSorted; decide)).imp
      (fun _ h => h.imp (fun _ h => ⟨h.1, h.2.1, h.2.2.2.2.1, h.2.2.2.2.2.2.2.2.1⟩))⟩

/-- C20 at a failing input. After `AddWithTTL(1, 1, 10)` and `AddWithTTL(2, 2, 5)` at
clock reading 0 the TTL Index holds the entry of key 1 (expiry 10) before the
entry of key 2 (expiry 5), sorted by descending expiry. At clock reading 1 both
entries are live and the soonest expiry, that of the last element of the TTL Index,
is 4 away; the sweep computes its sleep from element 0 of the TTL Index, the
latest expiry, and suspends for 9. With one element in the TTL Index the two
durations agree. -/
theorem C20_sweep_sleeps_until_latest_expiry :
    (run natHasher cache5 [(Op.AddWithTTL 1 1 10, 0), (Op.AddWithTTL 2 2 5, 0)]).isSome = true ∧
    cacheTwoTTL.entriesWithTTL.map (fun p => ((cacheTwoTTL.list.mem p).Key,
      (cacheTwoTTL.list.mem p).ExpiresAt)) = [(1, 10), (2, 5)] ∧
    TTLSorted cacheTwoTTL ∧
    cacheTwoTTL.timeToExpire 1 = some 9 ∧
    cacheTwoTTL.entriesWithTTL.getLast?.map (fun e => (cacheTwoTTL.list.mem e).ExpiresAt - 1) =
      some 4 ∧
    cacheTTL.timeToExpire 1 = some 4 ∧
    cacheTTL.entriesWithTTL.getLast?.map (fun e => (cacheTTL.list.mem e).ExpiresAt - 1) =
      some 4 := by
  refine ⟨by decide, by decide, ?_, by decide, by decide, by decide, by decide⟩
  unfold TTLSorted
  decide

section ClaimC21
variable {K V : Type} [Inhabited K] [Inhabited V]

/-- C21. Negative TTL is not a no-op. In every reachable cache, for every key whose
fingerprint is not stored, every value `v` and every `ttl < 0`, the call
`AddWithTTL(key, v, ttl)` at clock reading `t` returns and stores a new entry whose
expiry `t + ttl` lies before `t`: the entry is at the front of the Recency List, in
the Fingerprint Index and in the TTL Index, `Contains(key)` is true and `Peek(key)`
returns `(v, true)`. When the cache was below its capacity `Len()` grows by one and
nothing else changes; when it was full the entry at the back of the Recency List,
the least recently used one, is evicted from the three structures whatever its
expiry and `Len()` stays at the capacity. A `Get(key)` at any clock reading from `t`
on then reports not-found and removes the entry from the three structures, so
that `Len()` drops by one. -/
theorem C21_negative_ttl_inserts (hasher : K → Option Nat) (c : Cache K V)
    (hreach : Reachable hasher c) (key : K) (hash : Nat) (v : V) (ttl t : Int)
    (hk : hasher key = some hash) (hg : mapGet c.items hash = none) (hneg : ttl < 0) :
    ∃ c1, c.AddWithTTL hasher key v ttl t = some c1 ∧
      c1.list.toList.head? = some c.list.fresh ∧
      mapGet c1.items hash = some c.list.fresh ∧
      c.list.fresh ∈ c1.entriesWithTTL ∧
      (c1.list.mem c.list.fresh).Key = key ∧ (c1.list.mem c.list.fresh).Value = v ∧
      (c1.list.mem c.list.fresh).ExpiresAt = t + ttl ∧
      (c1.list.mem c.list.fresh).ExpiresAt < t ∧
      c1.Contains hasher key = some (c1, true) ∧ c1.Peek hasher key = some (c1, v, true) ∧
      (c.Len < c.Cap ∨ c.Len = c.Cap) ∧
      (c.Len < c.Cap →
        c1.Len = c.Len + 1 ∧ c1.list.toList = c.list.fresh :: c.list.toList ∧
        ∀ q, q ≠ c.list.fresh → SameData c.list.mem c1.list.mem q) ∧
      (c.Len = c.Cap →
        c1.Len = c.Len ∧
        ∃ last lastHash, c.list.Last = some last ∧
          c.list.toList = c.list.toList.dropLast ++ [last] ∧
          Evicts c c1 last lastHash hash key v (t + ttl)) ∧
      ∀ now, t ≤ now →
        ∃ c2, c1.Get hasher key now = some (c2, default, false) ∧
          mapGet c2.items hash = none ∧ c.list.fresh ∉ c2.list.toList ∧
          c.list.fresh ∉ c2.entriesWithTTL ∧ c2.Len = c1.Len - 1 := by
  obtain ⟨ps, hinv⟩ := hreach.inv
  have httl : ttl ≠ 0 := by omega
  have hlen : c.Len = (ps.length : Int) := by
    simp only [Cache.Len, hinv.wf.items_length]
  have hcases : c.Len < c.Cap ∨ c.Len = c.Cap := by
    have := hinv.le_size
    simp only [Cache.Cap]
    omega
  have after : ∀ c1 : Cache K V, c.AddWithTTL hasher key v ttl t = some c1 →
      mapGet c1.items hash = some c.list.fresh →
      (c1.list.mem c.list.fresh).ExpiresAt = t + ttl →
      ∀ now, t ≤ now →
        ∃ c2, c1.Get hasher key now = some (c2, default, false) ∧
          mapGet c2.items hash = none ∧ c.list.fresh ∉ c2.list.toList ∧
          c.list.fresh ∉ c2.entriesWithTTL ∧ c2.Len = c1.Len - 1 := by
    intro c1 hadd hst hexp now hnow
    have hstep : step hasher c (Op.AddWithTTL key v ttl) t = some c1 := hadd
    obtain ⟨ps1, hinv1⟩ := (Reachable.step c _ t c1 hreach hstep).inv
    have hp := (hinv1.wf.mem_of_get hst).2.1
    obtain ⟨l1, _, _, _, hget, hwf⟩ :=
      Get_expired_spec hinv1.wf hk hst
        (show now > (c1.list.mem c.list.fresh).ExpiresAt by rw [hexp]; omega)
    refine ⟨_, hget, ?_, ?_, List.Nodup.not_mem_erase hinv1.wf.ttl_nodup, ?_⟩
    · show mapGet (mapDelete c1.items hash) hash = none
      rw [mapGet_mapDelete, if_pos rfl]
    · rw [hwf.order_eq]; exact List.Nodup.not_mem_erase hinv1.wf.rep.nodup
    · have h1 := hwf.items_length
      have h2 := hinv1.wf.items_length
      have h3 := List.length_erase_of_mem hp
      have h4 : 0 < ps1.length := List.length_pos_of_mem hp
      simp only [Cache.Len, h1, h2, h3]
      omega
  rcases hcases with hroom | hfull
  · obtain ⟨c1, low, hadd, hinv1, hlist, hitems, hlow, httlidx, hkey, hval, hexp, hdata, hlen1⟩ :=
      AddWithTTL_room hinv.wf (by rw [← hlen]; exact hroom) v httl t hk hg
    have hst : mapGet c1.items hash = some c.list.fresh := by
      rw [hitems, mapGet_mapSet, if_pos rfl]
    refine ⟨c1, hadd, by rw [hlist]; rfl, hst, ?_, hkey, hval, hexp, by rw [hexp]; omega,
      by simp [Cache.Contains, hk, hst], by simp [Cache.Peek, hk, hst, hval], Or.inl hroom,
      fun _ => ⟨hlen1, hlist, hdata⟩, fun hfull => ?_, after c1 hadd hst hexp⟩
    · rw [httlidx]; simp
    · rw [hfull] at hroom; exact absurd hroom (lt_irrefl _)
  · obtain ⟨last, lastHash, c1, low, hlast, hsplit, _, _, hadd, hev, hlow, httlidx⟩ :=
      AddWithTTL_overflow hinv hfull v httl t hk hg
    have hne : c.list.fresh ≠ last := by
      rintro rfl
      exact hev.gone_list (by rw [hev.order]; exact List.mem_cons_self _ _)
    refine ⟨c1, hadd, by rw [hev.order]; rfl, hev.stored, ?_, hev.stored_key, hev.stored_value,
      hev.stored_expiry, by rw [hev.stored_expiry]; omega,
      by simp [Cache.Contains, hk, hev.stored],
      by simp [Cache.Peek, hk, hev.stored, hev.stored_value], Or.inr hfull,
      fun hroom => ?_, fun _ => ⟨?_, last, lastHash, hlast, hsplit, hev⟩,
      after c1 hadd hev.stored hev.stored_expiry⟩
    · rw [httlidx]
      exact (List.mem_erase_of_ne hne).2 (by simp)
    · rw [hfull] at hroom; exact absurd hroom (lt_irrefl _)
    · rw [hev.len, hev.cap, hfull]

end ClaimC21

theorem C21_negative_ttl_inserts_witness :
    Reachable natHasher cacheFull ∧ natHasher 3 = some 3 ∧ mapGet cacheFull.items 3 = none ∧
    (-5 : Int) < 0 ∧
    (cacheFull.keys, cacheFull.Len, cacheFull.Cap) = ([2, 1], 2, 2) ∧
    10 < (cacheFull.list.mem 1).ExpiresAt ∧
    (cacheFull.AddWithTTL natHasher 3 3 (-5) 10).map
        (fun c => (c.keys, c.items, c.entriesWithTTL, (c.list.mem 3).ExpiresAt, c.Len)) =
      some ([3, 2], [(2, 2), (3, 3)], [3], 5, 2) ∧
    ((cacheFull.AddWithTTL natHasher 3 3 (-5) 10).bind (fun c => c.Get natHasher 3 10)).map
        (fun r => r.2) = some (0, false) ∧
    ((cacheFull.AddWithTTL natHasher 3 3 (-5) 10).bind (fun c => c.Get natHasher 3 10)).map
        (fun r => (r.1.keys, r.1.items, r.1.entriesWithTTL, r.1.Len)) =
      some ([2], [(2, 2)], [], 1) ∧
    ∃ c1, cacheFull.AddWithTTL natHasher 3 3 (-5) 10 = some c1 ∧
      mapGet c1.items 3 = some cacheFull.list.fresh ∧
      c1.Contains natHasher 3 = some (c1, true) ∧ c1.Peek natHasher 3 = some (c1, 3, true) :=
  ⟨Reachable.of_run 2 false cache2 rfl [(Op.Add 1 1, 0), (Op.Add 2 2, 1)] rfl, rfl, by decide,
    by decide, by decide, by decide, by decide, by decide, by decide,
    (C21_negative_ttl_inserts natHasher cacheFull
      (Reachable.of_run 2 false cache2 rfl [(Op.Add 1 1, 0), (Op.Add 2 2, 1)] rfl)
      3 3 3 (-5) 10 rfl (by decide) (by decide)).imp
      (fun _ h => ⟨h.1, h.2.2.1, h.2.2.2.2.2.2.2.2.1, h.2.2.2.2.2.2.2.2.2.1⟩)⟩

end LRU
